import Mathlib

/-!
# G233 custom-instruction helpers

A shallow embedding of `target/riscv/g233_helper.c` (the four helpers
`helper_dma`, `helper_sort`, `helper_crush`, `helper_expand`) together with
the guest memory they reach through `cpu_ld*_data` / `cpu_st*_data`.

Modelling conventions.

* `target_ulong` is declared outside the helper file; its width is the
  parameter `XLen` (32 or 64 bits).  Address arithmetic is modulo `2 ^ bits`.
* `int` is a 32-bit two's complement integer.  QEMU is compiled with
  `-fwrapv`, so `int` arithmetic wraps; `toInt32` is that wrap-around.
* Guest memory is a flat map from byte addresses to bytes, words are
  little-endian.
* A memory access may raise an address fault.  The fault decision is an
  oracle `Port`; every access that is issued is appended to the access trace,
  the faulting one included, and a fault ends the helper at once (in QEMU the
  accessor leaves the helper through `cpu_loop_exit`).
* The local buffers (`temp`, `arr`) are lists; an index outside the buffer and
  an allocation of a negative element count end the run with status `abort`.
-/

namespace G233

/-! ## Machine integers -/

/-- Width of `target_ulong`. -/
inductive XLen where
  | rv32
  | rv64
deriving DecidableEq

/-- Number of bits of `target_ulong`. -/
def XLen.bits : XLen → Nat
  | .rv32 => 32
  | .rv64 => 64

/-- Number of distinct addresses, `2 ^ bits`. -/
def XLen.modulus (x : XLen) : Nat := 2 ^ x.bits

/-- Conversion to `int`: reduce modulo `2 ^ 32` into `[-2 ^ 31, 2 ^ 31)`. -/
def toInt32 (v : Int) : Int := (v + 2147483648) % 4294967296 - 2147483648

/-- Addition of two `int`s. -/
def iadd (a b : Int) : Int := toInt32 (a + b)

/-- Subtraction of two `int`s. -/
def isub (a b : Int) : Int := toInt32 (a - b)

/-- Multiplication of two `int`s. -/
def imul (a b : Int) : Int := toInt32 (a * b)

/-- The sum `base + off` of a `target_ulong` and an `int` converted to
`target_ulong`. -/
def taddr (x : XLen) (base : Nat) (off : Int) : Nat :=
  (((base : Int) + off) % (x.modulus : Int)).toNat

/-! ## Guest memory -/

/-- One byte of guest memory. -/
abbrev Byte := Fin 256

/-- Flat byte-addressable guest memory. -/
abbrev Mem := Nat → Byte

/-- The byte `v mod 256`. -/
def byteOf (v : Nat) : Byte := ⟨v % 256, Nat.mod_lt v (by decide)⟩

/-- Replace one byte of the memory. -/
def Mem.set (m : Mem) (a : Nat) (b : Byte) : Mem := fun c => if c = a then b else m c

/-- The byte at address `a` (taken modulo the address space). -/
def readByte (x : XLen) (m : Mem) (a : Nat) : Nat := (m (a % x.modulus)).val

/-- The little-endian 32-bit word at address `a`. -/
def readWord (x : XLen) (m : Mem) (a : Nat) : Nat :=
  readByte x m a + 256 * readByte x m (a + 1) + 65536 * readByte x m (a + 2)
    + 16777216 * readByte x m (a + 3)

/-- Store the low 8 bits of `v` at address `a`. -/
def writeByte (x : XLen) (m : Mem) (a : Nat) (v : Nat) : Mem :=
  m.set (a % x.modulus) (byteOf v)

/-- Store the low 32 bits of `v` at address `a`, little-endian. -/
def writeWord (x : XLen) (m : Mem) (a : Nat) (v : Nat) : Mem :=
  writeByte x (writeByte x (writeByte x (writeByte x m a v) (a + 1) (v / 256))
    (a + 2) (v / 65536)) (a + 3) (v / 16777216)

/-! ## Memory port, access trace, results -/

/-- Direction of a memory access. -/
inductive AccessKind where
  | load
  | store
deriving DecidableEq

/-- One memory-port call: direction, address, width in bytes, and whether the
port answered with an address fault. -/
structure Access where
  kind : AccessKind
  addr : Nat
  size : Nat
  faulted : Bool
deriving DecidableEq

/-- The part of `CPURISCVState` the helpers touch: guest memory, plus the log
of memory-port calls issued so far, oldest first. -/
structure Env where
  mem : Mem
  trace : List Access

/-- Fault oracle of the memory port: given the current state, the direction,
the address and the width of an access, does the access fault. -/
abbrev Port := Env → AccessKind → Nat → Nat → Bool

/-- How a run ended. -/
inductive Status where
  | ok
  | fault
  | abort
deriving DecidableEq

/-- Result of a computation over `Env`: a value, an address fault, or a
host-level failure (buffer overrun, aborted allocation). -/
inductive Res (α : Type) where
  | ok (val : α) (env : Env)
  | fault (env : Env)
  | abort (env : Env)

/-- Status of a result. -/
def Res.status {α : Type} : Res α → Status
  | .ok _ _ => .ok
  | .fault _ => .fault
  | .abort _ => .abort

/-- State in which a run ended. -/
def Res.env {α : Type} : Res α → Env
  | .ok _ e => e
  | .fault e => e
  | .abort e => e

/-- Sequencing: continue only after a successful step. -/
def Res.bind {α β : Type} (r : Res α) (f : α → Env → Res β) : Res β :=
  match r with
  | .ok v e => f v e
  | .fault e => .fault e
  | .abort e => .abort e

/-- Append an access to the trace. -/
def Env.log (env : Env) (k : AccessKind) (a size : Nat) (faulted : Bool) : Env :=
  ⟨env.mem, env.trace ++ [⟨k, a, size, faulted⟩]⟩

/-- The accessor `cpu_ldub_data`: load one byte. -/
def cpu_ldub_data (P : Port) (x : XLen) (addr : Nat) (env : Env) : Res Nat :=
  let a := addr % x.modulus
  if P env .load a 1 then .fault (env.log .load a 1 true)
  else .ok (readByte x env.mem a) (env.log .load a 1 false)

/-- The accessor `cpu_ldl_data`: load one 32-bit word. -/
def cpu_ldl_data (P : Port) (x : XLen) (addr : Nat) (env : Env) : Res Nat :=
  let a := addr % x.modulus
  if P env .load a 4 then .fault (env.log .load a 4 true)
  else .ok (readWord x env.mem a) (env.log .load a 4 false)

/-- The accessor `cpu_stb_data`: store one byte. -/
def cpu_stb_data (P : Port) (x : XLen) (addr : Nat) (v : Nat) (env : Env) : Res Unit :=
  let a := addr % x.modulus
  if P env .store a 1 then .fault (env.log .store a 1 true)
  else .ok () ⟨writeByte x env.mem a v, env.trace ++ [⟨.store, a, 1, false⟩]⟩

/-- The accessor `cpu_stl_data`: store one 32-bit word. -/
def cpu_stl_data (P : Port) (x : XLen) (addr : Nat) (v : Nat) (env : Env) : Res Unit :=
  let a := addr % x.modulus
  if P env .store a 4 then .fault (env.log .store a 4 true)
  else .ok () ⟨writeWord x env.mem a v, env.trace ++ [⟨.store, a, 4, false⟩]⟩

/-! ## Local buffers and loops -/

/-- Read `buf[i]`; an index outside the buffer is a host-level failure. -/
def bufGet (buf : List Nat) (i : Int) (env : Env) : Res Nat :=
  if 0 ≤ i then
    match buf[i.toNat]? with
    | some v => .ok v env
    | none => .abort env
  else .abort env

/-- Assign `buf[i] = v`; an index outside the buffer is a host-level failure. -/
def bufSet (buf : List Nat) (i : Int) (v : Nat) (env : Env) : Res (List Nat) :=
  if 0 ≤ i ∧ i.toNat < buf.length then .ok (buf.set i.toNat v) env else .abort env

/-- Allocation `g_malloc(n * sizeof(uint32_t))` for an `int` count `n`: a
negative count converts to a size near `2 ^ 64` and `g_malloc` aborts. The
fresh cells are unspecified; they are modelled as zero. -/
def g_malloc_words (n : Int) (env : Env) : Res (List Nat) :=
  if n < 0 then .abort env else .ok (List.replicate n.toNat 0) env

/-- Iterations `i, i + 1, ...` (`k` of them) of a loop body over the local
state `α`, stopping at the first step that does not succeed. -/
def forLoopAux {α : Type} (body : Int → α → Env → Res α) : Nat → Int → α → Env → Res α
  | 0, _, a, env => .ok a env
  | k + 1, i, a, env => (body i a env).bind fun a1 env1 => forLoopAux body k (i + 1) a1 env1

/-- The loop `for (int i = 0; i < n; i++) body`, for a bound `n` the body does
not modify: `n` iterations when `n` is positive, none otherwise (the counter
stays below `n`, so its increment never wraps). -/
def forLoop {α : Type} (n : Int) (body : Int → α → Env → Res α) (a : α) (env : Env) : Res α :=
  forLoopAux body n.toNat 0 a env

/-! ## The helpers -/

/-- Matrix dimension selected by the grain operand (the `switch` of
`helper_dma`). -/
def grainSize (grain : Nat) : Int :=
  if grain = 0 then 8
  else if grain = 1 then 16
  else if grain = 2 then 32
  else 8

/-- Read phase of `helper_dma`: fill `temp` row by row from `src`. -/
def dmaRead (P : Port) (x : XLen) (src : Nat) (grain_size : Int)
    (temp : List Nat) (env : Env) : Res (List Nat) :=
  forLoop grain_size (fun i temp env =>
    forLoop grain_size (fun j temp env =>
      (cpu_ldl_data P x (taddr x src (imul (iadd (imul i grain_size) j) 4)) env).bind
        fun v env => bufSet temp (iadd (imul i grain_size) j) v env) temp env) temp env

/-- Write phase of `helper_dma`: store the transpose of `temp` row by row at
`dst`. -/
def dmaWrite (P : Port) (x : XLen) (dst : Nat) (grain_size : Int)
    (temp : List Nat) (env : Env) : Res Unit :=
  forLoop grain_size (fun i u env =>
    forLoop grain_size (fun j _ env =>
      (bufGet temp (iadd (imul j grain_size) i) env).bind fun v env =>
        cpu_stl_data P x (taddr x dst (imul (iadd (imul i grain_size) j) 4)) v env) u env) () env

/-- The helper `helper_dma(env, dst, src, grain)`. -/
def helper_dma (P : Port) (x : XLen) (env : Env) (dst src grain : Nat) : Res Unit :=
  let grain_size := grainSize grain
  let temp : List Nat := List.replicate (imul grain_size grain_size).toNat 0
  (dmaRead P x src grain_size temp env).bind fun temp env =>
    dmaWrite P x dst grain_size temp env

/-- Read loop of `helper_sort`. -/
def sortRead (P : Port) (x : XLen) (addr : Nat) (arr_size : Int)
    (arr : List Nat) (env : Env) : Res (List Nat) :=
  forLoop arr_size (fun i arr env =>
    (cpu_ldl_data P x (taddr x addr (imul i 4)) env).bind fun v env => bufSet arr i v env)
    arr env

/-- Body of the inner loop of the bubble sort: compare `arr[j]` with
`arr[j + 1]` and swap them when out of order. -/
def sortStep (j : Int) (arr : List Nat) (env : Env) : Res (List Nat) :=
  (bufGet arr j env).bind fun a env =>
  (bufGet arr (iadd j 1) env).bind fun b env =>
    if a > b then
      (bufSet arr j b env).bind fun arr env => bufSet arr (iadd j 1) a env
    else .ok arr env

/-- The two nested loops of the bubble sort of `helper_sort`. -/
def sortBubble (sort_size : Int) (arr : List Nat) (env : Env) : Res (List Nat) :=
  forLoop (isub sort_size 1) (fun i arr env =>
    forLoop (isub (isub sort_size i) 1) sortStep arr env) arr env

/-- Write-back loop of `helper_sort`. -/
def sortWrite (P : Port) (x : XLen) (addr : Nat) (arr_size : Int)
    (arr : List Nat) (env : Env) : Res Unit :=
  forLoop arr_size (fun i u env =>
    (bufGet arr i env).bind fun v env =>
      (cpu_stl_data P x (taddr x addr (imul i 4)) v env).bind fun _ env => .ok u env) () env

/-- The helper `helper_sort(env, addr, array_num, sort_num)`. -/
def helper_sort (P : Port) (x : XLen) (env : Env) (addr array_num sort_num : Nat) : Res Unit :=
  let arr_size := toInt32 array_num
  let sort_size := toInt32 sort_num
  let sort_size := if sort_size > arr_size then arr_size else sort_size
  (g_malloc_words arr_size env).bind fun arr env =>
  (sortRead P x addr arr_size arr env).bind fun arr env =>
  (sortBubble sort_size arr env).bind fun arr env =>
    sortWrite P x addr arr_size arr env

/-- The helper `helper_crush(env, dst, src, num)`. -/
def helper_crush (P : Port) (x : XLen) (env : Env) (dst src num : Nat) : Res Unit :=
  let n := toInt32 num
  forLoop (Int.tdiv n 2) (fun i u env =>
    (cpu_ldub_data P x (taddr x src (imul i 2)) env).bind fun b1 env =>
    (cpu_ldub_data P x (taddr x (taddr x src (imul i 2)) 1) env).bind fun b2 env =>
      let val1 := (b1 &&& 0x0F) % 256
      let val2 := (b2 &&& 0x0F) % 256
      let packed := ((val2 <<< 4) ||| val1) % 256
      (cpu_stb_data P x (taddr x dst i) packed env).bind fun _ env => .ok u env) () env

/-- The helper `helper_expand(env, dst, src, num)`. -/
def helper_expand (P : Port) (x : XLen) (env : Env) (dst src num : Nat) : Res Unit :=
  let n := toInt32 num
  forLoop n (fun i u env =>
    (cpu_ldub_data P x (taddr x src i) env).bind fun val env =>
      let low := (val &&& 0x0F) % 256
      let high := ((val >>> 4) &&& 0x0F) % 256
      (cpu_stb_data P x (taddr x dst (imul i 2)) low env).bind fun _ env =>
      (cpu_stb_data P x (taddr x (taddr x dst (imul i 2)) 1) high env).bind fun _ env =>
        .ok u env) () env

/-! ## Ports, memories and views used in the statements -/

/-- A port that never faults. -/
def noFault : Port := fun _ _ _ _ => false

/-- Memory holding the bytes `bs` from address `base` on, zero elsewhere. -/
def memOfBytes (base : Nat) (bs : List Nat) : Mem :=
  fun a => if base ≤ a then byteOf (bs.getD (a - base) 0) else byteOf 0

/-- Memory holding the little-endian words `ws` from address `base` on. -/
def memOfWords (base : Nat) (ws : List Nat) : Mem :=
  fun a => if base ≤ a then
      byteOf ((ws.getD ((a - base) / 4) 0) / 256 ^ ((a - base) % 4))
    else byteOf 0

/-- The words at `addr, addr + 4, ...` (`n` of them). -/
def readWords (x : XLen) (m : Mem) (addr n : Nat) : List Nat :=
  (List.range n).map fun i => readWord x m (addr + 4 * i)

/-- The bytes at `addr, addr + 1, ...` (`n` of them). -/
def readBytes (x : XLen) (m : Mem) (addr n : Nat) : List Nat :=
  (List.range n).map fun i => readByte x m (addr + i)

/-! ## Vocabulary of the proofs -/

/-- The word at `b` does not share a byte with the word at `a`. -/
def WordDisj (x : XLen) (a b : Nat) : Prop :=
  ∀ p q, p < 4 → q < 4 → (a + p) % x.modulus ≠ (b + q) % x.modulus

/-- Postcondition of a result: `Q` after success, `F` after a failure. -/
def Res.sat {α : Type} (r : Res α) (Q : α → Env → Prop) (F : Status → Env → Prop) : Prop :=
  match r with
  | .ok v e => Q v e
  | .fault e => F .fault e
  | .abort e => F .abort e

/-- The failure postcondition `F` admits every fault the port `P` can raise. -/
def FaultsInto (P : Port) (F : Status → Env → Prop) : Prop :=
  ∀ e k a sz, P e k a sz = true → F .fault (e.log k a sz true)

/-- Entry `k` of a buffer (zero outside the buffer). -/
def nth (l : List Nat) (k : Nat) : Nat := (l[k]?).getD 0

/-- Address of the array element `i` as `helper_sort` computes it. -/
def sortAddr (x : XLen) (addr : Nat) (i : Nat) : Nat := taddr x addr (imul i 4)

/-- The array as `helper_sort` reads it: the words at the element addresses. -/
def sortInput (x : XLen) (m : Mem) (addr : Nat) (L : Nat) : List Nat :=
  (List.range L).map fun i => readWord x m (sortAddr x addr i)

/-- The element addresses of an array of `L` words do not overlap. -/
def NoAlias (x : XLen) (addr : Nat) (L : Nat) : Prop :=
  ∀ i j : Nat, i < L → j < L → i ≠ j → WordDisj x (sortAddr x addr i) (sortAddr x addr j)

/-- Memory whose bytes are all 1 except for the four zero bytes of the word at
address `2 ^ 32`. -/
def gapMem : Mem :=
  fun a => if 4294967296 ≤ a ∧ a < 4294967300 then byteOf 0 else byteOf 1

/-- Every access of the list succeeded. -/
def AllOk (l : List Access) : Prop := ∀ a ∈ l, a.faulted = false

/-- Position, counted from 1, of the first access of the list that faulted. -/
def firstFault : List Access → Option Nat
  | [] => none
  | a :: l => if a.faulted then some 1 else (firstFault l).map (fun k => k + 1)

/-- The accesses a run issued: what it appended to the trace of `env`. -/
def newAccesses {α : Type} (env : Env) (r : Res α) : List Access :=
  r.env.trace.drop env.trace.length

/-- Shape of the accesses issued by a run that ended with status `s`: after a
fault the faulting access is the last one and the only one that faulted;
otherwise no access faulted. -/
def Propagated (s : Status) (news : List Access) : Prop :=
  (s = .fault → ∃ pre a, news = pre ++ [a] ∧ a.faulted = true ∧ AllOk pre) ∧
  (s ≠ .fault → AllOk news)

/-- The state extends the trace `tr0` by accesses that all succeeded. -/
def Clean (tr0 : List Access) (e : Env) : Prop :=
  ∃ news, e.trace = tr0 ++ news ∧ AllOk news

/-- The state of a failed run extends the trace `tr0` as `Propagated` says. -/
def FailedShape (tr0 : List Access) (s : Status) (e : Env) : Prop :=
  ∃ news, e.trace = tr0 ++ news ∧ Propagated s news

/-- A computation that keeps the trace discipline: started in a clean state it
ends in a clean state or fails with the shape `FailedShape`. -/
def Tracks {α : Type} (f : Env → Res α) : Prop :=
  ∀ tr0 env, Clean tr0 env → (f env).sat (fun _ e => Clean tr0 e) (FailedShape tr0)

/-- A port that faults on the access issued when the trace already holds `n`
accesses, and on no other. -/
def faultAfter (n : Nat) : Port := fun env _ _ _ => env.trace.length == n

/-- The accesses of `n` successful word loads at `base, base + 4, ...`, in
that order. -/
def wordLoads (x : XLen) (base n : Nat) : List Access :=
  (List.range n).map fun k => ⟨.load, (base + 4 * k) % x.modulus, 4, false⟩

/-- The accesses of `n` successful word stores at `base, base + 4, ...`, in
that order. -/
def wordStores (x : XLen) (base n : Nat) : List Access :=
  (List.range n).map fun k => ⟨.store, (base + 4 * k) % x.modulus, 4, false⟩

/-- The accesses of `n` successful iterations of the packing loop: iteration
`i` loads the bytes at `src + 2 * i` and `src + 2 * i + 1` and stores the byte
at `dst + i`. -/
def crushAccesses (x : XLen) (dst src n : Nat) : List Access :=
  (List.range n).flatMap fun i =>
    [⟨.load, (src + 2 * i) % x.modulus, 1, false⟩,
     ⟨.load, (src + 2 * i + 1) % x.modulus, 1, false⟩,
     ⟨.store, (dst + i) % x.modulus, 1, false⟩]

/-- The accesses of `n` successful word loads at the element addresses of an
array, as `helper_sort` computes them. -/
def sortLoads (x : XLen) (addr n : Nat) : List Access :=
  (List.range n).map fun i => ⟨.load, sortAddr x addr i, 4, false⟩

/-- The accesses of `n` successful word stores at the element addresses of an
array, as `helper_sort` computes them. -/
def sortStores (x : XLen) (addr n : Nat) : List Access :=
  (List.range n).map fun i => ⟨.store, sortAddr x addr i, 4, false⟩

/-! ## Integer and address arithmetic -/

theorem toInt32_of_range (v : Int) (h1 : -2147483648 ≤ v) (h2 : v < 2147483648) :
    toInt32 v = v := by
  unfold toInt32; omega

theorem modulus_pos (x : XLen) : 0 < x.modulus := by
  cases x <;> simp [XLen.modulus, XLen.bits]

theorem modulus_cases (x : XLen) :
    x.modulus = 4294967296 ∨ x.modulus = 18446744073709551616 := by
  cases x
  · left; rfl
  · right; rfl

theorem taddr_nonneg (x : XLen) (base : Nat) (off : Int) (h : 0 ≤ off) :
    taddr x base off = (base + off.toNat) % x.modulus := by
  unfold taddr
  rcases modulus_cases x with hm | hm <;> rw [hm] <;> push_cast <;> omega

theorem taddr_lt (x : XLen) (base : Nat) (off : Int) : taddr x base off < x.modulus := by
  unfold taddr
  rcases modulus_cases x with hm | hm <;> rw [hm] <;> push_cast <;> omega

/-! ## Memory lemmas -/

theorem Env.log_mem (env : Env) (k : AccessKind) (a size : Nat) (faulted : Bool) :
    (env.log k a size faulted).mem = env.mem := rfl

theorem readByte_lt (x : XLen) (m : Mem) (a : Nat) : readByte x m a < 256 :=
  (m (a % x.modulus)).isLt

theorem readWord_lt (x : XLen) (m : Mem) (a : Nat) : readWord x m a < 4294967296 := by
  have h0 := readByte_lt x m a
  have h1 := readByte_lt x m (a + 1)
  have h2 := readByte_lt x m (a + 2)
  have h3 := readByte_lt x m (a + 3)
  unfold readWord; omega

theorem readByte_mod (x : XLen) (m : Mem) (a : Nat) :
    readByte x m (a % x.modulus) = readByte x m a := by
  unfold readByte; rw [Nat.mod_mod]

theorem readByte_congr (x : XLen) (m : Mem) (a b : Nat) (h : a % x.modulus = b % x.modulus) :
    readByte x m a = readByte x m b := by
  unfold readByte; rw [h]

theorem readWord_congr (x : XLen) (m : Mem) (a b : Nat) (h : a % x.modulus = b % x.modulus) :
    readWord x m a = readWord x m b := by
  unfold readWord
  have e : ∀ p, (a + p) % x.modulus = (b + p) % x.modulus := fun p => by
    rw [Nat.add_mod, h, ← Nat.add_mod]
  rw [readByte_congr x m a b h, readByte_congr x m _ _ (e 1), readByte_congr x m _ _ (e 2),
    readByte_congr x m _ _ (e 3)]

theorem readWord_mod (x : XLen) (m : Mem) (a : Nat) :
    readWord x m (a % x.modulus) = readWord x m a :=
  readWord_congr x m _ _ (Nat.mod_mod _ _)

theorem readByte_writeByte (x : XLen) (m : Mem) (a v c : Nat) :
    readByte x (writeByte x m a v) c
      = if c % x.modulus = a % x.modulus then v % 256 else readByte x m c := by
  unfold readByte writeByte Mem.set byteOf
  split <;> rfl

theorem readByte_writeWord (x : XLen) (m : Mem) (a v c : Nat) :
    readByte x (writeWord x m a v) c
      = if c % x.modulus = (a + 3) % x.modulus then v / 16777216 % 256
        else if c % x.modulus = (a + 2) % x.modulus then v / 65536 % 256
        else if c % x.modulus = (a + 1) % x.modulus then v / 256 % 256
        else if c % x.modulus = a % x.modulus then v % 256
        else readByte x m c := by
  unfold writeWord
  simp only [readByte_writeByte]

theorem readWord_writeWord_same (x : XLen) (m : Mem) (a v : Nat) :
    readWord x (writeWord x m a v) a = v % 4294967296 := by
  unfold readWord
  simp only [readByte_writeWord]
  rcases modulus_cases x with hm | hm <;> rw [hm] <;> split_ifs <;> omega

theorem readByte_writeWord_other (x : XLen) (m : Mem) (a v c : Nat)
    (h : ∀ p, p < 4 → c % x.modulus ≠ (a + p) % x.modulus) :
    readByte x (writeWord x m a v) c = readByte x m c := by
  rw [readByte_writeWord, if_neg (h 3 (by omega)), if_neg (h 2 (by omega)),
    if_neg (h 1 (by omega)), if_neg (by simpa using h 0 (by omega))]

theorem readWord_writeWord_disj (x : XLen) (m : Mem) (a v b : Nat) (h : WordDisj x a b) :
    readWord x (writeWord x m a v) b = readWord x m b := by
  unfold readWord
  rw [readByte_writeWord_other x m a v b (fun p hp => (h p 0 hp (by omega)).symm),
    readByte_writeWord_other x m a v (b + 1) (fun p hp => (h p 1 hp (by omega)).symm),
    readByte_writeWord_other x m a v (b + 2) (fun p hp => (h p 2 hp (by omega)).symm),
    readByte_writeWord_other x m a v (b + 3) (fun p hp => (h p 3 hp (by omega)).symm)]

theorem writeByte_other (x : XLen) (m : Mem) (a v c : Nat) (h : c ≠ a % x.modulus) :
    writeByte x m a v c = m c := by
  unfold writeByte Mem.set
  rw [if_neg h]

theorem writeWord_other (x : XLen) (m : Mem) (a v c : Nat)
    (h : ∀ p, p < 4 → c ≠ (a + p) % x.modulus) :
    writeWord x m a v c = m c := by
  unfold writeWord
  rw [writeByte_other _ _ _ _ _ (h 3 (by omega)), writeByte_other _ _ _ _ _ (h 2 (by omega)),
    writeByte_other _ _ _ _ _ (h 1 (by omega)),
    writeByte_other _ _ _ _ _ (by simpa using h 0 (by omega))]

/-- Writing back the word that is already at `a` changes nothing. -/
theorem writeWord_readWord (x : XLen) (m : Mem) (a : Nat) :
    writeWord x m a (readWord x m a) = m := by
  funext c
  have h0 := readByte_lt x m a
  have h1 := readByte_lt x m (a + 1)
  have h2 := readByte_lt x m (a + 2)
  have h3 := readByte_lt x m (a + 3)
  apply Fin.ext
  simp only [writeWord, writeByte, Mem.set, byteOf, readWord]
  unfold readByte at *
  split_ifs with c3 c2 c1 c0
  · subst c3; simp only; omega
  · subst c2; simp only; omega
  · subst c1; simp only; omega
  · subst c0; simp only; omega
  · rfl

/-! ## Reasoning about results and loops -/

theorem Res.sat_bind {α β : Type} (r : Res α) (f : α → Env → Res β)
    (Q : α → Env → Prop) (R : β → Env → Prop) (F : Status → Env → Prop)
    (h : r.sat Q F) (hf : ∀ v e, Q v e → (f v e).sat R F) : (r.bind f).sat R F := by
  cases r with
  | ok v e => exact hf v e h
  | fault e => exact h
  | abort e => exact h

theorem Res.sat_bind_iff {α β : Type} (r : Res α) (f : α → Env → Res β)
    (R : β → Env → Prop) (F : Status → Env → Prop) :
    (r.bind f).sat R F ↔ r.sat (fun v e => (f v e).sat R F) F := by
  cases r <;> rfl

theorem Res.sat_pure {α : Type} (v : α) (e : Env) (Q : α → Env → Prop)
    (F : Status → Env → Prop) (h : Q v e) : (Res.ok v e).sat Q F := h

theorem Res.sat_failed_intro {α : Type} (e : Env) (Q : α → Env → Prop)
    (F : Status → Env → Prop) (h : F .abort e) : (Res.abort e : Res α).sat Q F := h

theorem Res.sat_mono {α : Type} (r : Res α) (Q R : α → Env → Prop) (F G : Status → Env → Prop)
    (h : r.sat Q F) (hQ : ∀ v e, Q v e → R v e) (hF : ∀ s e, F s e → G s e) : r.sat R G := by
  cases r with
  | ok v e => exact hQ v e h
  | fault e => exact hF _ e h
  | abort e => exact hF _ e h

theorem Res.sat_and {α : Type} (r : Res α) (Q R : α → Env → Prop) (F G : Status → Env → Prop)
    (h1 : r.sat Q F) (h2 : r.sat R G) :
    r.sat (fun v e => Q v e ∧ R v e) (fun s e => F s e ∧ G s e) := by
  cases r with
  | ok v e => exact ⟨h1, h2⟩
  | fault e => exact ⟨h1, h2⟩
  | abort e => exact ⟨h1, h2⟩

theorem Res.sat_ok {α : Type} (r : Res α) (Q : α → Env → Prop) (F : Status → Env → Prop)
    (h : r.sat Q F) (hs : r.status = .ok) : ∃ v, r = .ok v r.env ∧ Q v r.env := by
  cases r with
  | ok v e => exact ⟨v, rfl, h⟩
  | fault e => cases hs
  | abort e => cases hs

theorem Res.sat_failed {α : Type} (r : Res α) (Q : α → Env → Prop) (F : Status → Env → Prop)
    (h : r.sat Q F) (hs : r.status ≠ .ok) : F r.status r.env := by
  cases r with
  | ok v e => exact absurd rfl hs
  | fault e => exact h
  | abort e => exact h

theorem forLoopAux_sat {α : Type} (body : Int → α → Env → Res α)
    (I : Int → α → Env → Prop) (F : Status → Env → Prop) :
    ∀ (k : Nat) (i0 : Int) (a : α) (env : Env), I i0 a env →
      (∀ i a env, i0 ≤ i → i < i0 + k → I i a env → (body i a env).sat (I (i + 1)) F) →
      (forLoopAux body k i0 a env).sat (I (i0 + k)) F := by
  intro k
  induction k with
  | zero =>
    intro i0 a env h _
    simpa [forLoopAux, Res.sat] using h
  | succ k ih =>
    intro i0 a env h hb
    unfold forLoopAux
    refine Res.sat_bind _ _ (I (i0 + 1)) _ F (hb i0 a env (le_refl _) (by push_cast; omega) h) ?_
    intro a1 e1 h1
    have := ih (i0 + 1) a1 e1 h1 (fun i a env hi1 hi2 hI =>
      hb i a env (by omega) (by push_cast; omega) hI)
    have e : i0 + 1 + (k : Int) = i0 + ((k + 1 : Nat) : Int) := by push_cast; omega
    rw [e] at this
    exact this

theorem forLoop_sat {α : Type} (n : Int) (body : Int → α → Env → Res α)
    (I : Int → α → Env → Prop) (F : Status → Env → Prop) (a : α) (env : Env)
    (h0 : I 0 a env)
    (hb : ∀ i a env, 0 ≤ i → i < n → I i a env → (body i a env).sat (I (i + 1)) F) :
    (forLoop n body a env).sat (I (n.toNat : Int)) F := by
  have := forLoopAux_sat body I F n.toNat 0 a env h0
    (fun i a env hi1 hi2 hI => hb i a env hi1 (by omega) hI)
  simpa [forLoop] using this

/-! ## Accessors and buffers as proof rules -/

theorem cpu_ldl_data_sat (P : Port) (x : XLen) (addr : Nat) (env : Env)
    (Q : Nat → Env → Prop) (F : Status → Env → Prop)
    (hok : P env .load (addr % x.modulus) 4 = false →
      Q (readWord x env.mem addr) (env.log .load (addr % x.modulus) 4 false))
    (hf : P env .load (addr % x.modulus) 4 = true →
      F .fault (env.log .load (addr % x.modulus) 4 true)) :
    (cpu_ldl_data P x addr env).sat Q F := by
  unfold cpu_ldl_data
  by_cases h : P env .load (addr % x.modulus) 4 = true
  · simp only [h, if_true]; exact hf h
  · simp only [h]
    rw [readWord_mod]
    exact hok (by simpa using h)

theorem cpu_stl_data_sat (P : Port) (x : XLen) (addr v : Nat) (env : Env)
    (Q : Unit → Env → Prop) (F : Status → Env → Prop)
    (hok : P env .store (addr % x.modulus) 4 = false →
      Q () ⟨writeWord x env.mem (addr % x.modulus) v,
        env.trace ++ [⟨.store, addr % x.modulus, 4, false⟩]⟩)
    (hf : P env .store (addr % x.modulus) 4 = true →
      F .fault (env.log .store (addr % x.modulus) 4 true)) :
    (cpu_stl_data P x addr v env).sat Q F := by
  unfold cpu_stl_data
  by_cases h : P env .store (addr % x.modulus) 4 = true
  · simp only [h, if_true]; exact hf h
  · simp only [h]
    exact hok (by simpa using h)

theorem cpu_ldub_data_sat (P : Port) (x : XLen) (addr : Nat) (env : Env)
    (Q : Nat → Env → Prop) (F : Status → Env → Prop)
    (hok : P env .load (addr % x.modulus) 1 = false →
      Q (readByte x env.mem addr) (env.log .load (addr % x.modulus) 1 false))
    (hf : P env .load (addr % x.modulus) 1 = true →
      F .fault (env.log .load (addr % x.modulus) 1 true)) :
    (cpu_ldub_data P x addr env).sat Q F := by
  unfold cpu_ldub_data
  by_cases h : P env .load (addr % x.modulus) 1 = true
  · simp only [h, if_true]; exact hf h
  · simp only [h]
    rw [readByte_mod]
    exact hok (by simpa using h)

theorem cpu_stb_data_sat (P : Port) (x : XLen) (addr v : Nat) (env : Env)
    (Q : Unit → Env → Prop) (F : Status → Env → Prop)
    (hok : P env .store (addr % x.modulus) 1 = false →
      Q () ⟨writeByte x env.mem (addr % x.modulus) v,
        env.trace ++ [⟨.store, addr % x.modulus, 1, false⟩]⟩)
    (hf : P env .store (addr % x.modulus) 1 = true →
      F .fault (env.log .store (addr % x.modulus) 1 true)) :
    (cpu_stb_data P x addr v env).sat Q F := by
  unfold cpu_stb_data
  by_cases h : P env .store (addr % x.modulus) 1 = true
  · simp only [h, if_true]; exact hf h
  · simp only [h]
    exact hok (by simpa using h)

theorem bufGet_sat (buf : List Nat) (i : Int) (env : Env)
    (Q : Nat → Env → Prop) (F : Status → Env → Prop)
    (hok : ∀ v, 0 ≤ i → buf[i.toNat]? = some v → Q v env)
    (hf : (i < 0 ∨ buf.length ≤ i.toNat) → F .abort env) :
    (bufGet buf i env).sat Q F := by
  unfold bufGet
  by_cases h : 0 ≤ i
  · simp only [h, if_true]
    cases hv : buf[i.toNat]? with
    | some v => exact hok v h hv
    | none => exact hf (Or.inr (List.getElem?_eq_none_iff.mp hv))
  · simp only [h, if_false]
    exact hf (Or.inl (by omega))

theorem bufSet_sat (buf : List Nat) (i : Int) (v : Nat) (env : Env)
    (Q : List Nat → Env → Prop) (F : Status → Env → Prop)
    (hok : 0 ≤ i → i.toNat < buf.length → Q (buf.set i.toNat v) env)
    (hf : (i < 0 ∨ buf.length ≤ i.toNat) → F .abort env) :
    (bufSet buf i v env).sat Q F := by
  unfold bufSet
  by_cases h : 0 ≤ i ∧ i.toNat < buf.length
  · simp only [h, and_self, if_true]
    exact hok h.1 h.2
  · simp only [h, if_false]
    exact hf (by omega)

theorem faultsInto_fault (P : Port) : FaultsInto P (fun s _ => s = .fault) :=
  fun _ _ _ _ _ => rfl

theorem faultsInto_noFault : FaultsInto noFault (fun _ _ => False) := by
  intro e k a sz h
  simp [noFault] at h

/-- A run whose only possible failure is a fault, and that did not fault,
succeeded and satisfies its postcondition. -/
theorem Res.post_of_not_fault (r : Res Unit) (Q : Unit → Env → Prop)
    (h : r.sat Q (fun s _ => s = .fault)) (hs : r.status ≠ .fault) :
    r.status = .ok ∧ Q () r.env := by
  cases r with
  | ok v e => exact ⟨rfl, h⟩
  | fault e => exact absurd rfl hs
  | abort e => cases h

/-- A run that cannot fail succeeded and satisfies its postcondition. -/
theorem Res.post_of_never {α : Type} (r : Res α) (Q : α → Env → Prop)
    (h : r.sat Q (fun _ _ => False)) : r.status = .ok ∧ ∃ v, r = .ok v r.env ∧ Q v r.env := by
  cases r with
  | ok v e => exact ⟨rfl, v, rfl, h⟩
  | fault e => cases h
  | abort e => cases h

attribute [irreducible] Res.sat

/-! ## The transpose -/

theorem grainSize_cases (grain : Nat) :
    grainSize grain = 8 ∨ grainSize grain = 16 ∨ grainSize grain = 32 := by
  unfold grainSize
  split_ifs <;> simp

/-- After the read phase the buffer holds the source words in row-major order
and memory is as before. -/
theorem dmaRead_sat (P : Port) (x : XLen) (src : Nat) (N : Int) (temp : List Nat) (env : Env)
    (hN : N = 8 ∨ N = 16 ∨ N = 32) (hlen : temp.length = (N * N).toNat)
    (F : Status → Env → Prop) (hF : FaultsInto P F) :
    (dmaRead P x src N temp env).sat
      (fun t e => e.mem = env.mem ∧ t.length = (N * N).toNat ∧
        ∀ k : Nat, (k : Int) < N * N → t[k]? = some (readWord x env.mem (src + 4 * k)))
      F := by
  unfold dmaRead
  have key := forLoop_sat N (fun i temp env =>
    forLoop N (fun j temp env =>
      (cpu_ldl_data P x (taddr x src (imul (iadd (imul i N) j) 4)) env).bind
        fun v env => bufSet temp (iadd (imul i N) j) v env) temp env)
    (fun i t e => e.mem = env.mem ∧ t.length = (N * N).toNat ∧
        ∀ k : Nat, (k : Int) < i * N → t[k]? = some (readWord x env.mem (src + 4 * k)))
    F temp env ⟨rfl, hlen, fun k hk => by omega⟩ ?_
  · refine Res.sat_mono _ _ _ _ _ key ?_ (fun _ _ h => h)
    intro t e ⟨h1, h2, h3⟩
    refine ⟨h1, h2, fun k hk => h3 k ?_⟩
    rcases hN with rfl | rfl | rfl <;> omega
  · intro i t e hi0 hiN ⟨hm, hl, hk⟩
    have inner := forLoop_sat N (fun j temp env =>
      (cpu_ldl_data P x (taddr x src (imul (iadd (imul i N) j) 4)) env).bind
        fun v env => bufSet temp (iadd (imul i N) j) v env)
      (fun j t e => e.mem = env.mem ∧ t.length = (N * N).toNat ∧
        ∀ k : Nat, (k : Int) < i * N + j → t[k]? = some (readWord x env.mem (src + 4 * k)))
      F t e ⟨hm, hl, fun k h => hk k (by omega)⟩ ?_
    · refine Res.sat_mono _ _ _ _ _ inner ?_ (fun _ _ h => h)
      intro t1 e1 ⟨h1, h2, h3⟩
      refine ⟨h1, h2, fun k h => h3 k ?_⟩
      rcases hN with rfl | rfl | rfl <;> omega
    · intro j t1 e1 hj0 hjN ⟨hm1, hl1, hk1⟩
      have hK : iadd (imul i N) j = i * N + j := by
        unfold iadd imul toInt32
        rcases hN with rfl | rfl | rfl <;> omega
      have hK4 : imul (i * N + j) 4 = 4 * (i * N + j) := by
        unfold imul toInt32
        rcases hN with rfl | rfl | rfl <;> omega
      have hKr : 0 ≤ i * N + j ∧ i * N + j < N * N := by
        rcases hN with rfl | rfl | rfl <;> omega
      dsimp only
      rw [hK, hK4, Res.sat_bind_iff]
      apply cpu_ldl_data_sat _ _ _ _ _ _ ?_ (fun h => hF _ _ _ _ h)
      intro _
      apply bufSet_sat _ _ _ _ _ _ ?_ (fun h => absurd h (by omega))
      intro _ hlt
      refine ⟨hm1, by simpa using hl1, ?_⟩
      intro k hk
      rw [List.getElem?_set]
      by_cases hkK : (i * N + j).toNat = k
      · rw [if_pos hkK, if_pos (by omega)]
        congr 1
        rw [hm1]
        apply readWord_congr
        rw [taddr_nonneg x src _ (by omega), Nat.mod_mod]
        congr 2
        omega
      · rw [if_neg hkK]
        exact hk1 k (by omega)

/-- After the write phase the word of destination cell `(i, j)` is the buffer
entry `(j, i)`, and every byte outside the destination cells is as before. -/
theorem dmaWrite_sat (P : Port) (x : XLen) (dst : Nat) (N : Int) (temp : List Nat) (env : Env)
    (hN : N = 8 ∨ N = 16 ∨ N = 32) (W : Nat → Nat)
    (hW : ∀ k : Nat, (k : Int) < N * N → temp[k]? = some (W k))
    (hWlt : ∀ k, W k < 4294967296)
    (F : Status → Env → Prop) (hF : FaultsInto P F) :
    (dmaWrite P x dst N temp env).sat
      (fun _ e =>
        (∀ i j : Nat, (i : Int) < N → (j : Int) < N →
          readWord x e.mem (dst + 4 * (i * N.toNat + j)) = W (j * N.toNat + i)) ∧
        (∀ c : Nat, (∀ k : Nat, (k : Int) < N * N → ∀ p : Nat, p < 4 →
          c ≠ (dst + 4 * k + p) % x.modulus) → e.mem c = env.mem c))
      F := by
  unfold dmaWrite
  have key := forLoop_sat N (fun i u env =>
    forLoop N (fun j _ env =>
      (bufGet temp (iadd (imul j N) i) env).bind fun v env =>
        cpu_stl_data P x (taddr x dst (imul (iadd (imul i N) j) 4)) v env) u env)
    (fun i _ e =>
        (∀ k : Nat, (k : Int) < i * N →
          readWord x e.mem (dst + 4 * k) = W ((k % N.toNat) * N.toNat + k / N.toNat)) ∧
        (∀ c : Nat, (∀ k : Nat, (k : Int) < N * N → ∀ p : Nat, p < 4 →
          c ≠ (dst + 4 * k + p) % x.modulus) → e.mem c = env.mem c))
    F () env ⟨fun k hk => by omega, fun _ _ => rfl⟩ ?_
  · refine Res.sat_mono _ _ _ _ _ key ?_ (fun _ _ h => h)
    intro _ e ⟨h1, h2⟩
    refine ⟨fun i j hi hj => ?_, h2⟩
    have := h1 (i * N.toNat + j) (by rcases hN with rfl | rfl | rfl <;> simp <;> omega)
    rw [this]
    congr 1
    rcases hN with rfl | rfl | rfl <;> simp <;> omega
  · intro i u e hi0 hiN ⟨hw, hfr⟩
    have inner := forLoop_sat N (fun j (_ : Unit) env =>
      (bufGet temp (iadd (imul j N) i) env).bind fun v env =>
        cpu_stl_data P x (taddr x dst (imul (iadd (imul i N) j) 4)) v env)
      (fun j _ e =>
        (∀ k : Nat, (k : Int) < i * N + j →
          readWord x e.mem (dst + 4 * k) = W ((k % N.toNat) * N.toNat + k / N.toNat)) ∧
        (∀ c : Nat, (∀ k : Nat, (k : Int) < N * N → ∀ p : Nat, p < 4 →
          c ≠ (dst + 4 * k + p) % x.modulus) → e.mem c = env.mem c))
      F u e ⟨fun k h => hw k (by omega), hfr⟩ ?_
    · refine Res.sat_mono _ _ _ _ _ inner ?_ (fun _ _ h => h)
      intro _ e1 ⟨h1, h2⟩
      refine ⟨fun k h => h1 k ?_, h2⟩
      rcases hN with rfl | rfl | rfl <;> omega
    · intro j _ e1 hj0 hjN ⟨hw1, hfr1⟩
      have hT : iadd (imul j N) i = j * N + i := by
        unfold iadd imul toInt32
        rcases hN with rfl | rfl | rfl <;> omega
      have hK : iadd (imul i N) j = i * N + j := by
        unfold iadd imul toInt32
        rcases hN with rfl | rfl | rfl <;> omega
      have hK4 : imul (i * N + j) 4 = 4 * (i * N + j) := by
        unfold imul toInt32
        rcases hN with rfl | rfl | rfl <;> omega
      have hKr : 0 ≤ i * N + j ∧ i * N + j < N * N := by
        rcases hN with rfl | rfl | rfl <;> omega
      have hTr : 0 ≤ j * N + i ∧ j * N + i < N * N := by
        rcases hN with rfl | rfl | rfl <;> omega
      dsimp only
      rw [hT, hK, hK4, Res.sat_bind_iff]
      apply bufGet_sat _ _ _ _ _ ?_ (fun h => by
        have h1 := hW (j * N + i).toNat (by omega)
        have h2 := (List.getElem?_eq_some_iff.mp h1).1
        omega)
      intro v _ hv
      have hv2 := hW (j * N + i).toNat (by omega)
      rw [hv] at hv2
      have hv3 : v = W (j * N + i).toNat := by simpa using hv2
      apply cpu_stl_data_sat _ _ _ _ _ _ _ ?_ (fun h => hF _ _ _ _ h)
      intro _
      have haddr : taddr x dst (4 * (i * N + j)) % x.modulus
          = (dst + 4 * (i * N + j).toNat) % x.modulus := by
        rw [taddr_nonneg x dst _ (by omega), Nat.mod_mod]
        congr 2
        omega
      refine ⟨?_, ?_⟩
      · intro k hk
        simp only
        by_cases hkK : k = (i * N + j).toNat
        · rw [readWord_congr x _ (dst + 4 * k) (taddr x dst (4 * (i * N + j)) % x.modulus)
            (by rw [haddr, Nat.mod_mod, hkK]), readWord_writeWord_same, hv3]
          rw [Nat.mod_eq_of_lt (hWlt _)]
          congr 1
          rcases hN with rfl | rfl | rfl <;> simp <;> omega
        · rw [readWord_writeWord_disj]
          · exact hw1 k (by omega)
          · intro p q hp hq
            rw [Nat.add_mod, Nat.mod_mod, haddr, ← Nat.add_mod]
            have hk2 : k < (i * N + j).toNat := by omega
            have hK3 : (i * N + j).toNat < 1024 := by
              rcases hN with rfl | rfl | rfl <;> omega
            rcases modulus_cases x with hm | hm <;> rw [hm] <;> omega
      · intro c hc
        simp only
        rw [← hfr1 c hc]
        apply writeWord_other
        intro p hp
        rw [Nat.add_mod, Nat.mod_mod, haddr, ← Nat.add_mod]
        have := hc (i * N + j).toNat (by omega) p hp
        rw [Nat.add_assoc] at this ⊢
        exact this

/-- Effect of a whole `helper_dma` run that ends without a failure: the
destination cell `(i, j)` holds the word the source cell `(j, i)` held before
the call, and every byte outside the destination cells is untouched. -/
theorem helper_dma_sat (P : Port) (x : XLen) (env : Env) (dst src grain : Nat)
    (F : Status → Env → Prop) (hF : FaultsInto P F) :
    (helper_dma P x env dst src grain).sat
      (fun _ e =>
        (∀ i j : Nat, (i : Int) < grainSize grain → (j : Int) < grainSize grain →
          readWord x e.mem (dst + 4 * (i * (grainSize grain).toNat + j))
            = readWord x env.mem (src + 4 * (j * (grainSize grain).toNat + i))) ∧
        (∀ c : Nat, (∀ k : Nat, (k : Int) < grainSize grain * grainSize grain →
          ∀ p : Nat, p < 4 → c ≠ (dst + 4 * k + p) % x.modulus) → e.mem c = env.mem c))
      F := by
  unfold helper_dma
  have hN := grainSize_cases grain
  have hNN : imul (grainSize grain) (grainSize grain) = grainSize grain * grainSize grain := by
    unfold imul toInt32
    rcases hN with h | h | h <;> rw [h] <;> norm_num
  dsimp only
  rw [hNN, Res.sat_bind_iff]
  refine Res.sat_mono _ _ _ _ _
    (dmaRead_sat P x src (grainSize grain) _ env hN (by simp) F hF) ?_ (fun _ _ h => h)
  intro t e ⟨hm, _, ht⟩
  have hw := dmaWrite_sat P x dst (grainSize grain) t e hN
    (fun k => readWord x env.mem (src + 4 * k)) ht (fun k => readWord_lt x env.mem _) F hF
  refine Res.sat_mono _ _ _ _ _ hw ?_ (fun _ _ h => h)
  intro _ e1 ⟨h1, h2⟩
  exact ⟨h1, fun c hc => by rw [h2 c hc, hm]⟩

/-! ## The bubble sort on the working buffer -/

theorem nth_of_getElem? (l : List Nat) (k v : Nat) (h : l[k]? = some v) : nth l k = v := by
  unfold nth; rw [h]; rfl

theorem getElem?_eq_nth (l : List Nat) (k : Nat) (h : k < l.length) : l[k]? = some (nth l k) := by
  unfold nth; rw [List.getElem?_eq_getElem h]; rfl

theorem nth_set_ne (l : List Nat) (i k v : Nat) (h : i ≠ k) : nth (l.set i v) k = nth l k := by
  unfold nth; rw [List.getElem?_set_ne h]

theorem nth_set_self (l : List Nat) (i v : Nat) (h : i < l.length) : nth (l.set i v) i = v := by
  unfold nth; rw [List.getElem?_set_self h]; rfl

theorem getElem?_eq_of_nth (s t : List Nat) (k : Nat) (hlen : s.length = t.length)
    (h : nth s k = nth t k) : s[k]? = t[k]? := by
  by_cases hk : k < s.length
  · rw [getElem?_eq_nth s k hk, getElem?_eq_nth t k (by omega), h]
  · rw [List.getElem?_eq_none_iff.mpr (by omega), List.getElem?_eq_none_iff.mpr (by omega)]

/-- Exchanging two neighbouring entries permutes the buffer. -/
theorem swap_adjacent_perm (l : List Nat) : ∀ (j a b : Nat), l[j]? = some a →
    l[j + 1]? = some b → ((l.set j b).set (j + 1) a).Perm l := by
  induction l with
  | nil => intro j a b ha; simp at ha
  | cons hd tl ih =>
    intro j a b ha hb
    cases j with
    | zero =>
      cases tl with
      | nil => simp at hb
      | cons h2 t2 =>
        simp at ha hb
        subst ha; subst hb
        simpa using List.Perm.swap hd h2 t2
    | succ j =>
      simp only [List.getElem?_cons_succ] at ha hb
      simpa using ih j a b ha hb

/-- Two buffers of equal length, permutations of each other, that agree from
index `m` on, are permutations of each other below `m`. -/
theorem perm_take_of_tail (s t : List Nat) (m : Nat) (hlen : s.length = t.length)
    (hp : s.Perm t) (htail : ∀ k, m ≤ k → nth s k = nth t k) :
    (s.take m).Perm (t.take m) ∧ s.drop m = t.drop m := by
  have hd : s.drop m = t.drop m := by
    apply List.ext_getElem?
    intro n
    rw [List.getElem?_drop, List.getElem?_drop]
    exact getElem?_eq_of_nth s t _ hlen (htail _ (by omega))
  refine ⟨?_, hd⟩
  have h1 : (s.take m ++ s.drop m).Perm (t.take m ++ s.drop m) := by
    rw [List.take_append_drop, hd, List.take_append_drop]
    exact hp
  exact (List.perm_append_right_iff _).mp h1

theorem mem_take_nth (l : List Nat) (m v : Nat) (h : v ∈ l.take m) :
    ∃ k, k < m ∧ k < l.length ∧ nth l k = v := by
  rw [List.mem_take_iff_getElem] at h
  obtain ⟨k, hk, rfl⟩ := h
  refine ⟨k, by omega, by omega, ?_⟩
  exact nth_of_getElem? l k _ (List.getElem?_eq_getElem (by omega))

theorem nth_mem_take (l : List Nat) (m k : Nat) (hk : k < m) (hl : k < l.length) :
    nth l k ∈ l.take m := by
  rw [List.mem_take_iff_getElem]
  refine ⟨k, by omega, ?_⟩
  have := getElem?_eq_nth l k hl
  rw [List.getElem?_eq_getElem hl] at this
  exact (Option.some.inj this)

/-- One compare-and-swap step of the bubble sort. -/
theorem sortStep_sat (j : Int) (arr : List Nat) (env : Env) (F : Status → Env → Prop)
    (hj0 : 0 ≤ j) (hj1 : j < 2147483647) (hlen : j.toNat + 1 < arr.length) :
    (sortStep j arr env).sat
      (fun t e => e = env ∧ t.length = arr.length ∧ t.Perm arr ∧
        (∀ k, k ≠ j.toNat → k ≠ j.toNat + 1 → nth t k = nth arr k) ∧
        nth t j.toNat ≤ nth t (j.toNat + 1) ∧
        nth arr j.toNat ≤ nth t (j.toNat + 1)) F := by
  unfold sortStep
  have h1 : iadd j 1 = j + 1 := by unfold iadd toInt32; omega
  have h2 : (j + 1).toNat = j.toNat + 1 := by omega
  rw [h1, Res.sat_bind_iff]
  apply bufGet_sat _ _ _ _ _ ?_ (fun h => absurd h (by omega))
  intro a _ ha
  rw [Res.sat_bind_iff]
  apply bufGet_sat _ _ _ _ _ ?_ (fun h => absurd h (by omega))
  intro b _ hb
  rw [h2] at hb
  have na := nth_of_getElem? _ _ _ ha
  have nb := nth_of_getElem? _ _ _ hb
  by_cases hab : a > b
  · rw [if_pos hab, Res.sat_bind_iff]
    apply bufSet_sat _ _ _ _ _ _ ?_ (fun h => absurd h (by omega))
    intro _ _
    apply bufSet_sat _ _ _ _ _ _ ?_ (fun h => absurd h (by simp; omega))
    intro _ _
    rw [h2]
    refine ⟨rfl, by simp, swap_adjacent_perm arr _ a b ha hb, ?_, ?_, ?_⟩
    · intro k hk1 hk2
      rw [nth_set_ne _ _ _ _ (Ne.symm hk2), nth_set_ne _ _ _ _ (Ne.symm hk1)]
    · rw [nth_set_self _ _ _ (by simp; omega), nth_set_ne _ _ _ _ (by omega),
        nth_set_self _ _ _ (by omega)]
      omega
    · rw [nth_set_self _ _ _ (by simp; omega), na]
  · rw [if_neg hab]
    apply Res.sat_pure
    refine ⟨rfl, rfl, List.Perm.refl _, fun _ _ _ => rfl, ?_, ?_⟩
    · rw [na, nb]; omega
    · rw [na, nb]; omega

/-- One pass of the inner loop with bound `b`: the largest of the entries
`0..b` ends at index `b`, entries above `b` are not touched. -/
theorem sortPass_sat (b : Int) (arr : List Nat) (env : Env) (F : Status → Env → Prop)
    (hb0 : 0 ≤ b) (hb1 : b < 2147483648) (hlen : b.toNat < arr.length) :
    (forLoop b sortStep arr env).sat
      (fun t e => e = env ∧ t.length = arr.length ∧ t.Perm arr ∧
        (∀ k, b.toNat < k → nth t k = nth arr k) ∧
        (∀ k, k ≤ b.toNat → nth t k ≤ nth t b.toNat)) F := by
  have key := forLoop_sat b sortStep
    (fun j t e => e = env ∧ t.length = arr.length ∧ t.Perm arr ∧
        (∀ k, j.toNat < k → nth t k = nth arr k) ∧
        (∀ k, k ≤ j.toNat → nth t k ≤ nth t j.toNat)) F arr env
    ⟨rfl, rfl, List.Perm.refl _, fun _ _ => rfl, fun k hk => by
      have : k = 0 := by simpa using hk
      subst this; exact le_refl _⟩ ?_
  · refine Res.sat_mono _ _ _ _ _ key ?_ (fun _ _ h => h)
    intro t e ⟨h1, h2, h3, h4, h5⟩
    have e0 : ((b.toNat : Nat) : Int).toNat = b.toNat := by omega
    rw [e0] at h4 h5
    exact ⟨h1, h2, h3, h4, h5⟩
  · intro j t e hj0 hjb ⟨he, hl, hp, htail, hmax⟩
    have step := sortStep_sat j t e F hj0 (by omega) (by omega)
    refine Res.sat_mono _ _ _ _ _ step ?_ (fun _ _ h => h)
    intro t1 e1 ⟨he1, hl1, hp1, hk1, hle1, hle2⟩
    have hj2 : (j + 1).toNat = j.toNat + 1 := by omega
    refine ⟨he1.trans he, hl1.trans hl, hp1.trans hp, ?_, ?_⟩
    · intro k hk
      rw [hj2] at hk
      rw [hk1 k (by omega) (by omega)]
      exact htail k (by omega)
    · intro k hk
      rw [hj2] at hk ⊢
      by_cases h1 : k = j.toNat + 1
      · rw [h1]
      · by_cases h2 : k = j.toNat
        · rw [h2]; exact hle1
        · rw [hk1 k h2 h1]
          exact le_trans (hmax k (by omega)) hle2

/-- The two nested loops sort the first `S` entries of the buffer in place
and leave the other entries alone; the run cannot fail while `S` is within the
buffer. -/
theorem sortBubble_sat (S : Int) (arr : List Nat) (env : Env) (F : Status → Env → Prop)
    (hS0 : -2147483648 < S) (hS1 : S ≤ arr.length) (hlen : (arr.length : Int) < 2147483648) :
    (sortBubble S arr env).sat
      (fun t e => e = env ∧ t.length = arr.length ∧ t.Perm arr ∧
        (∀ k, S.toNat ≤ k → nth t k = nth arr k) ∧
        (∀ k k1 : Nat, k ≤ k1 → k1 < S.toNat → nth t k ≤ nth t k1)) F := by
  unfold sortBubble
  have hS : isub S 1 = S - 1 := by unfold isub toInt32; omega
  rw [hS]
  have key := forLoop_sat (S - 1) (fun i arr env =>
      forLoop (isub (isub S i) 1) sortStep arr env)
    (fun i t e => e = env ∧ t.length = arr.length ∧ t.Perm arr ∧
        (∀ k, S.toNat ≤ k → nth t k = nth arr k) ∧
        (∀ k k1 : Nat, k ≤ k1 → S - i ≤ (k1 : Int) → k1 < S.toNat → nth t k ≤ nth t k1)) F
    arr env ⟨rfl, rfl, List.Perm.refl _, fun _ _ => rfl, fun k k1 _ h1 h2 => by omega⟩ ?_
  · refine Res.sat_mono _ _ _ _ _ key ?_ (fun _ _ h => h)
    intro t e ⟨h1, h2, h3, h4, h5⟩
    refine ⟨h1, h2, h3, h4, ?_⟩
    intro k k1 hk hk1
    by_cases hkk : k = k1
    · rw [hkk]
    · exact h5 k k1 hk (by omega) hk1
  · intro i t e hi0 hi1 ⟨he, hl, hp, htail, hsorted⟩
    have hb : isub (isub S i) 1 = S - i - 1 := by unfold isub toInt32; omega
    dsimp only
    rw [hb]
    have pass := sortPass_sat (S - i - 1) t e F (by omega) (by omega) (by omega)
    refine Res.sat_mono _ _ _ _ _ pass ?_ (fun _ _ h => h)
    intro t1 e1 ⟨he1, hl1, hp1, htail1, hmax1⟩
    refine ⟨he1.trans he, hl1.trans hl, hp1.trans hp, ?_, ?_⟩
    · intro k hk
      rw [htail1 k (by omega)]
      exact htail k hk
    · intro k k1 hk hk1 hk2
      by_cases hb1 : k1 = (S - i - 1).toNat
      · rw [hb1]
        exact hmax1 k (by omega)
      · rw [htail1 k1 (by omega)]
        by_cases hkb : (S - i - 1).toNat < k
        · rw [htail1 k hkb]
          exact hsorted k k1 hk (by omega) hk2
        · have hpt := (perm_take_of_tail t1 t ((S - i - 1).toNat + 1) hl1 hp1
            (fun k hk => htail1 k (by omega))).1
          have hmem := nth_mem_take t1 ((S - i - 1).toNat + 1) k (by omega) (by omega)
          obtain ⟨k2, hk2a, _, hk2c⟩ := mem_take_nth t _ _ ((hpt.mem_iff).mp hmem)
          rw [← hk2c]
          exact hsorted k2 k1 (by omega) (by omega) hk2

/-! ## The sort: read loop, write-back loop, whole helper -/

theorem sortInput_length (x : XLen) (m : Mem) (addr L : Nat) :
    (sortInput x m addr L).length = L := by
  simp [sortInput]

theorem nth_sortInput (x : XLen) (m : Mem) (addr L k : Nat) (hk : k < L) :
    nth (sortInput x m addr L) k = readWord x m (sortAddr x addr k) := by
  apply nth_of_getElem?
  unfold sortInput
  rw [List.getElem?_map, List.getElem?_range hk]
  rfl

/-- After the read loop the buffer is the array as read, memory is as before. -/
theorem sortRead_sat (P : Port) (x : XLen) (addr : Nat) (L : Int) (arr : List Nat) (env : Env)
    (hL : 0 ≤ L) (hlen : arr.length = L.toNat) (F : Status → Env → Prop) (hF : FaultsInto P F) :
    (sortRead P x addr L arr env).sat
      (fun t e => e.mem = env.mem ∧ t = sortInput x env.mem addr L.toNat) F := by
  unfold sortRead
  have key := forLoop_sat L (fun i arr env =>
      (cpu_ldl_data P x (taddr x addr (imul i 4)) env).bind fun v env => bufSet arr i v env)
    (fun i t e => e.mem = env.mem ∧ t.length = L.toNat ∧
      ∀ k : Nat, (k : Int) < i → nth t k = readWord x env.mem (sortAddr x addr k)) F
    arr env ⟨rfl, hlen, fun k hk => by omega⟩ ?_
  · refine Res.sat_mono _ _ _ _ _ key ?_ (fun _ _ h => h)
    intro t e ⟨h1, h2, h3⟩
    refine ⟨h1, ?_⟩
    apply List.ext_getElem?
    intro k
    apply getElem?_eq_of_nth _ _ _ (by rw [h2, sortInput_length])
    by_cases hk : k < L.toNat
    · rw [h3 k (by omega), nth_sortInput _ _ _ _ _ hk]
    · unfold nth
      rw [List.getElem?_eq_none_iff.mpr (by omega),
        List.getElem?_eq_none_iff.mpr (by rw [sortInput_length]; omega)]
  · intro i t e hi0 hi1 ⟨hm, hl, hk⟩
    dsimp only
    rw [Res.sat_bind_iff]
    apply cpu_ldl_data_sat _ _ _ _ _ _ ?_ (fun h => hF _ _ _ _ h)
    intro _
    apply bufSet_sat _ _ _ _ _ _ ?_ (fun h => absurd h (by omega))
    intro _ _
    refine ⟨hm, by simpa using hl, ?_⟩
    intro k hk1
    by_cases hki : i.toNat = k
    · rw [← hki, nth_set_self _ _ _ (by omega), hm]
      unfold sortAddr
      rw [Int.toNat_of_nonneg hi0]
    · rw [nth_set_ne _ _ _ _ hki]
      exact hk k (by omega)

/-- After the write-back loop over non-overlapping element addresses, element
`i` holds buffer entry `i`; bytes outside the elements are untouched. -/
theorem sortWrite_sat (P : Port) (x : XLen) (addr : Nat) (L : Int) (arr : List Nat) (env : Env)
    (hL : 0 ≤ L) (hlen : arr.length = L.toNat) (hna : NoAlias x addr L.toNat)
    (hlt : ∀ k, nth arr k < 4294967296)
    (F : Status → Env → Prop) (hF : FaultsInto P F) :
    (sortWrite P x addr L arr env).sat
      (fun _ e =>
        (∀ k : Nat, k < L.toNat → readWord x e.mem (sortAddr x addr k) = nth arr k) ∧
        (∀ c : Nat, (∀ k : Nat, k < L.toNat → ∀ p : Nat, p < 4 →
          c ≠ (sortAddr x addr k + p) % x.modulus) → e.mem c = env.mem c)) F := by
  unfold sortWrite
  have key := forLoop_sat L (fun i (u : Unit) env =>
      (bufGet arr i env).bind fun v env =>
        (cpu_stl_data P x (taddr x addr (imul i 4)) v env).bind fun _ env => .ok u env)
    (fun i _ e =>
        (∀ k : Nat, (k : Int) < i → readWord x e.mem (sortAddr x addr k) = nth arr k) ∧
        (∀ c : Nat, (∀ k : Nat, k < L.toNat → ∀ p : Nat, p < 4 →
          c ≠ (sortAddr x addr k + p) % x.modulus) → e.mem c = env.mem c)) F
    () env ⟨fun k hk => by omega, fun _ _ => rfl⟩ ?_
  · refine Res.sat_mono _ _ _ _ _ key ?_ (fun _ _ h => h)
    intro _ e ⟨h1, h2⟩
    exact ⟨fun k hk => h1 k (by omega), h2⟩
  · intro i u e hi0 hi1 ⟨hw, hfr⟩
    dsimp only
    rw [Res.sat_bind_iff]
    apply bufGet_sat _ _ _ _ _ ?_ (fun h => absurd h (by omega))
    intro v _ hv
    have hv2 := nth_of_getElem? _ _ _ hv
    rw [Res.sat_bind_iff]
    apply cpu_stl_data_sat _ _ _ _ _ _ _ ?_ (fun h => hF _ _ _ _ h)
    intro _
    have hA : taddr x addr (imul i 4) = sortAddr x addr i.toNat := by
      unfold sortAddr; rw [Int.toNat_of_nonneg hi0]
    rw [hA]
    apply Res.sat_pure
    refine ⟨?_, ?_⟩
    · intro k hk
      dsimp only
      by_cases hki : k = i.toNat
      · rw [hki, ← readWord_mod, readWord_writeWord_same, ← hv2,
          Nat.mod_eq_of_lt (hlt _)]
      · rw [readWord_writeWord_disj]
        · exact hw k (by omega)
        · intro p q hp hq
          rw [Nat.add_mod, Nat.mod_mod, ← Nat.add_mod]
          exact hna i.toNat k (by omega) (by omega) (Ne.symm hki) p q hp hq
    · intro c hc
      dsimp only
      rw [← hfr c hc]
      apply writeWord_other
      intro p hp
      rw [Nat.add_mod, Nat.mod_mod, ← Nat.add_mod]
      exact hc i.toNat (by omega) p hp

/-- The write-back loop applied to the array as read leaves memory as it is,
whether or not element addresses overlap. -/
theorem sortWrite_echo (P : Port) (x : XLen) (addr : Nat) (L : Int) (env : Env) (m0 : Mem)
    (hL : 0 ≤ L) (hm : env.mem = m0)
    (F : Status → Env → Prop) (hF : FaultsInto P F) :
    (sortWrite P x addr L (sortInput x m0 addr L.toNat) env).sat
      (fun _ e => e.mem = m0) F := by
  unfold sortWrite
  have key := forLoop_sat L (fun i (u : Unit) env =>
      (bufGet (sortInput x m0 addr L.toNat) i env).bind fun v env =>
        (cpu_stl_data P x (taddr x addr (imul i 4)) v env).bind fun _ env => .ok u env)
    (fun _ _ e => e.mem = m0) F () env hm ?_
  · exact key
  · intro i u e hi0 hi1 hme
    dsimp only
    rw [Res.sat_bind_iff]
    apply bufGet_sat _ _ _ _ _ ?_ (fun h => absurd h (by rw [sortInput_length]; omega))
    intro v _ hv
    have hv2 := nth_of_getElem? _ _ _ hv
    rw [nth_sortInput _ _ _ _ _ (by omega)] at hv2
    rw [Res.sat_bind_iff]
    apply cpu_stl_data_sat _ _ _ _ _ _ _ ?_ (fun h => hF _ _ _ _ h)
    intro _
    apply Res.sat_pure
    show writeWord x e.mem _ v = m0
    have hA : taddr x addr (imul i 4) = sortAddr x addr i.toNat := by
      unfold sortAddr; rw [Int.toNat_of_nonneg hi0]
    rw [hA, hme, ← hv2, ← readWord_mod, writeWord_readWord]

theorem nth_lt_of_mem_lt (l : List Nat) (B k : Nat) (hB : 0 < B) (h : ∀ v ∈ l, v < B) :
    nth l k < B := by
  by_cases hk : k < l.length
  · apply h
    have := getElem?_eq_nth l k hk
    exact List.mem_iff_getElem?.mpr ⟨k, this⟩
  · unfold nth
    rw [List.getElem?_eq_none_iff.mpr (by omega)]
    exact hB

theorem sortInput_lt (x : XLen) (m : Mem) (addr L : Nat) :
    ∀ v ∈ sortInput x m addr L, v < 4294967296 := by
  intro v hv
  unfold sortInput at hv
  rw [List.mem_map] at hv
  obtain ⟨i, _, rfl⟩ := hv
  exact readWord_lt x m _

/-- What a run of `helper_sort` that does not fail leaves behind, for an array
length `L ≥ 0` whose element addresses do not overlap and a sort length other
than `INT_MIN`: a buffer `out`, a permutation of the array as read, sorted
below `min S L` and equal to the input from there on, has been written to the
element addresses, and nothing else has been written. -/
theorem helper_sort_sat (P : Port) (x : XLen) (env : Env) (addr array_num sort_num : Nat)
    (L S : Int) (hL : toInt32 array_num = L) (hS : toInt32 sort_num = S)
    (hL0 : 0 ≤ L) (hS0 : -2147483648 < S) (hna : NoAlias x addr L.toNat)
    (F : Status → Env → Prop) (hF : FaultsInto P F) :
    (helper_sort P x env addr array_num sort_num).sat
      (fun _ e => ∃ out : List Nat, out.length = L.toNat ∧
        out.Perm (sortInput x env.mem addr L.toNat) ∧
        (∀ k, (min S L).toNat ≤ k → nth out k = nth (sortInput x env.mem addr L.toNat) k) ∧
        (∀ k k1 : Nat, k ≤ k1 → k1 < (min S L).toNat → nth out k ≤ nth out k1) ∧
        (∀ k : Nat, k < L.toNat → readWord x e.mem (sortAddr x addr k) = nth out k) ∧
        (∀ c : Nat, (∀ k : Nat, k < L.toNat → ∀ p : Nat, p < 4 →
          c ≠ (sortAddr x addr k + p) % x.modulus) → e.mem c = env.mem c)) F := by
  unfold helper_sort
  have hLr : L < 2147483648 := by rw [← hL]; unfold toInt32; omega
  have hmin : (if S > L then L else S) = min S L := by
    by_cases h : S > L
    · rw [if_pos h]; omega
    · rw [if_neg h]; omega
  dsimp only
  rw [hL, hS, hmin]
  unfold g_malloc_words
  rw [if_neg (by omega)]
  show ((sortRead P x addr L (List.replicate L.toNat 0) env).bind _).sat _ _
  rw [Res.sat_bind_iff]
  refine Res.sat_mono _ _ _ _ _
    (sortRead_sat P x addr L _ env hL0 (by simp) F hF) ?_ (fun _ _ h => h)
  intro t e ⟨hm, ht⟩
  rw [Res.sat_bind_iff]
  have hlen : t.length = L.toNat := by rw [ht, sortInput_length]
  refine Res.sat_mono _ _ _ _ _
    (sortBubble_sat (min S L) t e F (by omega) (by omega) (by omega)) ?_ (fun _ _ h => h)
  intro t1 e1 ⟨he1, hl1, hp1, htail1, hsorted1⟩
  have hlt : ∀ k, nth t1 k < 4294967296 := by
    intro k
    apply nth_lt_of_mem_lt _ _ _ (by decide)
    intro v hv
    have := (hp1.mem_iff).mp hv
    rw [ht] at this
    exact sortInput_lt x env.mem addr _ v this
  refine Res.sat_mono _ _ _ _ _
    (sortWrite_sat P x addr L t1 e1 hL0 (by omega) hna hlt F hF) ?_ (fun _ _ h => h)
  intro _ e2 ⟨hw, hfr⟩
  refine ⟨t1, by omega, by rw [← ht]; exact hp1, ?_, hsorted1, hw, ?_⟩
  · intro k hk
    rw [← ht]
    exact htail1 k hk
  · intro c hc
    rw [hfr c hc, he1, hm]

/-- Below `2 ^ 29` elements the offset `i * 4` does not wrap: the element
address is `addr + 4 * i` (modulo the address space). -/
theorem sortAddr_small (x : XLen) (addr i : Nat) (hi : i < 536870912) :
    sortAddr x addr i = (addr + 4 * i) % x.modulus := by
  unfold sortAddr
  have h : imul (i : Int) 4 = ((4 * i : Nat) : Int) := by
    unfold imul toInt32; push_cast; omega
  rw [h, taddr_nonneg x addr _ (by omega), Int.toNat_ofNat]

theorem noAlias_small (x : XLen) (addr L : Nat) (hL : L ≤ 536870912) : NoAlias x addr L := by
  intro i j hi hj hij p q hp hq
  rw [sortAddr_small x addr i (by omega), sortAddr_small x addr j (by omega)]
  rcases modulus_cases x with hm | hm <;> rw [hm] <;> omega

theorem getElem?_readWords (x : XLen) (m : Mem) (addr n k : Nat) :
    (readWords x m addr n)[k]? = if k < n then some (readWord x m (addr + 4 * k)) else none := by
  unfold readWords
  rw [List.getElem?_map]
  by_cases hk : k < n
  · rw [List.getElem?_range hk, if_pos hk]; rfl
  · rw [List.getElem?_eq_none_iff.mpr (by simpa using hk), if_neg hk]; rfl

theorem readWords_eq_take (x : XLen) (m : Mem) (addr n : Nat) (l : List Nat)
    (hn : n ≤ l.length) (h : ∀ k, k < n → readWord x m (addr + 4 * k) = nth l k) :
    readWords x m addr n = l.take n := by
  apply List.ext_getElem?
  intro k
  rw [getElem?_readWords, List.getElem?_take]
  by_cases hk : k < n
  · rw [if_pos hk, if_pos hk, h k hk, getElem?_eq_nth l k (by omega)]
  · rw [if_neg hk, if_neg hk]

theorem sorted_take_of_nth (l : List Nat) (n : Nat) (hn : n ≤ l.length)
    (h : ∀ k k1 : Nat, k ≤ k1 → k1 < n → nth l k ≤ nth l k1) :
    (l.take n).Sorted (fun a b => a ≤ b) := by
  unfold List.Sorted
  rw [List.pairwise_iff_getElem]
  intro i j hi hj hij
  have hi2 : i < n := by simp at hi; omega
  have hj2 : j < n := by simp at hj; omega
  have e1 : (l.take n)[i] = nth l i := by
    have := getElem?_eq_nth l i (by omega)
    rw [List.getElem_take]
    rw [List.getElem?_eq_getElem (by omega)] at this
    exact Option.some.inj this
  have e2 : (l.take n)[j] = nth l j := by
    have := getElem?_eq_nth l j (by omega)
    rw [List.getElem_take]
    rw [List.getElem?_eq_getElem (by omega)] at this
    exact Option.some.inj this
  rw [e1, e2]
  exact h i j (by omega) hj2

/-- The sort contract for an array of `L ≤ 2 ^ 29` words at `addr` and a sort
length below `2 ^ 31`, from the effect of the whole helper. -/
theorem helper_sort_post (P : Port) (x : XLen) (env : Env) (addr L S : Nat)
    (hL : L ≤ 536870912) (hS : S < 2147483648)
    (F : Status → Env → Prop) (hF : FaultsInto P F) :
    (helper_sort P x env addr L S).sat
      (fun _ e =>
        (readWords x e.mem addr (min S L)).Sorted (fun a b => a ≤ b) ∧
        (readWords x e.mem addr (min S L)).Perm (readWords x env.mem addr (min S L)) ∧
        (∀ i, min S L ≤ i → i < L →
          readWord x e.mem (addr + 4 * i) = readWord x env.mem (addr + 4 * i)) ∧
        (∀ c : Nat, (∀ k : Nat, k < L → ∀ p : Nat, p < 4 →
          c ≠ (addr + 4 * k + p) % x.modulus) → e.mem c = env.mem c)) F := by
  have hL1 : toInt32 (L : Int) = (L : Int) := by unfold toInt32; omega
  have hS1 : toInt32 (S : Int) = (S : Int) := by unfold toInt32; omega
  have hmin : (min (S : Int) (L : Int)).toNat = min S L := by omega
  have hna : NoAlias x addr ((L : Int).toNat) := by
    rw [Int.toNat_ofNat]
    exact noAlias_small x addr L hL
  have key := helper_sort_sat P x env addr L S (L : Int) (S : Int) hL1 hS1
    (Int.ofNat_nonneg L) (by omega) hna F hF
  refine Res.sat_mono _ _ _ _ _ key ?_ (fun _ _ h => h)
  intro _ e ⟨out, hlen, hperm, htail, hsorted, hw, hfr⟩
  rw [hmin] at htail hsorted
  simp only [Int.toNat_ofNat] at hlen hperm htail hw hfr
  have hA : ∀ (m : Mem) (k : Nat), k < L →
      readWord x m (sortAddr x addr k) = readWord x m (addr + 4 * k) := by
    intro m k hk
    rw [sortAddr_small x addr k (by omega), readWord_mod]
  have hout : readWords x e.mem addr (min S L) = out.take (min S L) :=
    readWords_eq_take x e.mem addr _ out (by omega)
      (fun k hk => by rw [← hA e.mem k (by omega)]; exact hw k (by omega))
  have hin : readWords x env.mem addr (min S L)
      = (sortInput x env.mem addr L).take (min S L) :=
    readWords_eq_take x env.mem addr _ _ (by rw [sortInput_length]; omega)
      (fun k hk => by rw [nth_sortInput _ _ _ _ _ (by omega), hA env.mem k (by omega)])
  refine ⟨?_, ?_, ?_, ?_⟩
  · rw [hout]
    exact sorted_take_of_nth out _ (by omega) hsorted
  · rw [hout, hin]
    exact (perm_take_of_tail out _ _ (by rw [hlen, sortInput_length]) hperm htail).1
  · intro i hi1 hi2
    rw [← hA e.mem i hi2, hw i hi2, htail i hi1, nth_sortInput _ _ _ _ _ hi2, hA env.mem i hi2]
  · intro c hc
    apply hfr c
    intro k hk p hp
    rw [sortAddr_small x addr k (by omega), Nat.add_mod, Nat.mod_mod, ← Nat.add_mod]
    exact hc k hk p hp

/-- With sort length `0` a run of `helper_sort` that does not fail leaves the
memory as it was, for every array length below `2 ^ 31`, overlapping element
addresses included. -/
theorem helper_sort_zero_sat (P : Port) (x : XLen) (env : Env) (addr L : Nat)
    (hL : L < 2147483648) (F : Status → Env → Prop) (hF : FaultsInto P F) :
    (helper_sort P x env addr L 0).sat (fun _ e => e.mem = env.mem) F := by
  unfold helper_sort
  have hL1 : toInt32 (L : Int) = (L : Int) := by unfold toInt32; omega
  have h0 : toInt32 ((0 : Nat) : Int) = 0 := by decide
  dsimp only
  rw [hL1, h0, if_neg (by omega)]
  unfold g_malloc_words
  rw [if_neg (by omega)]
  show ((sortRead P x addr L (List.replicate (L : Int).toNat 0) env).bind _).sat _ _
  rw [Res.sat_bind_iff]
  refine Res.sat_mono _ _ _ _ _
    (sortRead_sat P x addr L _ env (by omega) (by simp) F hF) ?_ (fun _ _ h => h)
  intro t e ⟨hm, ht⟩
  have hlen : t.length = (L : Int).toNat := by rw [ht, sortInput_length]
  rw [Res.sat_bind_iff]
  refine Res.sat_mono _ _ _ _ _
    (sortBubble_sat 0 t e F (by omega) (by omega) (by omega)) ?_ (fun _ _ h => h)
  intro t1 e1 ⟨he1, hl1, _, htail1, _⟩
  have ht1 : t1 = sortInput x env.mem addr (L : Int).toNat := by
    rw [← ht]
    apply List.ext_getElem?
    intro k
    exact getElem?_eq_of_nth t1 t k hl1 (htail1 k (by simp))
  rw [ht1]
  exact sortWrite_echo P x addr L e1 env.mem (by omega) (by rw [he1, hm]) F hF

/-- A sort length whose `int` value exceeds the array length is clamped: the
run is the run with sort length `L`. -/
theorem helper_sort_clamp (P : Port) (x : XLen) (env : Env) (addr L S : Nat)
    (hL : L < 2147483648) (hS : (L : Int) < toInt32 (S : Int)) :
    helper_sort P x env addr L S = helper_sort P x env addr L L := by
  have hL1 : toInt32 (L : Int) = (L : Int) := by unfold toInt32; omega
  unfold helper_sort
  dsimp only
  rw [hL1, if_pos (by omega), if_neg (by omega)]

/-! ## An array of more than `2 ^ 29` words on a 64-bit target -/

theorem sortAddr_rv64 (addr i : Nat) (hi : i < 1073741824) (ha : addr = 2147483648) :
    sortAddr .rv64 addr i = if i < 536870912 then 2147483648 + 4 * i
      else 4 * i - 2147483648 := by
  subst ha
  unfold sortAddr taddr imul toInt32 XLen.modulus XLen.bits
  split_ifs <;> push_cast <;> omega

theorem noAlias_rv64 (L : Nat) (hL : L ≤ 1073741824) : NoAlias .rv64 2147483648 L := by
  intro i j hi hj hij p q hp hq
  rw [sortAddr_rv64 _ i (by omega) rfl, sortAddr_rv64 _ j (by omega) rfl]
  have hm : XLen.modulus .rv64 = 18446744073709551616 := rfl
  rw [hm]
  split_ifs <;> omega

theorem readWord_gapMem (a : Nat) (ha : a + 3 < 4294967296) :
    readWord .rv64 gapMem a = 16843009 := by
  have hm : XLen.modulus .rv64 = 18446744073709551616 := rfl
  have hb : ∀ p, p < 4 → readByte .rv64 gapMem (a + p) = 1 := by
    intro p hp
    unfold readByte gapMem
    rw [hm, if_neg (by omega)]
    rfl
  unfold readWord
  rw [hb 1 (by omega), hb 2 (by omega), hb 3 (by omega)]
  have := hb 0 (by omega)
  rw [Nat.add_zero] at this
  rw [this]

/-- The memory facts behind `helper_sort_rv64_large`: if `m1` holds a
permutation `out` of the array as read from `gapMem` at the element addresses
and agrees with `gapMem` elsewhere, then the word at `2 ^ 32` is zero and the
word before it is not. -/
theorem gapMem_after_sort (L : Nat) (h1 : 536870912 < L) (h2 : L ≤ 1073741824)
    (m0 m1 : Mem) (hm0 : m0 = gapMem) (out : List Nat) (hlen : out.length = (L : Int).toNat)
    (hperm : out.Perm (sortInput .rv64 m0 2147483648 (L : Int).toNat))
    (hw : ∀ k : Nat, k < (L : Int).toNat →
      readWord .rv64 m1 (sortAddr .rv64 2147483648 k) = nth out k)
    (hfr : ∀ c : Nat, (∀ k : Nat, k < (L : Int).toNat → ∀ p : Nat, p < 4 →
      c ≠ (sortAddr .rv64 2147483648 k + p) % XLen.modulus .rv64) → m1 c = m0 c)
    (a1 a2 : Nat) (h511 : a1 = 4294967292) (h512 : a2 = 4294967296) :
    readWord .rv64 m1 a2 < readWord .rv64 m1 a1 := by
  subst hm0
  simp only [Int.toNat_ofNat] at hlen hperm hw hfr
  have hm : XLen.modulus .rv64 = 18446744073709551616 := rfl
  have hin : ∀ v ∈ sortInput .rv64 gapMem 2147483648 L, v = 16843009 := by
    intro v hv
    unfold sortInput at hv
    rw [List.mem_map] at hv
    obtain ⟨k, hk, rfl⟩ := hv
    rw [List.mem_range] at hk
    apply readWord_gapMem
    rw [sortAddr_rv64 _ k (by omega) rfl]
    split_ifs <;> omega
  have hhi : readWord .rv64 m1 a1 = 16843009 := by
    have e := hw 536870911 (by omega)
    rw [sortAddr_rv64 _ _ (by omega) rfl, if_pos (by omega)] at e
    have e2 : 2147483648 + 4 * 536870911 = a1 := by omega
    rw [e2] at e
    rw [e]
    apply hin
    apply (hperm.mem_iff).mp
    exact List.mem_iff_getElem?.mpr ⟨_, getElem?_eq_nth out 536870911 (by omega)⟩
  have hlo : readWord .rv64 m1 a2 = 0 := by
    have hb : ∀ p, p < 4 → readByte .rv64 m1 (a2 + p) = 0 := by
      intro p hp
      unfold readByte
      rw [hfr]
      · unfold gapMem
        rw [hm, if_pos (by omega)]
        rfl
      · intro k hk q hq
        rw [sortAddr_rv64 _ k (by omega) rfl, hm]
        split_ifs <;> omega
    unfold readWord
    rw [hb 1 (by omega), hb 2 (by omega), hb 3 (by omega)]
    have := hb 0 (by omega)
    rw [Nat.add_zero] at this
    rw [this]
  rw [hhi, hlo]
  decide

/-- On a 64-bit target, sorting `L` words with `2 ^ 29 < L ≤ 2 ^ 30` at address
`2 ^ 31` of `gapMem` succeeds and leaves the word of index `2 ^ 29` (address
`2 ^ 32`) at zero, below the word of index `2 ^ 29 - 1`: for the element
`2 ^ 29` the offset `i * 4` wraps to `-2 ^ 31`, so the helper reads and writes
address `0` in its place. -/
theorem helper_sort_rv64_large (L : Nat) (h1 : 536870912 < L) (h2 : L ≤ 1073741824) :
    (helper_sort noFault .rv64 ⟨gapMem, []⟩ 2147483648 L L).status = .ok ∧
    readWord .rv64 (helper_sort noFault .rv64 ⟨gapMem, []⟩ 2147483648 L L).env.mem
        (2147483648 + 4 * 536870912)
      < readWord .rv64 (helper_sort noFault .rv64 ⟨gapMem, []⟩ 2147483648 L L).env.mem
        (2147483648 + 4 * 536870911) := by
  have hL1 : toInt32 (L : Int) = (L : Int) := by unfold toInt32; omega
  have hna : NoAlias .rv64 2147483648 ((L : Int).toNat) := by
    rw [Int.toNat_ofNat]
    exact noAlias_rv64 L h2
  have key := helper_sort_sat noFault .rv64 ⟨gapMem, []⟩ 2147483648 L L (L : Int) (L : Int)
    hL1 hL1 (Int.ofNat_nonneg L) (by omega) hna (fun _ _ => False) faultsInto_noFault
  obtain ⟨hst, u, hu, out, hlen, hperm, htail, hsorted, hw, hfr⟩ := Res.post_of_never _ _ key
  exact ⟨hst, gapMem_after_sort L h1 h2 _ _ rfl out hlen hperm hw hfr _ _ (by decide) (by decide)⟩

/-! ## Nibble packing and unpacking -/

theorem land_15 (v : Nat) : v &&& 15 = v % 16 :=
  Nat.and_pow_two_sub_one_eq_mod v 4

theorem pack_value (v1 v2 : Nat) :
    ((v2 &&& 15) <<< 4) ||| (v1 &&& 15) = (v2 % 16) * 16 + v1 % 16 := by
  rw [land_15, land_15, Nat.shiftLeft_eq]
  have h := Nat.mul_add_lt_is_or (show v1 % 16 < 2 ^ 4 from Nat.mod_lt _ (by norm_num)) (v2 % 16)
  rw [Nat.mul_comm (v2 % 16) (2 ^ 4), ← h]

/-- The byte `helper_crush` stores is the packed pair of low nibbles. -/
theorem crush_byte (b1 b2 : Nat) :
    ((((b2 &&& 0x0F) % 256) <<< 4) ||| ((b1 &&& 0x0F) % 256)) % 256
      = ((b2 &&& 0x0F) <<< 4) ||| (b1 &&& 0x0F) := by
  have h1 : (b1 &&& 0x0F) % 256 = b1 &&& 0x0F := by
    rw [land_15]; omega
  have h2 : (b2 &&& 0x0F) % 256 = b2 &&& 0x0F := by
    rw [land_15]; omega
  rw [h1, h2, pack_value]
  omega

/-- The two bytes `helper_expand` stores are the low and the high nibble. -/
theorem expand_bytes (v : Nat) :
    (v &&& 0x0F) % 256 = v &&& 0x0F ∧ ((v >>> 4) &&& 0x0F) % 256 = (v >>> 4) &&& 0x0F := by
  rw [land_15, land_15]
  constructor <;> omega

theorem tdiv_two (n : Nat) : Int.tdiv (n : Int) 2 = ((n / 2 : Nat) : Int) := by
  simp [Int.tdiv]

theorem readByte_eq_of_mem (x : XLen) (m m0 : Mem) (a : Nat)
    (h : m (a % x.modulus) = m0 (a % x.modulus)) : readByte x m a = readByte x m0 a := by
  unfold readByte; rw [h]

/-- Effect of a `helper_crush` run that does not fail, when no store lands on a
source byte that a later iteration reads: destination byte `k` is the packed
pair of the source bytes `2k` and `2k + 1` as they were before the call, and
bytes outside the destination are untouched. -/
theorem helper_crush_sat (P : Port) (x : XLen) (env : Env) (dst src count : Nat)
    (hc : count < 2147483648)
    (hsafe : ∀ i k : Nat, k < i → i < count / 2 →
      (dst + k) % x.modulus ≠ (src + 2 * i) % x.modulus ∧
      (dst + k) % x.modulus ≠ (src + 2 * i + 1) % x.modulus)
    (F : Status → Env → Prop) (hF : FaultsInto P F) :
    (helper_crush P x env dst src count).sat
      (fun _ e =>
        (∀ k : Nat, k < count / 2 → readByte x e.mem (dst + k)
          = ((readByte x env.mem (src + 2 * k + 1) &&& 0x0F) <<< 4)
              ||| (readByte x env.mem (src + 2 * k) &&& 0x0F)) ∧
        (∀ c : Nat, (∀ k : Nat, k < count / 2 → c ≠ (dst + k) % x.modulus) →
          e.mem c = env.mem c)) F := by
  unfold helper_crush
  have hn : toInt32 (count : Int) = (count : Int) := by unfold toInt32; omega
  dsimp only
  rw [hn, tdiv_two]
  refine Res.sat_mono _ _ _ _ _ (forLoop_sat _ _
    (fun i _ e =>
        (∀ k : Nat, (k : Int) < i → readByte x e.mem (dst + k)
          = ((readByte x env.mem (src + 2 * k + 1) &&& 0x0F) <<< 4)
              ||| (readByte x env.mem (src + 2 * k) &&& 0x0F)) ∧
        (∀ c : Nat, (∀ k : Nat, (k : Int) < i → c ≠ (dst + k) % x.modulus) →
          e.mem c = env.mem c)) F
    () env ⟨fun k hk => by omega, fun _ _ => rfl⟩ ?_) ?_ (fun _ _ h => h)
  · intro i u e hi0 hi1 ⟨hw, hfr⟩
    have h2i : imul i 2 = ((2 * i.toNat : Nat) : Int) := by
      unfold imul toInt32; push_cast; omega
    have hi2 : i.toNat < count / 2 := by omega
    have ha1 : taddr x src ((2 * i.toNat : Nat) : Int) = (src + 2 * i.toNat) % x.modulus := by
      rw [taddr_nonneg x src _ (by omega), Int.toNat_ofNat]
    have ha2 : taddr x ((src + 2 * i.toNat) % x.modulus) 1
        = (src + 2 * i.toNat + 1) % x.modulus := by
      rw [taddr_nonneg x _ _ (by omega)]
      show ((src + 2 * i.toNat) % x.modulus + 1) % x.modulus = _
      rw [Nat.add_mod, Nat.mod_mod, ← Nat.add_mod]
    have ha3 : taddr x dst i = (dst + i.toNat) % x.modulus := taddr_nonneg x dst i hi0
    have hsrc : ∀ a : Nat, (∀ k : Nat, k < i.toNat → (dst + k) % x.modulus ≠ a % x.modulus) →
        readByte x e.mem a = readByte x env.mem a := by
      intro a ha
      apply readByte_eq_of_mem
      apply hfr
      intro k hk
      exact Ne.symm (ha k (by omega))
    dsimp only
    rw [h2i, ha1, ha2, ha3, Res.sat_bind_iff]
    apply cpu_ldub_data_sat _ _ _ _ _ _ ?_ (fun h => hF _ _ _ _ h)
    intro _
    rw [Res.sat_bind_iff]
    apply cpu_ldub_data_sat _ _ _ _ _ _ ?_ (fun h => hF _ _ _ _ h)
    intro _
    rw [Res.sat_bind_iff]
    apply cpu_stb_data_sat _ _ _ _ _ _ _ ?_ (fun h => hF _ _ _ _ h)
    intro _
    apply Res.sat_pure
    have hb1 : readByte x e.mem ((src + 2 * i.toNat) % x.modulus)
        = readByte x env.mem (src + 2 * i.toNat) := by
      rw [readByte_mod]
      exact hsrc _ (fun k hk => (hsafe i.toNat k hk hi2).1)
    have hb2 : readByte x e.mem ((src + 2 * i.toNat + 1) % x.modulus)
        = readByte x env.mem (src + 2 * i.toNat + 1) := by
      rw [readByte_mod]
      exact hsrc _ (fun k hk => (hsafe i.toNat k hk hi2).2)
    have hdd : ∀ k : Nat, k < i.toNat → (dst + k) % x.modulus ≠ (dst + i.toNat) % x.modulus := by
      intro k hk
      rcases modulus_cases x with hm | hm <;> rw [hm] <;> omega
    simp only [Env.log_mem, Nat.mod_mod]
    refine ⟨?_, ?_⟩
    · intro k hk
      rw [readByte_writeByte]
      simp only [Nat.mod_mod]
      by_cases hki : k = i.toNat
      · rw [if_pos (by rw [hki]), hb1, hb2, hki, crush_byte]
      · rw [if_neg (hdd k (by omega))]
        exact hw k (by omega)
    · intro c hc
      rw [writeByte_other _ _ _ _ _ (by rw [Nat.mod_mod]; exact hc i.toNat (by omega))]
      exact hfr c (fun k hk => hc k (by omega))
  · intro _ e ⟨h1, h2⟩
    exact ⟨fun k hk => h1 k (by omega), fun c hc => h2 c (fun k hk => hc k (by omega))⟩

/-- Effect of a `helper_expand` run that does not fail, when no store lands on
a source byte that a later iteration reads: destination bytes `2k` and
`2k + 1` are the low and the high nibble of the source byte `k` as it was
before the call, and bytes outside the destination are untouched. -/
theorem helper_expand_sat (P : Port) (x : XLen) (env : Env) (dst src count : Nat)
    (hc : count < 1073741824)
    (hsafe : ∀ i k : Nat, k < i → i < count →
      (dst + 2 * k) % x.modulus ≠ (src + i) % x.modulus ∧
      (dst + 2 * k + 1) % x.modulus ≠ (src + i) % x.modulus)
    (F : Status → Env → Prop) (hF : FaultsInto P F) :
    (helper_expand P x env dst src count).sat
      (fun _ e =>
        (∀ k : Nat, k < count →
          readByte x e.mem (dst + 2 * k) = readByte x env.mem (src + k) &&& 0x0F ∧
          readByte x e.mem (dst + 2 * k + 1)
            = (readByte x env.mem (src + k) >>> 4) &&& 0x0F) ∧
        (∀ c : Nat, (∀ k : Nat, k < count →
          c ≠ (dst + 2 * k) % x.modulus ∧ c ≠ (dst + 2 * k + 1) % x.modulus) →
          e.mem c = env.mem c)) F := by
  unfold helper_expand
  have hn : toInt32 (count : Int) = (count : Int) := by unfold toInt32; omega
  dsimp only
  rw [hn]
  refine Res.sat_mono _ _ _ _ _ (forLoop_sat _ _
    (fun i _ e =>
        (∀ k : Nat, (k : Int) < i →
          readByte x e.mem (dst + 2 * k) = readByte x env.mem (src + k) &&& 0x0F ∧
          readByte x e.mem (dst + 2 * k + 1)
            = (readByte x env.mem (src + k) >>> 4) &&& 0x0F) ∧
        (∀ c : Nat, (∀ k : Nat, (k : Int) < i →
          c ≠ (dst + 2 * k) % x.modulus ∧ c ≠ (dst + 2 * k + 1) % x.modulus) →
          e.mem c = env.mem c)) F
    () env ⟨fun k hk => by omega, fun _ _ => rfl⟩ ?_) ?_ (fun _ _ h => h)
  · intro i u e hi0 hi1 ⟨hw, hfr⟩
    have h2i : imul i 2 = ((2 * i.toNat : Nat) : Int) := by
      unfold imul toInt32; push_cast; omega
    have hi2 : i.toNat < count := by omega
    have ha0 : taddr x src i = (src + i.toNat) % x.modulus := taddr_nonneg x src i hi0
    have ha1 : taddr x dst ((2 * i.toNat : Nat) : Int) = (dst + 2 * i.toNat) % x.modulus := by
      rw [taddr_nonneg x dst _ (by omega), Int.toNat_ofNat]
    have ha2 : taddr x ((dst + 2 * i.toNat) % x.modulus) 1
        = (dst + 2 * i.toNat + 1) % x.modulus := by
      rw [taddr_nonneg x _ _ (by omega)]
      show ((dst + 2 * i.toNat) % x.modulus + 1) % x.modulus = _
      rw [Nat.add_mod, Nat.mod_mod, ← Nat.add_mod]
    dsimp only
    rw [h2i, ha0, ha1, ha2, Res.sat_bind_iff]
    apply cpu_ldub_data_sat _ _ _ _ _ _ ?_ (fun h => hF _ _ _ _ h)
    intro _
    rw [Res.sat_bind_iff]
    apply cpu_stb_data_sat _ _ _ _ _ _ _ ?_ (fun h => hF _ _ _ _ h)
    intro _
    rw [Res.sat_bind_iff]
    apply cpu_stb_data_sat _ _ _ _ _ _ _ ?_ (fun h => hF _ _ _ _ h)
    intro _
    apply Res.sat_pure
    have hb : readByte x e.mem ((src + i.toNat) % x.modulus)
        = readByte x env.mem (src + i.toNat) := by
      rw [readByte_mod]
      apply readByte_eq_of_mem
      apply hfr
      intro k hk
      have := hsafe i.toNat k (by omega) hi2
      exact ⟨Ne.symm this.1, Ne.symm this.2⟩
    have hdd : ∀ k : Nat, k < i.toNat →
        (dst + 2 * k) % x.modulus ≠ (dst + 2 * i.toNat) % x.modulus ∧
        (dst + 2 * k) % x.modulus ≠ (dst + 2 * i.toNat + 1) % x.modulus ∧
        (dst + 2 * k + 1) % x.modulus ≠ (dst + 2 * i.toNat) % x.modulus ∧
        (dst + 2 * k + 1) % x.modulus ≠ (dst + 2 * i.toNat + 1) % x.modulus := by
      intro k hk
      rcases modulus_cases x with hm | hm <;> rw [hm] <;> omega
    have hd1 : (dst + 2 * i.toNat) % x.modulus ≠ (dst + 2 * i.toNat + 1) % x.modulus := by
      rcases modulus_cases x with hm | hm <;> rw [hm] <;> omega
    simp only [Env.log_mem, Nat.mod_mod]
    refine ⟨?_, ?_⟩
    · intro k hk
      rw [readByte_writeByte, readByte_writeByte, readByte_writeByte, readByte_writeByte]
      simp only [Nat.mod_mod]
      by_cases hki : k = i.toNat
      · rw [hki, if_neg hd1, if_pos rfl, if_pos rfl, hb]
        exact ⟨(expand_bytes _).1, (expand_bytes _).2⟩
      · have h4 := hdd k (by omega)
        rw [if_neg h4.2.1, if_neg h4.1, if_neg h4.2.2.2, if_neg h4.2.2.1]
        exact hw k (by omega)
    · intro c hc
      have h1 := hc i.toNat (by omega)
      rw [writeByte_other _ _ _ _ _ (by rw [Nat.mod_mod]; exact h1.2),
        writeByte_other _ _ _ _ _ (by rw [Nat.mod_mod]; exact h1.1)]
      exact hfr c (fun k hk => hc k (by omega))
  · intro _ e ⟨h1, h2⟩
    refine ⟨fun k hk => h1 k (by omega), fun c hc => h2 c (fun k hk => hc k (by omega))⟩

theorem unpack_low (v1 v2 : Nat) :
    (((v2 &&& 0x0F) <<< 4) ||| (v1 &&& 0x0F)) &&& 0x0F = v1 &&& 0x0F := by
  rw [pack_value, land_15, land_15]
  omega

theorem unpack_high (v1 v2 : Nat) :
    ((((v2 &&& 0x0F) <<< 4) ||| (v1 &&& 0x0F)) >>> 4) &&& 0x0F = v2 &&& 0x0F := by
  rw [pack_value, land_15, land_15, Nat.shiftRight_eq_div_pow]
  omega

/-- Crush from `A` into `B`, then expand from `B` into `C`: every byte of `C`
is the low nibble of the corresponding byte `A` held before the first call. -/
theorem crush_then_expand (P : Port) (x : XLen) (env : Env) (A B C n : Nat)
    (hn : n < 1073741824) (heven : n % 2 = 0)
    (hAB : ∀ k : Nat, k < n → ∀ i : Nat, i < n / 2 →
      (A + k) % x.modulus ≠ (B + i) % x.modulus)
    (hBC : ∀ i : Nat, i < n / 2 → ∀ j : Nat, j < n →
      (B + i) % x.modulus ≠ (C + j) % x.modulus)
    (h1 : (helper_crush P x env B A n).status ≠ .fault)
    (h2 : (helper_expand P x (helper_crush P x env B A n).env C B (n / 2)).status ≠ .fault)
    (k : Nat) (hk : k < n) :
    readByte x (helper_expand P x (helper_crush P x env B A n).env C B (n / 2)).env.mem (C + k)
      = readByte x env.mem (A + k) &&& 0x0F := by
  have c1 := (Res.post_of_not_fault (helper_crush P x env B A n) _
    (helper_crush_sat P x env B A n (by omega)
      (fun i k hk hi => ⟨Ne.symm (hAB (2 * i) (by omega) k (by omega)),
        Ne.symm (hAB (2 * i + 1) (by omega) k (by omega))⟩)
      (fun s _ => s = .fault) (faultsInto_fault P)) h1).2.1
  have c2 := (Res.post_of_not_fault
    (helper_expand P x (helper_crush P x env B A n).env C B (n / 2)) _
    (helper_expand_sat P x (helper_crush P x env B A n).env C B (n / 2) (by omega)
      (fun i k hk hi => ⟨Ne.symm (hBC i (by omega) (2 * k) (by omega)),
        Ne.symm (hBC i (by omega) (2 * k + 1) (by omega))⟩)
      (fun s _ => s = .fault) (faultsInto_fault P)) h2).2.1
  have hb := c1 (k / 2) (by omega)
  have he := c2 (k / 2) (by omega)
  rw [hb] at he
  rw [unpack_low, unpack_high] at he
  rcases Nat.mod_two_eq_zero_or_one k with hk0 | hk1
  · have eC : C + 2 * (k / 2) = C + k := by omega
    have eA : A + 2 * (k / 2) = A + k := by omega
    have := he.1
    rw [eC, eA] at this
    exact this
  · have eC : C + 2 * (k / 2) + 1 = C + k := by omega
    have eA : A + 2 * (k / 2) + 1 = A + k := by omega
    have := he.2
    rw [eC, eA] at this
    exact this

/-! ## Fault propagation on the access trace -/

theorem firstFault_allOk (l : List Access) (h : AllOk l) : firstFault l = none := by
  induction l with
  | nil => rfl
  | cons a l ih =>
    have ha : a.faulted = false := h a (List.mem_cons_self a l)
    have hl : AllOk l := fun b hb => h b (List.mem_cons_of_mem a hb)
    simp [firstFault, ha, ih hl]

theorem firstFault_snoc (pre : List Access) (a : Access) (h : AllOk pre)
    (ha : a.faulted = true) : firstFault (pre ++ [a]) = some (pre.length + 1) := by
  induction pre with
  | nil => simp [firstFault, ha]
  | cons b l ih =>
    have hb : b.faulted = false := h b (List.mem_cons_self b l)
    have hl : AllOk l := fun c hc => h c (List.mem_cons_of_mem b hc)
    simp [firstFault, hb, ih hl]

/-- If the `k`-th access is the first one that faulted, the run ended with the
fault and issued exactly `k` accesses. -/
theorem propagated_first (s : Status) (news : List Access) (k : Nat)
    (h : Propagated s news) (hk : firstFault news = some k) :
    s = .fault ∧ news.length = k := by
  by_cases hs : s = .fault
  · obtain ⟨pre, a, rfl, ha, hpre⟩ := h.1 hs
    rw [firstFault_snoc pre a hpre ha] at hk
    refine ⟨hs, ?_⟩
    have := Option.some.inj hk
    simp
    omega
  · rw [firstFault_allOk news (h.2 hs)] at hk
    cases hk

theorem allOk_append (l1 l2 : List Access) (h1 : AllOk l1) (h2 : AllOk l2) :
    AllOk (l1 ++ l2) := by
  intro a ha
  rcases List.mem_append.mp ha with h | h
  · exact h1 a h
  · exact h2 a h

theorem clean_log (tr0 : List Access) (env : Env) (m : Mem) (a : Access)
    (h : Clean tr0 env) (ha : a.faulted = false) : Clean tr0 ⟨m, env.trace ++ [a]⟩ := by
  obtain ⟨news, h1, h2⟩ := h
  refine ⟨news ++ [a], by simp [h1], allOk_append _ _ h2 ?_⟩
  intro b hb
  rw [List.mem_singleton.mp hb]
  exact ha

theorem failed_log (tr0 : List Access) (env : Env) (k : AccessKind) (ad sz : Nat)
    (h : Clean tr0 env) : FailedShape tr0 .fault (env.log k ad sz true) := by
  obtain ⟨news, h1, h2⟩ := h
  refine ⟨news ++ [⟨k, ad, sz, true⟩], by simp [Env.log, h1], ?_, fun hne => absurd rfl hne⟩
  intro _
  exact ⟨news, _, rfl, rfl, h2⟩

theorem failed_abort (tr0 : List Access) (env : Env) (h : Clean tr0 env) :
    FailedShape tr0 .abort env := by
  obtain ⟨news, h1, h2⟩ := h
  refine ⟨news, h1, ?_, fun _ => h2⟩
  intro hs
  cases hs

theorem tracks_ldub (P : Port) (x : XLen) (addr : Nat) :
    Tracks (cpu_ldub_data P x addr) := by
  intro tr0 env h
  exact cpu_ldub_data_sat _ _ _ _ _ _ (fun _ => clean_log tr0 env env.mem _ h rfl)
    (fun _ => failed_log tr0 env _ _ _ h)

theorem tracks_ldl (P : Port) (x : XLen) (addr : Nat) :
    Tracks (cpu_ldl_data P x addr) := by
  intro tr0 env h
  exact cpu_ldl_data_sat _ _ _ _ _ _ (fun _ => clean_log tr0 env env.mem _ h rfl)
    (fun _ => failed_log tr0 env _ _ _ h)

theorem tracks_stb (P : Port) (x : XLen) (addr v : Nat) :
    Tracks (cpu_stb_data P x addr v) := by
  intro tr0 env h
  exact cpu_stb_data_sat _ _ _ _ _ _ _ (fun _ => clean_log tr0 env _ _ h rfl)
    (fun _ => failed_log tr0 env _ _ _ h)

theorem tracks_stl (P : Port) (x : XLen) (addr v : Nat) :
    Tracks (cpu_stl_data P x addr v) := by
  intro tr0 env h
  exact cpu_stl_data_sat _ _ _ _ _ _ _ (fun _ => clean_log tr0 env _ _ h rfl)
    (fun _ => failed_log tr0 env _ _ _ h)

theorem tracks_bufGet (buf : List Nat) (i : Int) : Tracks (bufGet buf i) := by
  intro tr0 env h
  exact bufGet_sat _ _ _ _ _ (fun _ _ _ => h) (fun _ => failed_abort tr0 env h)

theorem tracks_bufSet (buf : List Nat) (i : Int) (v : Nat) : Tracks (bufSet buf i v) := by
  intro tr0 env h
  exact bufSet_sat _ _ _ _ _ _ (fun _ _ => h) (fun _ => failed_abort tr0 env h)

theorem tracks_pure {α : Type} (v : α) : Tracks (fun env => Res.ok v env) := by
  intro tr0 env h
  exact Res.sat_pure _ _ _ _ h

theorem tracks_bind {α β : Type} (f : Env → Res α) (g : α → Env → Res β)
    (hf : Tracks f) (hg : ∀ v, Tracks (g v)) : Tracks (fun env => (f env).bind g) := by
  intro tr0 env h
  exact Res.sat_bind _ _ _ _ _ (hf tr0 env h) (fun v e he => hg v tr0 e he)

theorem tracks_forLoop {α : Type} (n : Int) (body : Int → α → Env → Res α) (a : α)
    (hb : ∀ i a, Tracks (body i a)) : Tracks (forLoop n body a) := by
  intro tr0 env h
  exact forLoop_sat n body (fun _ _ e => Clean tr0 e) (FailedShape tr0) a env h
    (fun i a e _ _ he => hb i a tr0 e he)

theorem tracks_malloc (n : Int) : Tracks (g_malloc_words n) := by
  intro tr0 env h
  unfold g_malloc_words
  split
  · exact Res.sat_failed_intro _ _ _ (failed_abort tr0 env h)
  · exact Res.sat_pure _ _ _ _ h

theorem tracks_propagated {α : Type} (f : Env → Res α) (hf : Tracks f) (env : Env) :
    Propagated (f env).status (newAccesses env (f env)) := by
  have h := hf env.trace env ⟨[], by simp, fun a ha => by cases ha⟩
  have hdrop : ∀ news, (f env).env.trace = env.trace ++ news →
      newAccesses env (f env) = news := by
    intro news hn
    unfold newAccesses
    rw [hn, List.drop_left]
  by_cases hs : (f env).status = .ok
  · obtain ⟨_, _, news, hn, hall⟩ := Res.sat_ok _ _ _ h hs
    rw [hdrop news hn, hs]
    exact ⟨fun h => Status.noConfusion h, fun _ => hall⟩
  · obtain ⟨news, hn, hp⟩ := Res.sat_failed _ _ _ h hs
    rw [hdrop news hn]
    exact hp

theorem tracks_helper_dma (P : Port) (x : XLen) (dst src grain : Nat) :
    Tracks (fun env => helper_dma P x env dst src grain) := by
  unfold helper_dma dmaRead dmaWrite
  exact tracks_bind _ _
    (tracks_forLoop _ _ _ (fun i a => tracks_forLoop _ _ _ (fun j a =>
      tracks_bind _ _ (tracks_ldl P x _) (fun v => tracks_bufSet _ _ _))))
    (fun temp => tracks_forLoop _ _ _ (fun i a => tracks_forLoop _ _ _ (fun j a =>
      tracks_bind _ _ (tracks_bufGet _ _) (fun v => tracks_stl P x _ _))))

theorem tracks_helper_sort (P : Port) (x : XLen) (addr array_num sort_num : Nat) :
    Tracks (fun env => helper_sort P x env addr array_num sort_num) := by
  unfold helper_sort sortRead sortBubble sortWrite
  refine tracks_bind _ _ (tracks_malloc _) (fun arr => ?_)
  refine tracks_bind _ _
    (tracks_forLoop _ _ _ (fun i a => tracks_bind _ _ (tracks_ldl P x _)
      (fun v => tracks_bufSet _ _ _))) (fun arr => ?_)
  refine tracks_bind _ _ (tracks_forLoop _ _ _ (fun i a => tracks_forLoop _ _ _ (fun j a => ?_)))
    (fun arr => ?_)
  · unfold sortStep
    refine tracks_bind _ _ (tracks_bufGet _ _) (fun va => ?_)
    refine tracks_bind _ _ (tracks_bufGet _ _) (fun vb => ?_)
    by_cases h : va > vb
    · simp only [h, if_true]
      exact tracks_bind _ _ (tracks_bufSet _ _ _) (fun arr => tracks_bufSet _ _ _)
    · simp only [h, if_false]
      exact tracks_pure _
  · exact tracks_forLoop _ _ _ (fun i a => tracks_bind _ _ (tracks_bufGet _ _)
      (fun v => tracks_bind _ _ (tracks_stl P x _ _) (fun _ => tracks_pure _)))

theorem tracks_helper_crush (P : Port) (x : XLen) (dst src num : Nat) :
    Tracks (fun env => helper_crush P x env dst src num) := by
  unfold helper_crush
  exact tracks_forLoop _ _ _ (fun i a => tracks_bind _ _ (tracks_ldub P x _)
    (fun b1 => tracks_bind _ _ (tracks_ldub P x _)
      (fun b2 => tracks_bind _ _ (tracks_stb P x _ _) (fun _ => tracks_pure _))))

theorem tracks_helper_expand (P : Port) (x : XLen) (dst src num : Nat) :
    Tracks (fun env => helper_expand P x env dst src num) := by
  unfold helper_expand
  exact tracks_forLoop _ _ _ (fun i a => tracks_bind _ _ (tracks_ldub P x _)
    (fun v => tracks_bind _ _ (tracks_stb P x _ _)
      (fun _ => tracks_bind _ _ (tracks_stb P x _ _) (fun _ => tracks_pure _))))

/-! ## Frames, in-place packing, and the inverse round trip -/

theorem readWord_eq_of_bytes (x : XLen) (m1 m2 : Mem) (a : Nat)
    (h : ∀ p : Nat, p < 4 → m1 ((a + p) % x.modulus) = m2 ((a + p) % x.modulus)) :
    readWord x m1 a = readWord x m2 a := by
  unfold readWord
  rw [readByte_eq_of_mem x m1 m2 a (by simpa using h 0 (by omega)),
    readByte_eq_of_mem x m1 m2 (a + 1) (h 1 (by omega)),
    readByte_eq_of_mem x m1 m2 (a + 2) (h 2 (by omega)),
    readByte_eq_of_mem x m1 m2 (a + 3) (h 3 (by omega))]

/-- In `helper_crush(a, a, count)` the store of an earlier iteration never
lands on a byte a later iteration reads. -/
theorem crush_in_place_safe (x : XLen) (a count : Nat) (hc : count < 2147483648) :
    ∀ i k : Nat, k < i → i < count / 2 →
      (a + k) % x.modulus ≠ (a + 2 * i) % x.modulus ∧
      (a + k) % x.modulus ≠ (a + 2 * i + 1) % x.modulus := by
  intro i k hk hi
  rcases modulus_cases x with hm | hm <;> rw [hm] <;> omega

theorem unpack_pack (p : Nat) (hp : p < 256) :
    ((((p >>> 4) &&& 0x0F) &&& 0x0F) <<< 4) ||| ((p &&& 0x0F) &&& 0x0F) = p := by
  rw [pack_value, land_15, land_15, Nat.shiftRight_eq_div_pow]
  omega

/-- Expand from `A` into `B`, then crush from `B` into `C`: every byte of `C`
is the byte `A` held before the first call. -/
theorem expand_then_crush (P : Port) (x : XLen) (env : Env) (A B C c : Nat)
    (hc : c < 1073741824)
    (hAB : ∀ k : Nat, k < c → ∀ j : Nat, j < 2 * c →
      (A + k) % x.modulus ≠ (B + j) % x.modulus)
    (hBC : ∀ j : Nat, j < 2 * c → ∀ i : Nat, i < c →
      (B + j) % x.modulus ≠ (C + i) % x.modulus)
    (h1 : (helper_expand P x env B A c).status ≠ .fault)
    (h2 : (helper_crush P x (helper_expand P x env B A c).env C B (2 * c)).status ≠ .fault)
    (i : Nat) (hi : i < c) :
    readByte x (helper_crush P x (helper_expand P x env B A c).env C B (2 * c)).env.mem (C + i)
      = readByte x env.mem (A + i) := by
  have e1 := (Res.post_of_not_fault (helper_expand P x env B A c) _
    (helper_expand_sat P x env B A c hc
      (fun i k hk hi => ⟨Ne.symm (hAB i hi (2 * k) (by omega)),
        Ne.symm (hAB i hi (2 * k + 1) (by omega))⟩)
      (fun s _ => s = .fault) (faultsInto_fault P)) h1).2.1
  have hdiv : 2 * c / 2 = c := by omega
  have e2 := (Res.post_of_not_fault
    (helper_crush P x (helper_expand P x env B A c).env C B (2 * c)) _
    (helper_crush_sat P x (helper_expand P x env B A c).env C B (2 * c) (by omega)
      (fun i k hk hi => ⟨Ne.symm (hBC (2 * i) (by omega) k (by omega)),
        Ne.symm (hBC (2 * i + 1) (by omega) k (by omega))⟩)
      (fun s _ => s = .fault) (faultsInto_fault P)) h2).2.1
  have hb := e2 i (by omega)
  have he := e1 i hi
  rw [hb, he.1, he.2]
  exact unpack_pack _ (readByte_lt x env.mem _)

/-! ## In-place expansion -/

theorem pow2_double (i : Nat) (_hi : 1 ≤ i) : (∃ m, 2 * i = 2 ^ m) ↔ (∃ m, i = 2 ^ m) := by
  constructor
  · rintro ⟨m, hm⟩
    cases m with
    | zero => rw [Nat.pow_zero] at hm; omega
    | succ m => exact ⟨m, by rw [Nat.pow_succ] at hm; omega⟩
  · rintro ⟨m, hm⟩
    exact ⟨m + 1, by rw [Nat.pow_succ]; omega⟩

theorem not_pow2_odd (i : Nat) (hi : 1 ≤ i) : ¬ ∃ m, 2 * i + 1 = 2 ^ m := by
  rintro ⟨m, hm⟩
  cases m with
  | zero => rw [Nat.pow_zero] at hm; omega
  | succ m => rw [Nat.pow_succ] at hm; omega

theorem nibble_lt (v : Nat) : v &&& 0x0F < 16 := by
  rw [land_15]; omega

theorem nibble_of_nibble (v : Nat) (hv : v < 16) :
    v &&& 0x0F = v ∧ (v >>> 4) &&& 0x0F = 0 := by
  rw [land_15, land_15, Nat.shiftRight_eq_div_pow]
  constructor <;> omega

/-- Effect of `helper_expand(a, a, count)` (destination equal to source) when
the run does not fail: byte `0` is the low nibble of the first source byte,
byte `k ≥ 1` is its high nibble when `k` is a power of two and `0` otherwise. -/
theorem helper_expand_in_place_sat (P : Port) (x : XLen) (env : Env) (a count : Nat)
    (hc : count < 1073741824) (F : Status → Env → Prop) (hF : FaultsInto P F) :
    (helper_expand P x env a a count).sat
      (fun _ e =>
        (0 < count → readByte x e.mem a = readByte x env.mem a &&& 0x0F) ∧
        (∀ k : Nat, 1 ≤ k → k < 2 * count →
          ((∃ m, k = 2 ^ m) →
            readByte x e.mem (a + k) = (readByte x env.mem a >>> 4) &&& 0x0F) ∧
          ((¬ ∃ m, k = 2 ^ m) → readByte x e.mem (a + k) = 0))) F := by
  unfold helper_expand
  have hn : toInt32 (count : Int) = (count : Int) := by unfold toInt32; omega
  dsimp only
  rw [hn]
  refine Res.sat_mono _ _ _ _ _ (forLoop_sat _ _
    (fun i _ e =>
        (0 < i → readByte x e.mem a = readByte x env.mem a &&& 0x0F) ∧
        (∀ k : Nat, 1 ≤ k → (k : Int) < 2 * i →
          ((∃ m, k = 2 ^ m) →
            readByte x e.mem (a + k) = (readByte x env.mem a >>> 4) &&& 0x0F) ∧
          ((¬ ∃ m, k = 2 ^ m) → readByte x e.mem (a + k) = 0)) ∧
        (∀ k : Nat, 2 * i ≤ (k : Int) → k < 2 * count →
          readByte x e.mem (a + k) = readByte x env.mem (a + k))) F
    () env ⟨fun h => by omega, fun k _ hk => by omega, fun _ _ _ => rfl⟩ ?_) ?_
    (fun _ _ h => h)
  · intro i u e hi0 hi1 ⟨hz, hp, hrest⟩
    have h2i : imul i 2 = ((2 * i.toNat : Nat) : Int) := by
      unfold imul toInt32; push_cast; omega
    have hi2 : i.toNat < count := by omega
    have ha0 : taddr x a i = (a + i.toNat) % x.modulus := taddr_nonneg x a i hi0
    have ha1 : taddr x a ((2 * i.toNat : Nat) : Int) = (a + 2 * i.toNat) % x.modulus := by
      rw [taddr_nonneg x a _ (by omega), Int.toNat_ofNat]
    have ha2 : taddr x ((a + 2 * i.toNat) % x.modulus) 1
        = (a + 2 * i.toNat + 1) % x.modulus := by
      rw [taddr_nonneg x _ _ (by omega)]
      show ((a + 2 * i.toNat) % x.modulus + 1) % x.modulus = _
      rw [Nat.add_mod, Nat.mod_mod, ← Nat.add_mod]
    dsimp only
    rw [h2i, ha0, ha1, ha2, Res.sat_bind_iff]
    apply cpu_ldub_data_sat _ _ _ _ _ _ ?_ (fun h => hF _ _ _ _ h)
    intro _
    rw [Res.sat_bind_iff]
    apply cpu_stb_data_sat _ _ _ _ _ _ _ ?_ (fun h => hF _ _ _ _ h)
    intro _
    rw [Res.sat_bind_iff]
    apply cpu_stb_data_sat _ _ _ _ _ _ _ ?_ (fun h => hF _ _ _ _ h)
    intro _
    apply Res.sat_pure
    have hne : ∀ k j : Nat, k < 2 * count → j < 2 * count → k ≠ j →
        (a + k) % x.modulus ≠ (a + j) % x.modulus := by
      intro k j hk hj hkj
      rcases modulus_cases x with hm | hm <;> rw [hm] <;> omega
    have hrd : ∀ v k : Nat, k < 2 * count →
        readByte x (writeByte x (writeByte x e.mem ((a + 2 * i.toNat) % x.modulus)
          ((v &&& 0x0F) % 256)) ((a + 2 * i.toNat + 1) % x.modulus)
          (((v >>> 4) &&& 0x0F) % 256)) (a + k)
        = if k = 2 * i.toNat + 1 then (v >>> 4) &&& 0x0F
          else if k = 2 * i.toNat then v &&& 0x0F
          else readByte x e.mem (a + k) := by
      intro v k hk
      rw [readByte_writeByte, readByte_writeByte]
      simp only [Nat.mod_mod]
      rw [Nat.add_assoc a (2 * i.toNat) 1]
      by_cases h1 : k = 2 * i.toNat + 1
      · rw [if_pos (by rw [h1]), if_pos h1, (expand_bytes v).2]
      · rw [if_neg (hne k _ hk (by omega) h1), if_neg h1]
        by_cases h2 : k = 2 * i.toNat
        · rw [if_pos (by rw [h2]), if_pos h2, (expand_bytes v).1]
        · rw [if_neg (hne k _ hk (by omega) h2), if_neg h2]
    have hv : readByte x e.mem ((a + i.toNat) % x.modulus) = readByte x e.mem (a + i.toNat) :=
      readByte_mod x e.mem _
    simp only [Env.log_mem, Nat.mod_mod]
    rw [hv]
    have hval : (i.toNat = 0 → readByte x e.mem (a + i.toNat) = readByte x env.mem a) ∧
        (1 ≤ i.toNat → ((∃ m, i.toNat = 2 ^ m) →
            readByte x e.mem (a + i.toNat) = (readByte x env.mem a >>> 4) &&& 0x0F) ∧
          ((¬ ∃ m, i.toNat = 2 ^ m) → readByte x e.mem (a + i.toNat) = 0)) := by
      constructor
      · intro h0
        rw [h0]
        exact hrest 0 (by omega) (by omega)
      · intro h1
        exact hp i.toNat h1 (by omega)
    refine ⟨?_, ?_, ?_⟩
    · intro _
      refine (hrd (readByte x e.mem (a + i.toNat)) 0 (by omega)).trans ?_
      rw [if_neg (by omega)]
      by_cases h0 : i.toNat = 0
      · rw [if_pos (by omega), hval.1 h0]
      · rw [if_neg (by omega)]
        exact hz (by omega)
    · intro k hk1 hk2
      rw [hrd _ k (by omega)]
      by_cases h1 : k = 2 * i.toNat + 1
      · rw [if_pos h1]
        by_cases h0 : i.toNat = 0
        · rw [hval.1 h0]
          refine ⟨fun _ => rfl, fun hnp => absurd ⟨0, by rw [h1, h0]; rfl⟩ hnp⟩
        · have hnot := not_pow2_odd i.toNat (by omega)
          rw [← h1] at hnot
          refine ⟨fun hpw => absurd hpw hnot, fun _ => ?_⟩
          by_cases hpi : ∃ m, i.toNat = 2 ^ m
          · rw [(hval.2 (by omega)).1 hpi]
            exact (nibble_of_nibble _ (nibble_lt _)).2
          · rw [(hval.2 (by omega)).2 hpi]
            rfl
      · rw [if_neg h1]
        by_cases h2 : k = 2 * i.toNat
        · rw [if_pos h2]
          have hi1 : 1 ≤ i.toNat := by omega
          have hiff := pow2_double i.toNat hi1
          rw [← h2] at hiff
          by_cases hpi : ∃ m, i.toNat = 2 ^ m
          · rw [(hval.2 hi1).1 hpi]
            exact ⟨fun _ => (nibble_of_nibble _ (nibble_lt _)).1,
              fun hnp => absurd (hiff.mpr hpi) hnp⟩
          · rw [(hval.2 hi1).2 hpi]
            exact ⟨fun hpw => absurd (hiff.mp hpw) hpi, fun _ => rfl⟩
        · rw [if_neg h2]
          have hk3 : (k : Int) < 2 * i := by
            clear hval hrd hne hz hrest
            omega
          exact hp k hk1 hk3
    · intro k hk1 hk2
      rw [hrd _ k hk2, if_neg (by omega), if_neg (by omega)]
      exact hrest k (by omega) hk2
  · intro _ e ⟨h1, h2, _⟩
    exact ⟨fun h => h1 (by omega), fun k hk1 hk2 => h2 k hk1 (by omega)⟩

/-! ## Exact access traces of the transpose, and its state at a fault -/

theorem Env.log_trace (env : Env) (k : AccessKind) (a size : Nat) (faulted : Bool) :
    (env.log k a size faulted).trace = env.trace ++ [⟨k, a, size, faulted⟩] := rfl

theorem wordLoads_succ (x : XLen) (base n : Nat) :
    wordLoads x base (n + 1)
      = wordLoads x base n ++ [⟨.load, (base + 4 * n) % x.modulus, 4, false⟩] := by
  simp [wordLoads, List.range_succ]

theorem wordStores_succ (x : XLen) (base n : Nat) :
    wordStores x base (n + 1)
      = wordStores x base n ++ [⟨.store, (base + 4 * n) % x.modulus, 4, false⟩] := by
  simp [wordStores, List.range_succ]

theorem wordLoads_length (x : XLen) (base n : Nat) : (wordLoads x base n).length = n := by
  simp [wordLoads]

theorem wordStores_length (x : XLen) (base n : Nat) : (wordStores x base n).length = n := by
  simp [wordStores]

theorem allOk_wordLoads (x : XLen) (base n : Nat) : AllOk (wordLoads x base n) := by
  intro a ha
  simp only [wordLoads, List.mem_map] at ha
  obtain ⟨k, _, rfl⟩ := ha
  rfl

theorem allOk_wordStores (x : XLen) (base n : Nat) : AllOk (wordStores x base n) := by
  intro a ha
  simp only [wordStores, List.mem_map] at ha
  obtain ⟨k, _, rfl⟩ := ha
  rfl

/-- The read phase issues the word loads at `src, src + 4, ...` in order and
nothing else. A failure is a fault on the load number `n` (counted from 0),
after which memory is as before. -/
theorem dmaRead_trace (P : Port) (x : XLen) (src : Nat) (N : Int) (temp : List Nat) (env : Env)
    (hN : N = 8 ∨ N = 16 ∨ N = 32) (hlen : temp.length = (N * N).toNat)
    (F : Status → Env → Prop)
    (hF : ∀ (e : Env) (n : Nat), e.mem = env.mem → n < (N * N).toNat →
      e.trace = env.trace ++ wordLoads x src n →
      F .fault (e.log .load ((src + 4 * n) % x.modulus) 4 true)) :
    (dmaRead P x src N temp env).sat
      (fun _ e => e.trace = env.trace ++ wordLoads x src (N * N).toNat) F := by
  unfold dmaRead
  refine Res.sat_mono _ _ _ _ _ (forLoop_sat _ _
    (fun i t e => e.mem = env.mem ∧ t.length = (N * N).toNat ∧
        e.trace = env.trace ++ wordLoads x src (i * N).toNat) F temp env
    ⟨rfl, hlen, by simp [wordLoads]⟩ ?_) ?_ (fun _ _ h => h)
  · intro i t e hi0 hiN ⟨hm, hl, ht⟩
    refine Res.sat_mono _ _ _ _ _ (forLoop_sat _ _
      (fun j t e => e.mem = env.mem ∧ t.length = (N * N).toNat ∧
        e.trace = env.trace ++ wordLoads x src (i * N + j).toNat) F t e
      ⟨hm, hl, by rw [ht, Int.add_zero]⟩ ?_) ?_ (fun _ _ h => h)
    · intro j t1 e1 hj0 hjN ⟨hm1, hl1, ht1⟩
      have hK : iadd (imul i N) j = i * N + j := by
        unfold iadd imul toInt32
        rcases hN with rfl | rfl | rfl <;> omega
      have hK4 : imul (i * N + j) 4 = 4 * (i * N + j) := by
        unfold imul toInt32
        rcases hN with rfl | rfl | rfl <;> omega
      have hKr : 0 ≤ i * N + j ∧ i * N + j < N * N := by
        rcases hN with rfl | rfl | rfl <;> omega
      have haddr : taddr x src (4 * (i * N + j)) % x.modulus
          = (src + 4 * (i * N + j).toNat) % x.modulus := by
        rw [taddr_nonneg x src _ (by omega), Nat.mod_mod]
        congr 2
        omega
      dsimp only
      rw [hK, hK4, Res.sat_bind_iff]
      apply cpu_ldl_data_sat _ _ _ _ _ _ ?_ ?_
      · intro _
        apply bufSet_sat _ _ _ _ _ _ ?_ (fun h => absurd h (by omega))
        intro _ _
        refine ⟨hm1, by simpa using hl1, ?_⟩
        have hs : (i * N + (j + 1)).toNat = (i * N + j).toNat + 1 := by omega
        rw [hs, wordLoads_succ, Env.log_trace, ht1, haddr, List.append_assoc]
      · intro _
        rw [haddr]
        exact hF e1 _ hm1 (by omega) ht1
    · intro t1 e1 ⟨h1, h2, h3⟩
      refine ⟨h1, h2, ?_⟩
      rw [h3]
      congr 2
      rcases hN with rfl | rfl | rfl <;> omega
  · intro t e ⟨_, _, h3⟩
    rw [h3]
    congr 2
    rcases hN with rfl | rfl | rfl <;> omega

/-- The write phase issues the word stores at `dst, dst + 4, ...` in order and
nothing else. A failure is a fault on the store of cell `c`; then the cells
before `c` hold their buffer entries and every byte outside them is as
before. -/
theorem dmaWrite_trace (P : Port) (x : XLen) (dst : Nat) (N : Int) (temp : List Nat) (env : Env)
    (hN : N = 8 ∨ N = 16 ∨ N = 32) (W : Nat → Nat)
    (hW : ∀ k : Nat, (k : Int) < N * N → temp[k]? = some (W k))
    (hWlt : ∀ k, W k < 4294967296)
    (F : Status → Env → Prop)
    (hF : ∀ (e : Env) (c : Nat), c < (N * N).toNat →
      e.trace = env.trace ++ wordStores x dst c →
      (∀ k : Nat, k < c →
        readWord x e.mem (dst + 4 * k) = W ((k % N.toNat) * N.toNat + k / N.toNat)) →
      (∀ a : Nat, (∀ k : Nat, k < c → ∀ p : Nat, p < 4 →
        a ≠ (dst + 4 * k + p) % x.modulus) → e.mem a = env.mem a) →
      F .fault (e.log .store ((dst + 4 * c) % x.modulus) 4 true)) :
    (dmaWrite P x dst N temp env).sat
      (fun _ e => e.trace = env.trace ++ wordStores x dst (N * N).toNat) F := by
  unfold dmaWrite
  refine Res.sat_mono _ _ _ _ _ (forLoop_sat _ _
    (fun i _ e => e.trace = env.trace ++ wordStores x dst (i * N).toNat ∧
        (∀ k : Nat, (k : Int) < i * N →
          readWord x e.mem (dst + 4 * k) = W ((k % N.toNat) * N.toNat + k / N.toNat)) ∧
        (∀ a : Nat, (∀ k : Nat, (k : Int) < i * N → ∀ p : Nat, p < 4 →
          a ≠ (dst + 4 * k + p) % x.modulus) → e.mem a = env.mem a)) F () env
    ⟨by simp [wordStores], fun k hk => by omega, fun _ _ => rfl⟩ ?_) ?_ (fun _ _ h => h)
  · intro i u e hi0 hiN ⟨ht, hw, hfr⟩
    refine Res.sat_mono _ _ _ _ _ (forLoop_sat _ _
      (fun j _ e => e.trace = env.trace ++ wordStores x dst (i * N + j).toNat ∧
        (∀ k : Nat, (k : Int) < i * N + j →
          readWord x e.mem (dst + 4 * k) = W ((k % N.toNat) * N.toNat + k / N.toNat)) ∧
        (∀ a : Nat, (∀ k : Nat, (k : Int) < i * N + j → ∀ p : Nat, p < 4 →
          a ≠ (dst + 4 * k + p) % x.modulus) → e.mem a = env.mem a)) F u e
      ⟨by rw [ht, Int.add_zero], fun k h => hw k (by omega),
        fun a ha => hfr a (fun k hk p hp => ha k (by omega) p hp)⟩ ?_) ?_ (fun _ _ h => h)
    · intro j _ e1 hj0 hjN ⟨ht1, hw1, hfr1⟩
      have hT : iadd (imul j N) i = j * N + i := by
        unfold iadd imul toInt32
        rcases hN with rfl | rfl | rfl <;> omega
      have hK : iadd (imul i N) j = i * N + j := by
        unfold iadd imul toInt32
        rcases hN with rfl | rfl | rfl <;> omega
      have hK4 : imul (i * N + j) 4 = 4 * (i * N + j) := by
        unfold imul toInt32
        rcases hN with rfl | rfl | rfl <;> omega
      have hKr : 0 ≤ i * N + j ∧ i * N + j < N * N := by
        rcases hN with rfl | rfl | rfl <;> omega
      have hTr : 0 ≤ j * N + i ∧ j * N + i < N * N := by
        rcases hN with rfl | rfl | rfl <;> omega
      have haddr : taddr x dst (4 * (i * N + j)) % x.modulus
          = (dst + 4 * (i * N + j).toNat) % x.modulus := by
        rw [taddr_nonneg x dst _ (by omega), Nat.mod_mod]
        congr 2
        omega
      dsimp only
      rw [hT, hK, hK4, Res.sat_bind_iff]
      apply bufGet_sat _ _ _ _ _ ?_ (fun h => by
        have h1 := hW (j * N + i).toNat (by omega)
        have h2 := (List.getElem?_eq_some_iff.mp h1).1
        omega)
      intro v _ hv
      have hv2 := hW (j * N + i).toNat (by omega)
      rw [hv] at hv2
      have hv3 : v = W (j * N + i).toNat := by simpa using hv2
      apply cpu_stl_data_sat _ _ _ _ _ _ _ ?_ ?_
      · intro _
        rw [haddr]
        have hs : (i * N + (j + 1)).toNat = (i * N + j).toNat + 1 := by omega
        refine ⟨?_, ?_, ?_⟩
        · rw [hs, wordStores_succ, ht1, List.append_assoc]
        · intro k hk
          simp only
          by_cases hkK : k = (i * N + j).toNat
          · rw [readWord_congr x _ (dst + 4 * k) ((dst + 4 * (i * N + j).toNat) % x.modulus)
              (by rw [Nat.mod_mod, hkK]), readWord_writeWord_same, hv3]
            rw [Nat.mod_eq_of_lt (hWlt _)]
            congr 1
            rcases hN with rfl | rfl | rfl <;> simp <;> omega
          · rw [readWord_writeWord_disj]
            · exact hw1 k (by omega)
            · intro p q hp hq
              rw [Nat.add_mod, Nat.mod_mod, ← Nat.add_mod]
              have hk2 : k < (i * N + j).toNat := by omega
              have hK3 : (i * N + j).toNat < 1024 := by
                rcases hN with rfl | rfl | rfl <;> omega
              rcases modulus_cases x with hm | hm <;> rw [hm] <;> omega
        · intro a ha
          simp only
          rw [← hfr1 a (fun k hk p hp => ha k (by omega) p hp)]
          apply writeWord_other
          intro p hp
          rw [Nat.add_mod, Nat.mod_mod, ← Nat.add_mod]
          exact ha (i * N + j).toNat (by omega) p hp
      · intro _
        rw [haddr]
        exact hF e1 _ (by omega) ht1 (fun k hk => hw1 k (by omega))
          (fun a ha => hfr1 a (fun k hk p hp => ha k (by omega) p hp))
    · intro _ e1 ⟨h1, h2, h3⟩
      have hs : (i * N + (N.toNat : Int)).toNat = ((i + 1) * N).toNat := by
        rcases hN with rfl | rfl | rfl <;> omega
      refine ⟨by rw [h1, hs], fun k h => h2 k ?_, fun a ha => h3 a (fun k hk p hp => ha k ?_ p hp)⟩
      · rcases hN with rfl | rfl | rfl <;> omega
      · rcases hN with rfl | rfl | rfl <;> omega
  · intro _ e ⟨h1, _, _⟩
    rw [h1]
    congr 2
    rcases hN with rfl | rfl | rfl <;> omega

/-- The whole transpose: a run that succeeds issued the `N * N` loads and then
the `N * N` stores; a run that fails stopped at a faulting load, with memory
as before the call, or at the faulting store of a cell `c`, with the cells
before `c` transposed and every other byte as before the call. -/
theorem helper_dma_trace_sat (P : Port) (x : XLen) (env : Env) (dst src grain : Nat) :
    (helper_dma P x env dst src grain).sat
      (fun _ e => e.trace = env.trace
        ++ wordLoads x src (grainSize grain * grainSize grain).toNat
        ++ wordStores x dst (grainSize grain * grainSize grain).toNat)
      (fun s e => s = .fault ∧
        ((∃ n, n < (grainSize grain * grainSize grain).toNat ∧
            e.trace = env.trace ++ wordLoads x src n
              ++ [⟨.load, (src + 4 * n) % x.modulus, 4, true⟩] ∧
            e.mem = env.mem) ∨
         (∃ c, c < (grainSize grain * grainSize grain).toNat ∧
            e.trace = env.trace
              ++ wordLoads x src (grainSize grain * grainSize grain).toNat
              ++ wordStores x dst c ++ [⟨.store, (dst + 4 * c) % x.modulus, 4, true⟩] ∧
            (∀ k : Nat, k < c → readWord x e.mem (dst + 4 * k)
              = readWord x env.mem (src + 4 * ((k % (grainSize grain).toNat)
                  * (grainSize grain).toNat + k / (grainSize grain).toNat))) ∧
            (∀ a : Nat, (∀ k : Nat, k < c → ∀ p : Nat, p < 4 →
              a ≠ (dst + 4 * k + p) % x.modulus) → e.mem a = env.mem a)))) := by
  unfold helper_dma
  have hN := grainSize_cases grain
  have hNN : imul (grainSize grain) (grainSize grain) = grainSize grain * grainSize grain := by
    unfold imul toInt32
    rcases hN with h | h | h <;> rw [h] <;> norm_num
  dsimp only
  rw [hNN, Res.sat_bind_iff]
  refine Res.sat_mono _ _ _ _ _
    (Res.sat_and _ _ _ _ _
      (dmaRead_sat P x src (grainSize grain) _ env hN (by simp) (fun _ _ => True)
        (fun _ _ _ _ _ => trivial))
      (dmaRead_trace P x src (grainSize grain) _ env hN (by simp)
        (fun s e => s = .fault ∧ ∃ n, n < (grainSize grain * grainSize grain).toNat ∧
            e.trace = env.trace ++ wordLoads x src n
              ++ [⟨.load, (src + 4 * n) % x.modulus, 4, true⟩] ∧
            e.mem = env.mem)
        (fun e n hm hn ht => ⟨rfl, n, hn, by rw [Env.log_trace, ht], by rw [Env.log_mem, hm]⟩)))
    ?_ (fun s e h => ⟨h.2.1, Or.inl h.2.2⟩)
  intro t e ⟨⟨hm, _, hcont⟩, htr⟩
  refine Res.sat_mono _ _ _ _ _
    (dmaWrite_trace P x dst (grainSize grain) t e hN
      (fun k => readWord x env.mem (src + 4 * k)) hcont (fun k => readWord_lt x env.mem _)
      (fun s e1 => s = .fault ∧ ∃ c, c < (grainSize grain * grainSize grain).toNat ∧
            e1.trace = env.trace
              ++ wordLoads x src (grainSize grain * grainSize grain).toNat
              ++ wordStores x dst c ++ [⟨.store, (dst + 4 * c) % x.modulus, 4, true⟩] ∧
            (∀ k : Nat, k < c → readWord x e1.mem (dst + 4 * k)
              = readWord x env.mem (src + 4 * ((k % (grainSize grain).toNat)
                  * (grainSize grain).toNat + k / (grainSize grain).toNat))) ∧
            (∀ a : Nat, (∀ k : Nat, k < c → ∀ p : Nat, p < 4 →
              a ≠ (dst + 4 * k + p) % x.modulus) → e1.mem a = env.mem a))
      (fun e1 c hc ht hw hfr => ⟨rfl, c, hc, by rw [Env.log_trace, ht, htr],
        fun k hk => by rw [Env.log_mem]; exact hw k hk,
        fun a ha => by rw [Env.log_mem, hfr a ha, hm]⟩))
    ?_ (fun s e1 h => ⟨h.1, Or.inr h.2⟩)
  intro _ e1 h1
  rw [h1, htr]

theorem newAccesses_of_trace {α : Type} (env : Env) (r : Res α) (news : List Access)
    (h : r.env.trace = env.trace ++ news) : newAccesses env r = news := by
  unfold newAccesses
  rw [h, List.drop_left]

theorem grainSize_sq (grain : Nat) :
    (grainSize grain * grainSize grain).toNat
      = (grainSize grain).toNat * (grainSize grain).toNat := by
  rcases grainSize_cases grain with h | h | h <;> rw [h] <;> rfl

theorem kind_wordLoads (x : XLen) (base n : Nat) (a : Access) (ha : a ∈ wordLoads x base n) :
    a.kind = .load := by
  simp only [wordLoads, List.mem_map] at ha
  obtain ⟨k, _, rfl⟩ := ha
  rfl

/-! ## Exact access trace and frame of the packing loop -/

theorem crushAccesses_succ (x : XLen) (dst src n : Nat) :
    crushAccesses x dst src (n + 1)
      = crushAccesses x dst src n ++
        [⟨.load, (src + 2 * n) % x.modulus, 1, false⟩,
         ⟨.load, (src + 2 * n + 1) % x.modulus, 1, false⟩,
         ⟨.store, (dst + n) % x.modulus, 1, false⟩] := by
  simp [crushAccesses, List.range_succ, List.flatMap_append]

/-- Whatever the port and the overlap of source and destination:
`helper_crush` changes no byte outside the `count / 2` destination bytes, also
when it stops at a fault, and a run that succeeds issued exactly the accesses
of `count / 2` iterations. -/
theorem helper_crush_trace_sat (P : Port) (x : XLen) (env : Env) (dst src count : Nat)
    (hc : count < 2147483648) :
    (helper_crush P x env dst src count).sat
      (fun _ e => e.trace = env.trace ++ crushAccesses x dst src (count / 2) ∧
        ∀ a : Nat, (∀ k : Nat, k < count / 2 → a ≠ (dst + k) % x.modulus) →
          e.mem a = env.mem a)
      (fun s e => s = .fault ∧
        ∀ a : Nat, (∀ k : Nat, k < count / 2 → a ≠ (dst + k) % x.modulus) →
          e.mem a = env.mem a) := by
  unfold helper_crush
  have hn : toInt32 (count : Int) = (count : Int) := by unfold toInt32; omega
  dsimp only
  rw [hn, tdiv_two]
  refine Res.sat_mono _ _ _ _ _ (forLoop_sat _ _
    (fun i _ e => e.trace = env.trace ++ crushAccesses x dst src i.toNat ∧
        (∀ a : Nat, (∀ k : Nat, (k : Int) < i → a ≠ (dst + k) % x.modulus) →
          e.mem a = env.mem a))
    (fun s e => s = .fault ∧
        ∀ a : Nat, (∀ k : Nat, k < count / 2 → a ≠ (dst + k) % x.modulus) →
          e.mem a = env.mem a)
    () env ⟨by simp [crushAccesses], fun _ _ => rfl⟩ ?_) ?_ (fun _ _ h => h)
  · intro i u e hi0 hi1 ⟨ht, hfr⟩
    have h2i : imul i 2 = ((2 * i.toNat : Nat) : Int) := by
      unfold imul toInt32; push_cast; omega
    have hi2 : i.toNat < count / 2 := by omega
    have ha1 : taddr x src ((2 * i.toNat : Nat) : Int) = (src + 2 * i.toNat) % x.modulus := by
      rw [taddr_nonneg x src _ (by omega), Int.toNat_ofNat]
    have ha2 : taddr x ((src + 2 * i.toNat) % x.modulus) 1
        = (src + 2 * i.toNat + 1) % x.modulus := by
      rw [taddr_nonneg x _ _ (by omega)]
      show ((src + 2 * i.toNat) % x.modulus + 1) % x.modulus = _
      rw [Nat.add_mod, Nat.mod_mod, ← Nat.add_mod]
    have ha3 : taddr x dst i = (dst + i.toNat) % x.modulus := taddr_nonneg x dst i hi0
    have hfrn : ∀ a : Nat, (∀ k : Nat, k < count / 2 → a ≠ (dst + k) % x.modulus) →
        e.mem a = env.mem a :=
      fun a ha => hfr a (fun k hk => ha k (by omega))
    dsimp only
    rw [h2i, ha1, ha2, ha3, Res.sat_bind_iff]
    apply cpu_ldub_data_sat _ _ _ _ _ _ ?_ (fun _ => ⟨rfl, hfrn⟩)
    intro _
    rw [Res.sat_bind_iff]
    apply cpu_ldub_data_sat _ _ _ _ _ _ ?_ (fun _ => ⟨rfl, hfrn⟩)
    intro _
    rw [Res.sat_bind_iff]
    apply cpu_stb_data_sat _ _ _ _ _ _ _ ?_ (fun _ => ⟨rfl, hfrn⟩)
    intro _
    apply Res.sat_pure
    have hs : (i + 1).toNat = i.toNat + 1 := by omega
    simp only [Env.log_mem, Env.log_trace, Nat.mod_mod]
    refine ⟨?_, ?_⟩
    · rw [hs, crushAccesses_succ, ht]
      simp only [List.append_assoc, List.singleton_append, List.cons_append, List.nil_append]
    · intro a ha
      rw [writeByte_other _ _ _ _ _ (by rw [Nat.mod_mod]; exact ha i.toNat (by omega))]
      exact hfr a (fun k hk => ha k (by omega))
  · intro _ e ⟨h1, h2⟩
    refine ⟨by rw [h1, Int.toNat_ofNat, Int.toNat_ofNat],
      fun a ha => h2 a (fun k hk => ha k (by omega))⟩

/-- An odd count runs the same loop as the count below it. -/
theorem helper_crush_odd (P : Port) (x : XLen) (env : Env) (dst src count : Nat)
    (hc : count < 2147483648) (hodd : count % 2 = 1) :
    helper_crush P x env dst src count = helper_crush P x env dst src (count - 1) := by
  unfold helper_crush
  have hn : toInt32 (count : Int) = (count : Int) := by unfold toInt32; omega
  have hn1 : toInt32 ((count - 1 : Nat) : Int) = ((count - 1 : Nat) : Int) := by
    unfold toInt32; omega
  have hd : count / 2 = (count - 1) / 2 := by omega
  dsimp only
  rw [hn, hn1, tdiv_two, tdiv_two, hd]

theorem mem_crushAccesses (x : XLen) (dst src n : Nat) (acc : Access) :
    acc ∈ crushAccesses x dst src n ↔
      (∃ k, k < 2 * n ∧ acc = ⟨.load, (src + k) % x.modulus, 1, false⟩) ∨
      (∃ i, i < n ∧ acc = ⟨.store, (dst + i) % x.modulus, 1, false⟩) := by
  unfold crushAccesses
  rw [List.mem_flatMap]
  constructor
  · rintro ⟨i, hi, h⟩
    have hi2 : i < n := List.mem_range.mp hi
    simp only [List.mem_cons, List.mem_singleton, List.not_mem_nil, or_false] at h
    rcases h with h | h | h
    · exact Or.inl ⟨2 * i, by omega, h⟩
    · exact Or.inl ⟨2 * i + 1, by omega, h⟩
    · exact Or.inr ⟨i, hi2, h⟩
  · rintro (⟨k, hk, h⟩ | ⟨i, hi, h⟩)
    · refine ⟨k / 2, List.mem_range.mpr (by omega), ?_⟩
      simp only [List.mem_cons, List.mem_singleton, List.not_mem_nil, or_false]
      rcases Nat.mod_two_eq_zero_or_one k with h0 | h1
      · left
        have e : src + k = src + 2 * (k / 2) := by omega
        rw [h, e]
      · right; left
        have e : src + k = src + 2 * (k / 2) + 1 := by omega
        rw [h, e]
    · refine ⟨i, List.mem_range.mpr hi, ?_⟩
      simp only [List.mem_cons, List.mem_singleton, List.not_mem_nil, or_false]
      right; right
      exact h

/-! ## Exact access trace of the sort, and the bounds of its buffer indices -/

theorem sortLoads_succ (x : XLen) (addr n : Nat) :
    sortLoads x addr (n + 1) = sortLoads x addr n ++ [⟨.load, sortAddr x addr n, 4, false⟩] := by
  simp [sortLoads, List.range_succ]

theorem sortStores_succ (x : XLen) (addr n : Nat) :
    sortStores x addr (n + 1)
      = sortStores x addr n ++ [⟨.store, sortAddr x addr n, 4, false⟩] := by
  simp [sortStores, List.range_succ]

theorem sortLoads_small (x : XLen) (addr n : Nat) (hn : n ≤ 536870912) :
    sortLoads x addr n = wordLoads x addr n := by
  unfold sortLoads wordLoads
  apply List.map_congr_left
  intro i hi
  rw [sortAddr_small x addr i (by have := List.mem_range.mp hi; omega)]

theorem sortStores_small (x : XLen) (addr n : Nat) (hn : n ≤ 536870912) :
    sortStores x addr n = wordStores x addr n := by
  unfold sortStores wordStores
  apply List.map_congr_left
  intro i hi
  rw [sortAddr_small x addr i (by have := List.mem_range.mp hi; omega)]

theorem sortAddr_logged (x : XLen) (addr : Nat) (i : Int) (hi : 0 ≤ i) :
    taddr x addr (imul i 4) % x.modulus = sortAddr x addr i.toNat := by
  unfold sortAddr
  rw [Int.toNat_of_nonneg hi, Nat.mod_eq_of_lt (taddr_lt _ _ _)]

/-- The read loop issues the loads of the `L` elements in increasing order; it
can fail only by a fault, and every buffer index it uses is within the
buffer. -/
theorem sortRead_trace (P : Port) (x : XLen) (addr : Nat) (L : Int) (arr : List Nat)
    (env : Env) (hlen : arr.length = L.toNat) :
    (sortRead P x addr L arr env).sat
      (fun t e => t.length = L.toNat ∧ e.trace = env.trace ++ sortLoads x addr L.toNat)
      (fun s _ => s = .fault) := by
  unfold sortRead
  refine Res.sat_mono _ _ _ _ _ (forLoop_sat _ _
    (fun i t e => t.length = L.toNat ∧ e.trace = env.trace ++ sortLoads x addr i.toNat)
    (fun s _ => s = .fault) arr env ⟨hlen, by simp [sortLoads]⟩ ?_) ?_ (fun _ _ h => h)
  · intro i t e hi0 hi1 ⟨hl, ht⟩
    dsimp only
    rw [Res.sat_bind_iff]
    apply cpu_ldl_data_sat _ _ _ _ _ _ ?_ (fun _ => rfl)
    intro _
    apply bufSet_sat _ _ _ _ _ _ ?_ (fun h => absurd h (by omega))
    intro _ _
    have hs : (i + 1).toNat = i.toNat + 1 := by omega
    refine ⟨by simpa using hl, ?_⟩
    rw [hs, sortLoads_succ, Env.log_trace, ht, sortAddr_logged x addr i hi0, List.append_assoc]
  · intro t e ⟨h1, h2⟩
    refine ⟨h1, ?_⟩
    rw [h2, Int.toNat_ofNat]

/-- The write-back loop issues the stores of the `L` elements in increasing
order; it can fail only by a fault, and every buffer index it uses is within
the buffer. -/
theorem sortWrite_trace (P : Port) (x : XLen) (addr : Nat) (L : Int) (arr : List Nat)
    (env : Env) (hlen : arr.length = L.toNat) :
    (sortWrite P x addr L arr env).sat
      (fun _ e => e.trace = env.trace ++ sortStores x addr L.toNat)
      (fun s _ => s = .fault) := by
  unfold sortWrite
  refine Res.sat_mono _ _ _ _ _ (forLoop_sat _ _
    (fun i _ e => e.trace = env.trace ++ sortStores x addr i.toNat)
    (fun s _ => s = .fault) () env (by simp [sortStores]) ?_) ?_ (fun _ _ h => h)
  · intro i u e hi0 hi1 ht
    dsimp only
    rw [Res.sat_bind_iff]
    apply bufGet_sat _ _ _ _ _ ?_ (fun h => absurd h (by omega))
    intro v _ _
    rw [Res.sat_bind_iff]
    apply cpu_stl_data_sat _ _ _ _ _ _ _ ?_ (fun _ => rfl)
    intro _
    apply Res.sat_pure
    have hs : (i + 1).toNat = i.toNat + 1 := by omega
    show e.trace ++ _ = _
    rw [hs, sortStores_succ, ht, sortAddr_logged x addr i hi0, List.append_assoc]
  · intro _ e h
    rw [h, Int.toNat_ofNat]

/-- For an array length that is not negative as an `int` and a sort length
other than `INT_MIN` as an `int`, `helper_sort` can fail only by a fault (no
buffer index leaves the buffer), and a run that succeeds issued the loads of
all elements and then the stores of all elements. -/
theorem helper_sort_trace_sat (P : Port) (x : XLen) (env : Env) (addr array_num sort_num : Nat)
    (L S : Int) (hL : toInt32 array_num = L) (hS : toInt32 sort_num = S)
    (hL0 : 0 ≤ L) (hS0 : -2147483648 < S) :
    (helper_sort P x env addr array_num sort_num).sat
      (fun _ e => e.trace = env.trace ++ sortLoads x addr L.toNat
        ++ sortStores x addr L.toNat)
      (fun s _ => s = .fault) := by
  unfold helper_sort
  have hLr : L < 2147483648 := by rw [← hL]; unfold toInt32; omega
  dsimp only
  rw [hL, hS]
  unfold g_malloc_words
  rw [if_neg (by omega)]
  show ((sortRead P x addr L (List.replicate L.toNat 0) env).bind _).sat _ _
  rw [Res.sat_bind_iff]
  refine Res.sat_mono _ _ _ _ _ (sortRead_trace P x addr L _ env (by simp)) ?_
    (fun _ _ h => h)
  intro t e ⟨hl, ht⟩
  rw [Res.sat_bind_iff]
  have hmin : -2147483648 < (if S > L then L else S) ∧ (if S > L then L else S) ≤ L := by
    split_ifs <;> omega
  refine Res.sat_mono _ _ _ _ _
    (sortBubble_sat (if S > L then L else S) t e (fun s _ => s = .fault)
      hmin.1 (by omega) (by omega)) ?_ (fun _ _ h => h)
  intro t1 e1 ⟨he1, hl1, _⟩
  refine Res.sat_mono _ _ _ _ _ (sortWrite_trace P x addr L t1 e1 (by omega)) ?_
    (fun _ _ h => h)
  intro _ e2 h2
  rw [h2, he1, ht]

/-- Below `2 ^ 29` elements and for a sort length other than `INT_MIN` as an
`int`, a run of `helper_sort` that does not fault succeeds and issues exactly
the `L` word loads at `addr + 4 * i` in increasing order followed by the `L`
word stores at `addr + 4 * i` in increasing order, whatever the sort length. -/
theorem helper_sort_access_trace (P : Port) (x : XLen) (env : Env) (addr L S : Nat)
    (hL : L < 536870912) (hS : toInt32 S ≠ -2147483648)
    (hok : (helper_sort P x env addr L S).status ≠ .fault) :
    (helper_sort P x env addr L S).status = .ok ∧
    newAccesses env (helper_sort P x env addr L S)
      = wordLoads x addr L ++ wordStores x addr L := by
  have hSr : -2147483648 ≤ toInt32 S := by unfold toInt32; omega
  have h := helper_sort_trace_sat P x env addr L S (L : Int) (toInt32 S)
    (by unfold toInt32; omega) rfl (by omega) (by omega)
  have hs : (helper_sort P x env addr L S).status = .ok := by
    by_contra hne
    exact hok (Res.sat_failed _ _ _ h hne)
  obtain ⟨_, _, ht⟩ := Res.sat_ok _ _ _ h hs
  rw [Int.toNat_ofNat, List.append_assoc, sortLoads_small x addr L (by omega),
    sortStores_small x addr L (by omega)] at ht
  exact ⟨hs, newAccesses_of_trace env _ _ ht⟩

/-- For an array length that is not negative as an `int` and a sort length
other than `INT_MIN` as an `int`, no buffer index of `helper_sort` leaves the
buffer: the run does not end in a host-level failure. -/
theorem helper_sort_in_bounds (P : Port) (x : XLen) (env : Env) (addr L S : Nat)
    (hL : 0 ≤ toInt32 L) (hS : toInt32 S ≠ -2147483648) :
    (helper_sort P x env addr L S).status ≠ .abort := by
  have hSr : -2147483648 ≤ toInt32 S := by unfold toInt32; omega
  have h := helper_sort_trace_sat P x env addr L S (toInt32 L) (toInt32 S) rfl rfl hL
    (by omega)
  intro habort
  have := Res.sat_failed _ _ _ h (by rw [habort]; exact fun h => Status.noConfusion h)
  rw [habort] at this
  exact Status.noConfusion this

/-- No buffer index of `helper_dma` leaves the `N * N` buffer: the run does
not end in a host-level failure. -/
theorem helper_dma_in_bounds (P : Port) (x : XLen) (env : Env) (dst src grain : Nat) :
    (helper_dma P x env dst src grain).status ≠ .abort := by
  have h := helper_dma_trace_sat P x env dst src grain
  intro habort
  have := (Res.sat_failed _ _ _ h (by rw [habort]; exact fun h => Status.noConfusion h)).1
  rw [habort] at this
  exact Status.noConfusion this

/-! ## Claims -/

/-- C1. `helper_dma` transposes: whatever the memory, the addresses `src` and
`dst` (disjoint, overlapping or equal) and the grain code, after a run without
a fault the 32-bit word at `dst + (i * N + j) * 4` is the word that was at
`src + (j * N + i) * 4` before the call, for all `i, j < N`, where `N` is the
dimension the grain code resolves to. -/
theorem helper_dma_transposes (P : Port) (x : XLen) (env : Env) (dst src grain : Nat)
    (hok : (helper_dma P x env dst src grain).status ≠ .fault) (i j : Nat)
    (hi : (i : Int) < grainSize grain) (hj : (j : Int) < grainSize grain) :
    readWord x (helper_dma P x env dst src grain).env.mem
        (dst + (i * (grainSize grain).toNat + j) * 4)
      = readWord x env.mem (src + (j * (grainSize grain).toNat + i) * 4) := by
  have h := (Res.post_of_not_fault _ _
    (helper_dma_sat P x env dst src grain _ (faultsInto_fault P)) hok).2.1 i j hi hj
  rw [Nat.mul_comm _ 4, Nat.mul_comm _ 4]
  exact h

/-- Witness for C1: an 8 x 8 transpose onto a destination that overlaps the
source (shifted by one word). -/
theorem helper_dma_transposes_witness :
    (helper_dma noFault .rv64 ⟨memOfWords 0 (List.range 64), []⟩ 4 0 0).status ≠ .fault ∧
    ((1 : Nat) : Int) < grainSize 0 ∧ ((2 : Nat) : Int) < grainSize 0 ∧
    readWord .rv64 (helper_dma noFault .rv64 ⟨memOfWords 0 (List.range 64), []⟩ 4 0 0).env.mem
        (4 + (1 * (grainSize 0).toNat + 2) * 4)
      = readWord .rv64 (memOfWords 0 (List.range 64)) (0 + (2 * (grainSize 0).toNat + 1) * 4) :=
  ⟨by decide, by decide, by decide,
    helper_dma_transposes noFault .rv64 ⟨memOfWords 0 (List.range 64), []⟩ 4 0 0
      (by decide) 1 2 (by decide) (by decide)⟩

/-- C2 (amended). `helper_sort` postcondition for an array of `L ≤ 2 ^ 29`
words and a sort length `S < 2 ^ 31`: after a run without a fault, with
`m = min S L`, (a) the words at indices `[0, m)` are in ascending unsigned
order, (b) they are a permutation of the words at those indices before the
call, and (c) every word at an index in `[m, L)` has its value from before
the call. -/
theorem helper_sort_sorts (P : Port) (x : XLen) (env : Env) (addr L S : Nat)
    (hL : L ≤ 536870912) (hS : S < 2147483648)
    (hok : (helper_sort P x env addr L S).status ≠ .fault) :
    (readWords x (helper_sort P x env addr L S).env.mem addr (min S L)).Sorted
        (fun a b => a ≤ b) ∧
    (readWords x (helper_sort P x env addr L S).env.mem addr (min S L)).Perm
        (readWords x env.mem addr (min S L)) ∧
    (∀ i, min S L ≤ i → i < L →
      readWord x (helper_sort P x env addr L S).env.mem (addr + 4 * i)
        = readWord x env.mem (addr + 4 * i)) := by
  have key := Res.post_of_not_fault (helper_sort P x env addr L S) _
    (helper_sort_post P x env addr L S hL hS (fun s _ => s = .fault) (faultsInto_fault P)) hok
  exact ⟨key.2.1, key.2.2.1, key.2.2.2.1⟩

/-- Witness for C2: the array `[5, 3, 1, 4, 2]` with `L = 5`, `S = 3` becomes
`[1, 3, 5, 4, 2]`. -/
theorem helper_sort_sorts_witness :
    (5 ≤ 536870912 ∧ 3 < 2147483648 ∧
      (helper_sort noFault .rv64 ⟨memOfWords 4096 [5, 3, 1, 4, 2], []⟩ 4096 5 3).status
        ≠ .fault) ∧
    readWords .rv64
      (helper_sort noFault .rv64 ⟨memOfWords 4096 [5, 3, 1, 4, 2], []⟩ 4096 5 3).env.mem
      4096 5 = [1, 3, 5, 4, 2] ∧
    ((readWords .rv64
      (helper_sort noFault .rv64 ⟨memOfWords 4096 [5, 3, 1, 4, 2], []⟩ 4096 5 3).env.mem
      4096 (min 3 5)).Sorted (fun a b => a ≤ b) ∧
    (readWords .rv64
      (helper_sort noFault .rv64 ⟨memOfWords 4096 [5, 3, 1, 4, 2], []⟩ 4096 5 3).env.mem
      4096 (min 3 5)).Perm (readWords .rv64 (memOfWords 4096 [5, 3, 1, 4, 2]) 4096 (min 3 5)) ∧
    (∀ i, min 3 5 ≤ i → i < 5 →
      readWord .rv64
        (helper_sort noFault .rv64 ⟨memOfWords 4096 [5, 3, 1, 4, 2], []⟩ 4096 5 3).env.mem
        (4096 + 4 * i)
        = readWord .rv64 (memOfWords 4096 [5, 3, 1, 4, 2]) (4096 + 4 * i))) :=
  ⟨⟨by decide, by decide, by decide⟩, by decide,
    helper_sort_sorts noFault .rv64 ⟨memOfWords 4096 [5, 3, 1, 4, 2], []⟩ 4096 5 3
      (by decide) (by decide) (by decide)⟩

/-- Counterexample to C2 as stated (every array length below `2 ^ 31`): on a
64-bit target, a fault-free `helper_sort` of `L = S = 2 ^ 29 + 1` words at
address `2 ^ 31` leaves the word of index `2 ^ 29` smaller than the word of
index `2 ^ 29 - 1`, so the words at indices `[0, min S L)` are not ascending. -/
theorem helper_sort_large_not_sorted :
    (helper_sort noFault .rv64 ⟨gapMem, []⟩ 2147483648 536870913 536870913).status = .ok ∧
    readWord .rv64
        (helper_sort noFault .rv64 ⟨gapMem, []⟩ 2147483648 536870913 536870913).env.mem
        (2147483648 + 4 * 536870912)
      < readWord .rv64
        (helper_sort noFault .rv64 ⟨gapMem, []⟩ 2147483648 536870913 536870913).env.mem
        (2147483648 + 4 * 536870911) :=
  helper_sort_rv64_large 536870913 (by omega) (by omega)

/-- C3. `helper_crush` packs nibbles: for every memory and every count below
`2 ^ 31`, when the source range `[src, src + count)` and the destination range
`[dst, dst + count / 2)` are disjoint, after a run without a fault the byte at
`dst + i` is `((b[2i+1] & 0x0F) << 4) | (b[2i] & 0x0F)` for every
`i < count / 2`, where `b[k]` is the byte at `src + k` before the call. -/
theorem helper_crush_packs (P : Port) (x : XLen) (env : Env) (dst src count : Nat)
    (hc : count < 2147483648)
    (hdisj : ∀ k : Nat, k < count → ∀ i : Nat, i < count / 2 →
      (src + k) % x.modulus ≠ (dst + i) % x.modulus)
    (hok : (helper_crush P x env dst src count).status ≠ .fault)
    (i : Nat) (hi : i < count / 2) :
    readByte x (helper_crush P x env dst src count).env.mem (dst + i)
      = ((readByte x env.mem (src + 2 * i + 1) &&& 0x0F) <<< 4)
          ||| (readByte x env.mem (src + 2 * i) &&& 0x0F) :=
  (Res.post_of_not_fault (helper_crush P x env dst src count) _
    (helper_crush_sat P x env dst src count hc
      (fun i k hk hi => ⟨Ne.symm (hdisj (2 * i) (by omega) k (by omega)),
        Ne.symm (hdisj (2 * i + 1) (by omega) k (by omega))⟩)
      (fun s _ => s = .fault) (faultsInto_fault P)) hok).2.1 i hi

/-- Witness for C3: `count = 5`, source bytes `[0x1, 0x2, 0x3, 0x4, 0x9]` give
the output `[0x21, 0x43]`. -/
theorem helper_crush_packs_witness :
    ((5 : Nat) < 2147483648 ∧
      (∀ k : Nat, k < 5 → ∀ i : Nat, i < 5 / 2 →
        (256 + k) % XLen.modulus .rv32 ≠ (512 + i) % XLen.modulus .rv32) ∧
      (helper_crush noFault .rv32 ⟨memOfBytes 256 [1, 2, 3, 4, 9], []⟩ 512 256 5).status
        ≠ .fault ∧ 1 < 5 / 2) ∧
    readBytes .rv32
      (helper_crush noFault .rv32 ⟨memOfBytes 256 [1, 2, 3, 4, 9], []⟩ 512 256 5).env.mem
      512 2 = [0x21, 0x43] ∧
    readByte .rv32
      (helper_crush noFault .rv32 ⟨memOfBytes 256 [1, 2, 3, 4, 9], []⟩ 512 256 5).env.mem
      (512 + 1)
      = ((readByte .rv32 (memOfBytes 256 [1, 2, 3, 4, 9]) (256 + 2 * 1 + 1) &&& 0x0F) <<< 4)
          ||| (readByte .rv32 (memOfBytes 256 [1, 2, 3, 4, 9]) (256 + 2 * 1) &&& 0x0F) :=
  ⟨⟨by decide, by decide, by decide, by decide⟩, by decide,
    helper_crush_packs noFault .rv32 ⟨memOfBytes 256 [1, 2, 3, 4, 9], []⟩ 512 256 5
      (by decide) (by decide) (by decide) 1 (by decide)⟩

/-- C4. `helper_expand` unpacks nibbles: for every memory and every count below
`2 ^ 30`, when the source range `[src, src + count)` and the destination range
`[dst, dst + 2 * count)` are disjoint, after a run without a fault the byte at
`dst + 2i` is `v[i] & 0x0F` and the byte at `dst + 2i + 1` is
`(v[i] >> 4) & 0x0F` for every `i < count`, where `v[i]` is the byte at
`src + i` before the call. -/
theorem helper_expand_unpacks (P : Port) (x : XLen) (env : Env) (dst src count : Nat)
    (hc : count < 1073741824)
    (hdisj : ∀ k : Nat, k < count → ∀ j : Nat, j < 2 * count →
      (src + k) % x.modulus ≠ (dst + j) % x.modulus)
    (hok : (helper_expand P x env dst src count).status ≠ .fault)
    (i : Nat) (hi : i < count) :
    readByte x (helper_expand P x env dst src count).env.mem (dst + 2 * i)
      = readByte x env.mem (src + i) &&& 0x0F ∧
    readByte x (helper_expand P x env dst src count).env.mem (dst + 2 * i + 1)
      = (readByte x env.mem (src + i) >>> 4) &&& 0x0F :=
  (Res.post_of_not_fault (helper_expand P x env dst src count) _
    (helper_expand_sat P x env dst src count hc
      (fun i k hk hi => ⟨Ne.symm (hdisj i hi (2 * k) (by omega)),
        Ne.symm (hdisj i hi (2 * k + 1) (by omega))⟩)
      (fun s _ => s = .fault) (faultsInto_fault P)) hok).2.1 i hi

/-- Witness for C4: `count = 2`, source bytes `[0x21, 0x43]` give the output
`[0x1, 0x2, 0x3, 0x4]`. -/
theorem helper_expand_unpacks_witness :
    ((2 : Nat) < 1073741824 ∧
      (∀ k : Nat, k < 2 → ∀ j : Nat, j < 2 * 2 →
        (256 + k) % XLen.modulus .rv32 ≠ (512 + j) % XLen.modulus .rv32) ∧
      (helper_expand noFault .rv32 ⟨memOfBytes 256 [0x21, 0x43], []⟩ 512 256 2).status
        ≠ .fault ∧ 1 < 2) ∧
    readBytes .rv32
      (helper_expand noFault .rv32 ⟨memOfBytes 256 [0x21, 0x43], []⟩ 512 256 2).env.mem
      512 4 = [0x1, 0x2, 0x3, 0x4] ∧
    (readByte .rv32
      (helper_expand noFault .rv32 ⟨memOfBytes 256 [0x21, 0x43], []⟩ 512 256 2).env.mem
      (512 + 2 * 1) = readByte .rv32 (memOfBytes 256 [0x21, 0x43]) (256 + 1) &&& 0x0F ∧
    readByte .rv32
      (helper_expand noFault .rv32 ⟨memOfBytes 256 [0x21, 0x43], []⟩ 512 256 2).env.mem
      (512 + 2 * 1 + 1)
      = (readByte .rv32 (memOfBytes 256 [0x21, 0x43]) (256 + 1) >>> 4) &&& 0x0F) :=
  ⟨⟨by decide, by decide, by decide, by decide⟩, by decide,
    helper_expand_unpacks noFault .rv32 ⟨memOfBytes 256 [0x21, 0x43], []⟩ 512 256 2
      (by decide) (by decide) (by decide) 1 (by decide)⟩

/-- C5. CRUSH-then-EXPAND round trip: for every even `n < 2 ^ 30` and every
sequence `x` of `n` bytes at a region `A`, with regions `B` (`n / 2` bytes) and
`C` (`n` bytes) such that `B` is disjoint from `A` and from `C`, running
`helper_crush(B, A, n)` and then `helper_expand(C, B, n / 2)` without a fault
leaves the byte at `C + k` equal to `x[k] & 0x0F` for every `k < n`; if every
`x[k] ≤ 0x0F` then region `C` reproduces `x` exactly. -/
theorem crush_expand_roundtrip (P : Port) (x : XLen) (env : Env) (A B C n : Nat)
    (hn : n < 1073741824) (heven : n % 2 = 0)
    (hAB : ∀ k : Nat, k < n → ∀ i : Nat, i < n / 2 →
      (A + k) % x.modulus ≠ (B + i) % x.modulus)
    (hBC : ∀ i : Nat, i < n / 2 → ∀ j : Nat, j < n →
      (B + i) % x.modulus ≠ (C + j) % x.modulus)
    (h1 : (helper_crush P x env B A n).status ≠ .fault)
    (h2 : (helper_expand P x (helper_crush P x env B A n).env C B (n / 2)).status ≠ .fault) :
    (∀ k : Nat, k < n →
      readByte x (helper_expand P x (helper_crush P x env B A n).env C B (n / 2)).env.mem
        (C + k) = readByte x env.mem (A + k) &&& 0x0F) ∧
    ((∀ k : Nat, k < n → readByte x env.mem (A + k) ≤ 0x0F) → ∀ k : Nat, k < n →
      readByte x (helper_expand P x (helper_crush P x env B A n).env C B (n / 2)).env.mem
        (C + k) = readByte x env.mem (A + k)) := by
  refine ⟨fun k hk => crush_then_expand P x env A B C n hn heven hAB hBC h1 h2 k hk, ?_⟩
  intro hsmall k hk
  rw [crush_then_expand P x env A B C n hn heven hAB hBC h1 h2 k hk, land_15]
  have := hsmall k hk
  omega

/-- Witness for C5: the four nibble-sized bytes `[1, 2, 3, 4]` at `A = 256`,
crushed into `B = 512` and expanded into `C = 768`. -/
theorem crush_expand_roundtrip_witness :
    ((4 : Nat) < 1073741824 ∧ 4 % 2 = 0 ∧
      (∀ k : Nat, k < 4 → ∀ i : Nat, i < 4 / 2 →
        (256 + k) % XLen.modulus .rv64 ≠ (512 + i) % XLen.modulus .rv64) ∧
      (∀ i : Nat, i < 4 / 2 → ∀ j : Nat, j < 4 →
        (512 + i) % XLen.modulus .rv64 ≠ (768 + j) % XLen.modulus .rv64) ∧
      (helper_crush noFault .rv64 ⟨memOfBytes 256 [1, 2, 3, 4], []⟩ 512 256 4).status
        ≠ .fault ∧
      (helper_expand noFault .rv64
        (helper_crush noFault .rv64 ⟨memOfBytes 256 [1, 2, 3, 4], []⟩ 512 256 4).env
        768 512 (4 / 2)).status ≠ .fault) ∧
    ((∀ k : Nat, k < 4 →
      readByte .rv64 (helper_expand noFault .rv64
        (helper_crush noFault .rv64 ⟨memOfBytes 256 [1, 2, 3, 4], []⟩ 512 256 4).env
        768 512 (4 / 2)).env.mem (768 + k)
        = readByte .rv64 (memOfBytes 256 [1, 2, 3, 4]) (256 + k) &&& 0x0F) ∧
    ((∀ k : Nat, k < 4 → readByte .rv64 (memOfBytes 256 [1, 2, 3, 4]) (256 + k) ≤ 0x0F) →
      ∀ k : Nat, k < 4 →
      readByte .rv64 (helper_expand noFault .rv64
        (helper_crush noFault .rv64 ⟨memOfBytes 256 [1, 2, 3, 4], []⟩ 512 256 4).env
        768 512 (4 / 2)).env.mem (768 + k)
        = readByte .rv64 (memOfBytes 256 [1, 2, 3, 4]) (256 + k))) :=
  ⟨⟨by decide, by decide, by decide, by decide, by decide, by decide⟩,
    crush_expand_roundtrip noFault .rv64 ⟨memOfBytes 256 [1, 2, 3, 4], []⟩ 256 512 768 4
      (by decide) (by decide) (by decide) (by decide) (by decide) (by decide)⟩

/-- C6. Double transpose restores the original: running `helper_dma(B, A, g)`
and then `helper_dma(A, B, g)` leaves each of the `N * N` words of the matrix
at `A` equal to its value before the first call, for all addresses `A`, `B`
and every grain code, when neither run faults. -/
theorem helper_dma_twice_restores (P : Port) (x : XLen) (env : Env) (A B grain : Nat)
    (h1 : (helper_dma P x env B A grain).status ≠ .fault)
    (h2 : (helper_dma P x (helper_dma P x env B A grain).env A B grain).status ≠ .fault)
    (k : Nat) (hk : (k : Int) < grainSize grain * grainSize grain) :
    readWord x (helper_dma P x (helper_dma P x env B A grain).env A B grain).env.mem
        (A + 4 * k)
      = readWord x env.mem (A + 4 * k) := by
  have e1 := (Res.post_of_not_fault _ _
    (helper_dma_sat P x env B A grain _ (faultsInto_fault P)) h1).2.1
  have e2 := (Res.post_of_not_fault _ _
    (helper_dma_sat P x (helper_dma P x env B A grain).env A B grain _
      (faultsInto_fault P)) h2).2.1
  have hN := grainSize_cases grain
  have hi : ((k / (grainSize grain).toNat : Nat) : Int) < grainSize grain := by
    rcases hN with h | h | h <;> rw [h] at hk ⊢ <;> simp <;> omega
  have hj : ((k % (grainSize grain).toNat : Nat) : Int) < grainSize grain := by
    rcases hN with h | h | h <;> rw [h] at hk ⊢ <;> simp <;> omega
  have hk2 : k / (grainSize grain).toNat * (grainSize grain).toNat
      + k % (grainSize grain).toNat = k := Nat.div_add_mod' k _
  have := e2 _ _ hi hj
  rw [hk2] at this
  rw [this, e1 _ _ hj hi, hk2]

/-- Witness for C6: an 8 x 8 matrix at address 0 transposed to address 4096
and back. -/
theorem helper_dma_twice_restores_witness :
    (helper_dma noFault .rv32 ⟨memOfWords 0 (List.range 64), []⟩ 4096 0 0).status ≠ .fault ∧
    (helper_dma noFault .rv32
      (helper_dma noFault .rv32 ⟨memOfWords 0 (List.range 64), []⟩ 4096 0 0).env
      0 4096 0).status ≠ .fault ∧
    ((10 : Nat) : Int) < grainSize 0 * grainSize 0 ∧
    readWord .rv32 (helper_dma noFault .rv32
      (helper_dma noFault .rv32 ⟨memOfWords 0 (List.range 64), []⟩ 4096 0 0).env
      0 4096 0).env.mem (0 + 4 * 10)
      = readWord .rv32 (memOfWords 0 (List.range 64)) (0 + 4 * 10) :=
  ⟨by decide, by decide, by decide,
    helper_dma_twice_restores noFault .rv32 ⟨memOfWords 0 (List.range 64), []⟩ 0 4096 0
      (by decide) (by decide) 10 (by decide)⟩

/-- C7. Grain resolution in `helper_dma`: grain code 0 resolves to dimension 8,
1 to 16, 2 to 32, 3 to 8, and every other value of the operand to 8; the
dimension is always one of 8, 16, 32, and the operand reaches the transpose
only through this table (any operand outside 1, 2 behaves as operand 0). -/
theorem grainSize_resolution :
    grainSize 0 = 8 ∧ grainSize 1 = 16 ∧ grainSize 2 = 32 ∧ grainSize 3 = 8 ∧
    (∀ g : Nat, 3 ≤ g → grainSize g = 8) ∧
    (∀ g : Nat, grainSize g = 8 ∨ grainSize g = 16 ∨ grainSize g = 32) ∧
    (∀ (P : Port) (x : XLen) (env : Env) (dst src g : Nat), 3 ≤ g →
      helper_dma P x env dst src g = helper_dma P x env dst src 0) := by
  have h3 : ∀ g : Nat, 3 ≤ g → grainSize g = 8 := by
    intro g hg
    unfold grainSize
    rw [if_neg (by omega), if_neg (by omega), if_neg (by omega)]
  refine ⟨rfl, rfl, rfl, rfl, h3, grainSize_cases, ?_⟩
  intro P x env dst src g hg
  unfold helper_dma
  rw [h3 g hg]
  rfl

/-- C8. Fault propagation: for each of `helper_dma`, `helper_sort`,
`helper_crush` and `helper_expand`, for all operands, every port and every
`k`, if the `k`-th memory access of the invocation is the first one to fault
then the helper ends with that fault and its access trace holds exactly `k`
accesses: no load or store is issued after the faulting one. -/
theorem fault_propagation (P : Port) (x : XLen) (env : Env) (a b c k : Nat) :
    (firstFault (newAccesses env (helper_dma P x env a b c)) = some k →
      (helper_dma P x env a b c).status = .fault ∧
      (newAccesses env (helper_dma P x env a b c)).length = k) ∧
    (firstFault (newAccesses env (helper_sort P x env a b c)) = some k →
      (helper_sort P x env a b c).status = .fault ∧
      (newAccesses env (helper_sort P x env a b c)).length = k) ∧
    (firstFault (newAccesses env (helper_crush P x env a b c)) = some k →
      (helper_crush P x env a b c).status = .fault ∧
      (newAccesses env (helper_crush P x env a b c)).length = k) ∧
    (firstFault (newAccesses env (helper_expand P x env a b c)) = some k →
      (helper_expand P x env a b c).status = .fault ∧
      (newAccesses env (helper_expand P x env a b c)).length = k) :=
  ⟨propagated_first _ _ k (tracks_propagated _ (tracks_helper_dma P x a b c) env),
    propagated_first _ _ k (tracks_propagated _ (tracks_helper_sort P x a b c) env),
    propagated_first _ _ k (tracks_propagated _ (tracks_helper_crush P x a b c) env),
    propagated_first _ _ k (tracks_propagated _ (tracks_helper_expand P x a b c) env)⟩

/-- Witness for C8: with a port that faults on the fifth access, each helper
meets the premise with `k = 5`, so it ends with the fault after exactly five
accesses. -/
theorem fault_propagation_witness :
    (firstFault (newAccesses ⟨memOfBytes 0 [], []⟩
        (helper_dma (faultAfter 4) .rv64 ⟨memOfBytes 0 [], []⟩ 4096 0 0)) = some 5 ∧
      firstFault (newAccesses ⟨memOfBytes 0 [], []⟩
        (helper_sort (faultAfter 4) .rv64 ⟨memOfBytes 0 [], []⟩ 4096 8 8)) = some 5 ∧
      firstFault (newAccesses ⟨memOfBytes 0 [], []⟩
        (helper_crush (faultAfter 4) .rv64 ⟨memOfBytes 0 [], []⟩ 4096 0 8)) = some 5 ∧
      firstFault (newAccesses ⟨memOfBytes 0 [], []⟩
        (helper_expand (faultAfter 4) .rv64 ⟨memOfBytes 0 [], []⟩ 4096 0 8)) = some 5) ∧
    ((helper_dma (faultAfter 4) .rv64 ⟨memOfBytes 0 [], []⟩ 4096 0 0).status = .fault ∧
      (newAccesses ⟨memOfBytes 0 [], []⟩
        (helper_dma (faultAfter 4) .rv64 ⟨memOfBytes 0 [], []⟩ 4096 0 0)).length = 5) ∧
    ((helper_sort (faultAfter 4) .rv64 ⟨memOfBytes 0 [], []⟩ 4096 8 8).status = .fault ∧
      (newAccesses ⟨memOfBytes 0 [], []⟩
        (helper_sort (faultAfter 4) .rv64 ⟨memOfBytes 0 [], []⟩ 4096 8 8)).length = 5) ∧
    ((helper_crush (faultAfter 4) .rv64 ⟨memOfBytes 0 [], []⟩ 4096 0 8).status = .fault ∧
      (newAccesses ⟨memOfBytes 0 [], []⟩
        (helper_crush (faultAfter 4) .rv64 ⟨memOfBytes 0 [], []⟩ 4096 0 8)).length = 5) ∧
    ((helper_expand (faultAfter 4) .rv64 ⟨memOfBytes 0 [], []⟩ 4096 0 8).status = .fault ∧
      (newAccesses ⟨memOfBytes 0 [], []⟩
        (helper_expand (faultAfter 4) .rv64 ⟨memOfBytes 0 [], []⟩ 4096 0 8)).length = 5) :=
  ⟨⟨by decide, by decide, by decide, by decide⟩,
    (fault_propagation (faultAfter 4) .rv64 ⟨memOfBytes 0 [], []⟩ 4096 0 0 5).1 (by decide),
    (fault_propagation (faultAfter 4) .rv64 ⟨memOfBytes 0 [], []⟩ 4096 8 8 5).2.1 (by decide),
    (fault_propagation (faultAfter 4) .rv64 ⟨memOfBytes 0 [], []⟩ 4096 0 8 5).2.2.1 (by decide),
    (fault_propagation (faultAfter 4) .rv64 ⟨memOfBytes 0 [], []⟩ 4096 0 8 5).2.2.2 (by decide)⟩

/-- Counterexample to C9 as stated (every unsigned `S > L`, every
`L < 2 ^ 31`). First, with `L = 5` and `S = 0xFFFFFFFF` the array
`[5, 3, 1, 4, 2]` is written back unsorted, while `helper_sort(addr, 5, 5)`
sorts it: the conversion `(int)sort_num` makes the sort length `-1`. Second,
on a 64-bit target with `L = 2 ^ 29 + 1` and `S = L + 1` the array does not
end up sorted: the word of index `2 ^ 29` stays below the word of index
`2 ^ 29 - 1`. -/
theorem helper_sort_huge_sortlen_not_clamped :
    ((helper_sort noFault .rv64 ⟨memOfWords 4096 [5, 3, 1, 4, 2], []⟩ 4096 5 4294967295).status
      = .ok ∧
    readWords .rv64
      (helper_sort noFault .rv64 ⟨memOfWords 4096 [5, 3, 1, 4, 2], []⟩ 4096 5 4294967295).env.mem
      4096 5 = [5, 3, 1, 4, 2] ∧
    readWords .rv64
      (helper_sort noFault .rv64 ⟨memOfWords 4096 [5, 3, 1, 4, 2], []⟩ 4096 5 5).env.mem
      4096 5 = [1, 2, 3, 4, 5]) ∧
    ((helper_sort noFault .rv64 ⟨gapMem, []⟩ 2147483648 536870913 536870914).status = .ok ∧
    readWord .rv64
        (helper_sort noFault .rv64 ⟨gapMem, []⟩ 2147483648 536870913 536870914).env.mem
        (2147483648 + 4 * 536870912)
      < readWord .rv64
        (helper_sort noFault .rv64 ⟨gapMem, []⟩ 2147483648 536870913 536870914).env.mem
        (2147483648 + 4 * 536870911)) :=
  ⟨by decide,
    (helper_sort_clamp noFault .rv64 ⟨gapMem, []⟩ 2147483648 536870913 536870914
      (by decide) (by decide)) ▸ helper_sort_rv64_large 536870913 (by omega) (by omega)⟩

/-- C9 (amended). Sort-length clamping: for every array length `L < 2 ^ 31` and
every sort-length operand `S` whose conversion to `int` exceeds `L` (every `S`
with `L < S < 2 ^ 31` in particular), `helper_sort(addr, L, S)` runs exactly
as `helper_sort(addr, L, L)` (same status, final memory and accesses); and for
`L ≤ 2 ^ 29` a run without a fault leaves the whole array in ascending
order. -/
theorem helper_sort_clamps (P : Port) (x : XLen) (env : Env) (addr L S : Nat)
    (hL : L < 2147483648) (hS : (L : Int) < toInt32 (S : Int)) :
    helper_sort P x env addr L S = helper_sort P x env addr L L ∧
    (L < S → S < 2147483648 → (L : Int) < toInt32 (S : Int)) ∧
    (L ≤ 536870912 → (helper_sort P x env addr L S).status ≠ .fault →
      (readWords x (helper_sort P x env addr L S).env.mem addr L).Sorted
        (fun a b => a ≤ b)) := by
  have e := helper_sort_clamp P x env addr L S hL hS
  refine ⟨e, ?_, ?_⟩
  · intro h1 h2
    unfold toInt32
    omega
  · intro hL2 hok
    rw [e] at hok ⊢
    have key := Res.post_of_not_fault (helper_sort P x env addr L L) _
      (helper_sort_post P x env addr L L hL2 hL (fun s _ => s = .fault) (faultsInto_fault P))
      hok
    have h := key.2.1
    rw [Nat.min_self] at h
    exact h

/-- Witness for C9: `S = 100`, `L = 5` behaves as `S = 5`. -/
theorem helper_sort_clamps_witness :
    ((5 : Nat) < 2147483648 ∧ ((5 : Nat) : Int) < toInt32 ((100 : Nat) : Int)) ∧
    (helper_sort noFault .rv32 ⟨memOfWords 4096 [5, 3, 1, 4, 2], []⟩ 4096 5 100
      = helper_sort noFault .rv32 ⟨memOfWords 4096 [5, 3, 1, 4, 2], []⟩ 4096 5 5 ∧
    (5 < 100 → 100 < 2147483648 → ((5 : Nat) : Int) < toInt32 ((100 : Nat) : Int)) ∧
    (5 ≤ 536870912 →
      (helper_sort noFault .rv32 ⟨memOfWords 4096 [5, 3, 1, 4, 2], []⟩ 4096 5 100).status
        ≠ .fault →
      (readWords .rv32
        (helper_sort noFault .rv32 ⟨memOfWords 4096 [5, 3, 1, 4, 2], []⟩ 4096 5 100).env.mem
        4096 5).Sorted (fun a b => a ≤ b))) :=
  ⟨⟨by decide, by decide⟩,
    helper_sort_clamps noFault .rv32 ⟨memOfWords 4096 [5, 3, 1, 4, 2], []⟩ 4096 5 100
      (by decide) (by decide)⟩

/-- C10. Sort with `sortLen = 0` is an echo: for every memory, address and
array length `L < 2 ^ 31`, a run of `helper_sort(addr, L, 0)` without a fault
leaves the entire memory equal to the memory before the call. -/
theorem helper_sort_zero_echo (P : Port) (x : XLen) (env : Env) (addr L : Nat)
    (hL : L < 2147483648) (hok : (helper_sort P x env addr L 0).status ≠ .fault) :
    (helper_sort P x env addr L 0).env.mem = env.mem :=
  (Res.post_of_not_fault (helper_sort P x env addr L 0) _
    (helper_sort_zero_sat P x env addr L hL (fun s _ => s = .fault) (faultsInto_fault P))
    hok).2

/-- Witness for C10: the array `[5, 3, 1, 4, 2]` with sort length `0`. -/
theorem helper_sort_zero_echo_witness :
    ((5 : Nat) < 2147483648 ∧
      (helper_sort noFault .rv64 ⟨memOfWords 4096 [5, 3, 1, 4, 2], []⟩ 4096 5 0).status
        ≠ .fault) ∧
    (helper_sort noFault .rv64 ⟨memOfWords 4096 [5, 3, 1, 4, 2], []⟩ 4096 5 0).env.mem
      = memOfWords 4096 [5, 3, 1, 4, 2] :=
  ⟨⟨by decide, by decide⟩,
    helper_sort_zero_echo noFault .rv64 ⟨memOfWords 4096 [5, 3, 1, 4, 2], []⟩ 4096 5
      (by decide) (by decide)⟩

/-- C11. Truncation of `helper_crush` on an odd count: for every port, memory,
`dst`, `src` and `count < 2 ^ 31`, (1) every byte outside the
`count / 2` destination bytes `dst + i` is unchanged, whether or not the run
faults; (2) a run that does not fault issues exactly the accesses of
`count / 2` iterations, so its loads are exactly the loads of the source bytes
`src + k`, `k < 2 * (count / 2)`, and its stores exactly the stores of the
bytes `dst + i`, `i < count / 2`, and for an odd count the trailing byte
`src + count - 1` is not loaded; (3) with an odd count the helper is the same
computation as with `count - 1` (same final memory, same accesses). -/
theorem helper_crush_truncates (P : Port) (x : XLen) (env : Env) (dst src count : Nat)
    (hc : count < 2147483648) :
    (∀ a : Nat, (∀ i : Nat, i < count / 2 → a ≠ (dst + i) % x.modulus) →
      (helper_crush P x env dst src count).env.mem a = env.mem a) ∧
    ((helper_crush P x env dst src count).status ≠ .fault →
      newAccesses env (helper_crush P x env dst src count)
        = crushAccesses x dst src (count / 2) ∧
      (∀ acc : Access, acc ∈ newAccesses env (helper_crush P x env dst src count) ↔
        (∃ k, k < 2 * (count / 2) ∧ acc = ⟨.load, (src + k) % x.modulus, 1, false⟩) ∨
        (∃ i, i < count / 2 ∧ acc = ⟨.store, (dst + i) % x.modulus, 1, false⟩)) ∧
      (count % 2 = 1 → ∀ acc ∈ newAccesses env (helper_crush P x env dst src count),
        acc.kind = .load → acc.addr ≠ (src + (count - 1)) % x.modulus)) ∧
    (count % 2 = 1 →
      helper_crush P x env dst src count = helper_crush P x env dst src (count - 1)) := by
  have h := helper_crush_trace_sat P x env dst src count hc
  refine ⟨?_, ?_, helper_crush_odd P x env dst src count hc⟩
  · by_cases hs : (helper_crush P x env dst src count).status = .ok
    · obtain ⟨_, _, _, hfr⟩ := Res.sat_ok _ _ _ h hs
      exact hfr
    · exact (Res.sat_failed _ _ _ h hs).2
  · intro hok
    have hs : (helper_crush P x env dst src count).status = .ok := by
      by_contra hne
      exact hok (Res.sat_failed _ _ _ h hne).1
    obtain ⟨_, _, ht, _⟩ := Res.sat_ok _ _ _ h hs
    rw [newAccesses_of_trace env _ _ ht]
    refine ⟨rfl, mem_crushAccesses x dst src (count / 2), ?_⟩
    intro hodd acc hacc hkind
    rcases (mem_crushAccesses x dst src (count / 2) acc).mp hacc with ⟨k, hk, rfl⟩ | ⟨i, _, rfl⟩
    · show (src + k) % x.modulus ≠ (src + (count - 1)) % x.modulus
      rcases modulus_cases x with hm | hm <;> rw [hm] <;> omega
    · cases hkind

/-- Witness for C11: packing 5 bytes issues the accesses of two iterations (the
fifth byte is not loaded) and is the same computation as packing 4 bytes. -/
theorem helper_crush_truncates_witness :
    (5 < 2147483648) ∧
    newAccesses ⟨memOfBytes 0 [1, 2, 3, 4, 9], []⟩
        (helper_crush noFault .rv64 ⟨memOfBytes 0 [1, 2, 3, 4, 9], []⟩ 4096 0 5)
      = crushAccesses .rv64 4096 0 2 ∧
    helper_crush noFault .rv64 ⟨memOfBytes 0 [1, 2, 3, 4, 9], []⟩ 4096 0 5
      = helper_crush noFault .rv64 ⟨memOfBytes 0 [1, 2, 3, 4, 9], []⟩ 4096 0 4 :=
  ⟨by decide,
    ((helper_crush_truncates noFault .rv64 ⟨memOfBytes 0 [1, 2, 3, 4, 9], []⟩ 4096 0 5
      (by decide)).2.1 (by decide)).1,
    (helper_crush_truncates noFault .rv64 ⟨memOfBytes 0 [1, 2, 3, 4, 9], []⟩ 4096 0 5
      (by decide)).2.2 (by decide)⟩

/-- C12. Partial completion of `helper_dma` on a fault: for every port,
memory, `src`, `dst` and grain code, with `N` the resolved dimension, if the
first access to fault is the access number `n + 1` of the invocation, then:
when `n < N * N` (the faulting access is a load of the read phase) the run
issued the `n` loads before it and no store, and memory equals the pre-call
memory; when `n ≥ N * N` the faulting access is the store of the destination
cell `c = n - N * N`, after all loads and the stores of the cells before `c`,
every cell `(i, j)` of row-major index `i * N + j < c` holds the word the
source cell `(j, i)` held before the call, and every byte outside these cells
is unchanged. -/
theorem helper_dma_stops_at_fault (P : Port) (x : XLen) (env : Env) (dst src grain n : Nat)
    (hff : firstFault (newAccesses env (helper_dma P x env dst src grain)) = some (n + 1)) :
    (helper_dma P x env dst src grain).status = .fault ∧
    (n < (grainSize grain).toNat * (grainSize grain).toNat →
      newAccesses env (helper_dma P x env dst src grain)
        = wordLoads x src n ++ [⟨.load, (src + 4 * n) % x.modulus, 4, true⟩] ∧
      (∀ a ∈ newAccesses env (helper_dma P x env dst src grain), a.kind = .load) ∧
      (helper_dma P x env dst src grain).env.mem = env.mem) ∧
    ((grainSize grain).toNat * (grainSize grain).toNat ≤ n →
      n < 2 * ((grainSize grain).toNat * (grainSize grain).toNat) ∧
      newAccesses env (helper_dma P x env dst src grain)
        = wordLoads x src ((grainSize grain).toNat * (grainSize grain).toNat)
          ++ wordStores x dst (n - (grainSize grain).toNat * (grainSize grain).toNat)
          ++ [⟨.store,
            (dst + 4 * (n - (grainSize grain).toNat * (grainSize grain).toNat)) % x.modulus,
            4, true⟩] ∧
      (∀ i j : Nat, i < (grainSize grain).toNat → j < (grainSize grain).toNat →
        i * (grainSize grain).toNat + j
          < n - (grainSize grain).toNat * (grainSize grain).toNat →
        readWord x (helper_dma P x env dst src grain).env.mem
            (dst + 4 * (i * (grainSize grain).toNat + j))
          = readWord x env.mem (src + 4 * (j * (grainSize grain).toNat + i))) ∧
      (∀ a : Nat,
        (∀ k : Nat, k < n - (grainSize grain).toNat * (grainSize grain).toNat →
          ∀ p : Nat, p < 4 → a ≠ (dst + 4 * k + p) % x.modulus) →
        (helper_dma P x env dst src grain).env.mem a = env.mem a)) := by
  have h := helper_dma_trace_sat P x env dst src grain
  rw [grainSize_sq] at h
  have hN : (grainSize grain).toNat = 8 ∨ (grainSize grain).toNat = 16
      ∨ (grainSize grain).toNat = 32 := by
    rcases grainSize_cases grain with h | h | h <;> rw [h] <;> simp
  generalize (grainSize grain).toNat = N at h hN ⊢
  generalize helper_dma P x env dst src grain = r at h hff ⊢
  by_cases hs : r.status = .ok
  · obtain ⟨_, _, ht⟩ := Res.sat_ok _ _ _ h hs
    rw [List.append_assoc] at ht
    rw [newAccesses_of_trace env _ _ ht, firstFault_allOk _
      (allOk_append _ _ (allOk_wordLoads _ _ _) (allOk_wordStores _ _ _))] at hff
    cases hff
  · obtain ⟨hfault, hcase⟩ := Res.sat_failed _ _ _ h hs
    refine ⟨hfault, ?_⟩
    rcases hcase with ⟨m, hm, ht, hmem⟩ | ⟨c, hc, ht, hcells, hframe⟩
    · rw [List.append_assoc] at ht
      have hnews := newAccesses_of_trace env _ _ ht
      rw [hnews, firstFault_snoc _ _ (allOk_wordLoads _ _ _) rfl, wordLoads_length] at hff
      have hnm : n = m := by
        have := Option.some.inj hff
        omega
      subst hnm
      rw [hnews]
      refine ⟨fun _ => ⟨rfl, ?_, hmem⟩, fun hge => absurd hge (by omega)⟩
      intro a ha
      rcases List.mem_append.mp ha with h1 | h1
      · exact kind_wordLoads _ _ _ _ h1
      · rw [List.mem_singleton.mp h1]
    · rw [List.append_assoc, List.append_assoc] at ht
      have hnews := newAccesses_of_trace env _ _ ht
      rw [← List.append_assoc] at hnews
      rw [hnews, firstFault_snoc _ _
        (allOk_append _ _ (allOk_wordLoads _ _ _) (allOk_wordStores _ _ _)) rfl,
        List.length_append, wordLoads_length, wordStores_length] at hff
      have hnc : n = N * N + c := by
        have := Option.some.inj hff
        omega
      subst hnc
      have hcc : N * N + c - N * N = c := by omega
      rw [hnews, hcc]
      refine ⟨fun hlt => absurd hlt (by omega), fun _ => ⟨by omega, rfl, ?_, hframe⟩⟩
      intro i j hi hj hij
      rw [hcells (i * N + j) hij]
      congr 3
      rcases hN with rfl | rfl | rfl <;> omega

/-- Witness for C12: an 8 x 8 transpose from address 0 to address 4096. When
the tenth access faults (a load), memory is as before the call; when the
access number 67 faults (the store of cell 2), the destination cells 0 and 1
hold the source cells `(0, 0)` and `(1, 0)` and every other byte is
unchanged. -/
theorem helper_dma_stops_at_fault_witness :
    (firstFault (newAccesses ⟨memOfWords 0 (List.range 64), []⟩
        (helper_dma (faultAfter 9) .rv64 ⟨memOfWords 0 (List.range 64), []⟩ 4096 0 0))
      = some (9 + 1) ∧
      firstFault (newAccesses ⟨memOfWords 0 (List.range 64), []⟩
        (helper_dma (faultAfter 66) .rv64 ⟨memOfWords 0 (List.range 64), []⟩ 4096 0 0))
      = some (66 + 1)) ∧
    (helper_dma (faultAfter 9) .rv64 ⟨memOfWords 0 (List.range 64), []⟩ 4096 0 0).env.mem
      = memOfWords 0 (List.range 64) ∧
    (∀ i j : Nat, i < 8 → j < 8 → i * 8 + j < 2 →
      readWord .rv64
          (helper_dma (faultAfter 66) .rv64 ⟨memOfWords 0 (List.range 64), []⟩
            4096 0 0).env.mem (4096 + 4 * (i * 8 + j))
        = readWord .rv64 (memOfWords 0 (List.range 64)) (0 + 4 * (j * 8 + i))) ∧
    (∀ a : Nat,
      (∀ k : Nat, k < 2 → ∀ p : Nat, p < 4 → a ≠ (4096 + 4 * k + p) % XLen.modulus .rv64) →
      (helper_dma (faultAfter 66) .rv64 ⟨memOfWords 0 (List.range 64), []⟩
        4096 0 0).env.mem a = memOfWords 0 (List.range 64) a) :=
  ⟨⟨by decide, by decide⟩,
    ((helper_dma_stops_at_fault (faultAfter 9) .rv64 ⟨memOfWords 0 (List.range 64), []⟩ 4096 0 0 9
      (by decide)).2.1 (by decide)).2.2,
    ((helper_dma_stops_at_fault (faultAfter 66) .rv64 ⟨memOfWords 0 (List.range 64), []⟩ 4096 0 0 66
      (by decide)).2.2 (by decide)).2.2.1,
    ((helper_dma_stops_at_fault (faultAfter 66) .rv64 ⟨memOfWords 0 (List.range 64), []⟩ 4096 0 0 66
      (by decide)).2.2 (by decide)).2.2.2⟩

/-- C13. Access trace of `helper_dma`: for every port, memory, `src`, `dst` and
grain code, with `N` the resolved dimension, a run that does not fault issues
exactly the `N * N` word loads at `src + 4 * k`, `k = 0, ..., N * N - 1`, in
that order, followed by the `N * N` word stores at `dst + 4 * k` in that
order (so no store precedes a load): `2 * N * N` memory-port calls, at most
`2 * 32 * 32`. -/
theorem helper_dma_access_trace (P : Port) (x : XLen) (env : Env) (dst src grain : Nat)
    (hok : (helper_dma P x env dst src grain).status ≠ .fault) :
    newAccesses env (helper_dma P x env dst src grain)
      = wordLoads x src ((grainSize grain).toNat * (grainSize grain).toNat)
        ++ wordStores x dst ((grainSize grain).toNat * (grainSize grain).toNat) ∧
    (newAccesses env (helper_dma P x env dst src grain)).length
      = 2 * (grainSize grain).toNat * (grainSize grain).toNat ∧
    (newAccesses env (helper_dma P x env dst src grain)).length ≤ 2 * 32 * 32 := by
  have h := helper_dma_trace_sat P x env dst src grain
  have hs : (helper_dma P x env dst src grain).status = .ok := by
    by_contra hne
    exact hok (Res.sat_failed _ _ _ h hne).1
  obtain ⟨_, _, ht⟩ := Res.sat_ok _ _ _ h hs
  rw [List.append_assoc, grainSize_sq] at ht
  rw [newAccesses_of_trace env _ _ ht, List.length_append, wordLoads_length,
    wordStores_length]
  refine ⟨rfl, by ring, ?_⟩
  rcases grainSize_cases grain with hN | hN | hN <;> rw [hN] <;> decide

/-- Witness for C13: an 8 x 8 transpose on a port that never faults issues
64 loads from address 0 on and then 64 stores from address 4096 on. -/
theorem helper_dma_access_trace_witness :
    (helper_dma noFault .rv64 ⟨memOfWords 0 (List.range 64), []⟩ 4096 0 0).status ≠ .fault ∧
    newAccesses ⟨memOfWords 0 (List.range 64), []⟩
        (helper_dma noFault .rv64 ⟨memOfWords 0 (List.range 64), []⟩ 4096 0 0)
      = wordLoads .rv64 0 64 ++ wordStores .rv64 4096 64 :=
  ⟨by decide,
    (helper_dma_access_trace noFault .rv64 ⟨memOfWords 0 (List.range 64), []⟩ 4096 0 0
      (by decide)).1⟩

/-- C14, evaluated at the array `[7, 9]` (`L = 2`) with the sort length
`S = 0x80000000`: the claimed trace is `L` loads followed by `L` stores for
every `S`, but here no access faults, the run issues the two loads and no
store, and it ends in a host-level failure (the buffer overrun of the swap
passes) before the write-back loop. -/
theorem helper_sort_no_write_back :
    (helper_sort noFault .rv64 ⟨memOfWords 4096 [7, 9], []⟩ 4096 2 2147483648).status
      = .abort ∧
    newAccesses ⟨memOfWords 4096 [7, 9], []⟩
        (helper_sort noFault .rv64 ⟨memOfWords 4096 [7, 9], []⟩ 4096 2 2147483648)
      = wordLoads .rv64 4096 2 ∧
    newAccesses ⟨memOfWords 4096 [7, 9], []⟩
        (helper_sort noFault .rv64 ⟨memOfWords 4096 [7, 9], []⟩ 4096 2 2147483648)
      ≠ wordLoads .rv64 4096 2 ++ wordStores .rv64 4096 2 := by
  decide

/-- C15. EXPAND-then-CRUSH is an exact inverse on all byte values: for every
`c < 2 ^ 30` and every `c` arbitrary bytes `p` at region `A`, with regions `B`
(`2c` bytes) and `C` (`c` bytes) such that `B` is disjoint from `A` and from
`C`, running `helper_expand(B, A, c)` and then `helper_crush(C, B, 2c)` without
a fault leaves the byte at `C + i` equal to `p[i]` for every `i < c`. -/
theorem expand_crush_inverse (P : Port) (x : XLen) (env : Env) (A B C c : Nat)
    (hc : c < 1073741824)
    (hAB : ∀ k : Nat, k < c → ∀ j : Nat, j < 2 * c →
      (A + k) % x.modulus ≠ (B + j) % x.modulus)
    (hBC : ∀ j : Nat, j < 2 * c → ∀ i : Nat, i < c →
      (B + j) % x.modulus ≠ (C + i) % x.modulus)
    (h1 : (helper_expand P x env B A c).status ≠ .fault)
    (h2 : (helper_crush P x (helper_expand P x env B A c).env C B (2 * c)).status ≠ .fault) :
    ∀ i : Nat, i < c →
      readByte x (helper_crush P x (helper_expand P x env B A c).env C B (2 * c)).env.mem
        (C + i) = readByte x env.mem (A + i) :=
  fun i hi => expand_then_crush P x env A B C c hc hAB hBC h1 h2 i hi

/-- Witness for C15: the bytes `[0xAB, 0xFF, 0x10]` at `A = 256`, expanded into
`B = 512` and crushed into `C = 768`, come back unchanged. -/
theorem expand_crush_inverse_witness :
    ((3 : Nat) < 1073741824 ∧
      (∀ k : Nat, k < 3 → ∀ j : Nat, j < 2 * 3 →
        (256 + k) % XLen.modulus .rv64 ≠ (512 + j) % XLen.modulus .rv64) ∧
      (∀ j : Nat, j < 2 * 3 → ∀ i : Nat, i < 3 →
        (512 + j) % XLen.modulus .rv64 ≠ (768 + i) % XLen.modulus .rv64) ∧
      (helper_expand noFault .rv64 ⟨memOfBytes 256 [0xAB, 0xFF, 0x10], []⟩ 512 256 3).status
        ≠ .fault ∧
      (helper_crush noFault .rv64
        (helper_expand noFault .rv64 ⟨memOfBytes 256 [0xAB, 0xFF, 0x10], []⟩ 512 256 3).env
        768 512 (2 * 3)).status ≠ .fault) ∧
    readBytes .rv64 (helper_crush noFault .rv64
        (helper_expand noFault .rv64 ⟨memOfBytes 256 [0xAB, 0xFF, 0x10], []⟩ 512 256 3).env
        768 512 (2 * 3)).env.mem 768 3 = [0xAB, 0xFF, 0x10] ∧
    (∀ i : Nat, i < 3 →
      readByte .rv64 (helper_crush noFault .rv64
        (helper_expand noFault .rv64 ⟨memOfBytes 256 [0xAB, 0xFF, 0x10], []⟩ 512 256 3).env
        768 512 (2 * 3)).env.mem (768 + i)
        = readByte .rv64 (memOfBytes 256 [0xAB, 0xFF, 0x10]) (256 + i)) :=
  ⟨⟨by decide, by decide, by decide, by decide, by decide⟩, by decide,
    expand_crush_inverse noFault .rv64 ⟨memOfBytes 256 [0xAB, 0xFF, 0x10], []⟩ 256 512 768 3
      (by decide) (by decide) (by decide) (by decide) (by decide)⟩

/-- C16. In-place CRUSH is safe: for every memory, address `a` and count below
`2 ^ 31`, a run of `helper_crush(a, a, count)` without a fault leaves the byte
at `a + i` equal to `((b[2i+1] & 0x0F) << 4) | (b[2i] & 0x0F)` for every
`i < count / 2`, where `b[k]` is the byte at `a + k` before the call; no store
at `a + k` lands on a byte that a later iteration `i > k` reads. -/
theorem helper_crush_in_place (P : Port) (x : XLen) (env : Env) (a count : Nat)
    (hc : count < 2147483648)
    (hok : (helper_crush P x env a a count).status ≠ .fault) :
    (∀ i : Nat, i < count / 2 →
      readByte x (helper_crush P x env a a count).env.mem (a + i)
        = ((readByte x env.mem (a + 2 * i + 1) &&& 0x0F) <<< 4)
            ||| (readByte x env.mem (a + 2 * i) &&& 0x0F)) ∧
    (∀ i k : Nat, k < i → i < count / 2 →
      (a + k) % x.modulus ≠ (a + 2 * i) % x.modulus ∧
      (a + k) % x.modulus ≠ (a + 2 * i + 1) % x.modulus) :=
  ⟨(Res.post_of_not_fault (helper_crush P x env a a count) _
    (helper_crush_sat P x env a a count hc (crush_in_place_safe x a count hc)
      (fun s _ => s = .fault) (faultsInto_fault P)) hok).2.1,
    crush_in_place_safe x a count hc⟩

/-- Witness for C16: six bytes crushed in place at address 256. -/
theorem helper_crush_in_place_witness :
    ((6 : Nat) < 2147483648 ∧
      (helper_crush noFault .rv32 ⟨memOfBytes 256 [1, 2, 3, 4, 5, 6], []⟩ 256 256 6).status
        ≠ .fault) ∧
    readBytes .rv32
      (helper_crush noFault .rv32 ⟨memOfBytes 256 [1, 2, 3, 4, 5, 6], []⟩ 256 256 6).env.mem
      256 6 = [0x21, 0x43, 0x65, 4, 5, 6] ∧
    ((∀ i : Nat, i < 6 / 2 →
      readByte .rv32
        (helper_crush noFault .rv32 ⟨memOfBytes 256 [1, 2, 3, 4, 5, 6], []⟩ 256 256 6).env.mem
        (256 + i)
        = ((readByte .rv32 (memOfBytes 256 [1, 2, 3, 4, 5, 6]) (256 + 2 * i + 1) &&& 0x0F)
              <<< 4)
            ||| (readByte .rv32 (memOfBytes 256 [1, 2, 3, 4, 5, 6]) (256 + 2 * i) &&& 0x0F)) ∧
    (∀ i k : Nat, k < i → i < 6 / 2 →
      (256 + k) % XLen.modulus .rv32 ≠ (256 + 2 * i) % XLen.modulus .rv32 ∧
      (256 + k) % XLen.modulus .rv32 ≠ (256 + 2 * i + 1) % XLen.modulus .rv32)) :=
  ⟨⟨by decide, by decide⟩, by decide,
    helper_crush_in_place noFault .rv32 ⟨memOfBytes 256 [1, 2, 3, 4, 5, 6], []⟩ 256 6
      (by decide) (by decide)⟩

/-- C17. In-place EXPAND is not overlap-safe and its result depends only on the
first byte: for every memory, address `a` and count with `1 ≤ count < 2 ^ 30`,
after a run of `helper_expand(a, a, count)` without a fault, with `v0` the
byte at `a` before the call, the byte at `a + 0` is `v0 & 0x0F`, and for every
`k` with `1 ≤ k < 2 * count` the byte at `a + k` is `(v0 >> 4) & 0x0F` when `k`
is a power of two and `0` otherwise. -/
theorem helper_expand_in_place (P : Port) (x : XLen) (env : Env) (a count : Nat)
    (h1 : 1 ≤ count) (hc : count < 1073741824)
    (hok : (helper_expand P x env a a count).status ≠ .fault) :
    readByte x (helper_expand P x env a a count).env.mem (a + 0)
      = readByte x env.mem a &&& 0x0F ∧
    (∀ k : Nat, 1 ≤ k → k < 2 * count →
      ((∃ m, k = 2 ^ m) →
        readByte x (helper_expand P x env a a count).env.mem (a + k)
          = (readByte x env.mem a >>> 4) &&& 0x0F) ∧
      ((¬ ∃ m, k = 2 ^ m) →
        readByte x (helper_expand P x env a a count).env.mem (a + k) = 0)) := by
  have key := (Res.post_of_not_fault (helper_expand P x env a a count) _
    (helper_expand_in_place_sat P x env a count hc (fun s _ => s = .fault)
      (faultsInto_fault P)) hok).2
  exact ⟨key.1 (by omega), key.2⟩

/-- Witness for C17: the bytes `[0x21, 0x43]` expanded in place give
`[0x1, 0x2, 0x2, 0x0]`, not the nibble expansion `[0x1, 0x2, 0x3, 0x4]` of the
source. -/
theorem helper_expand_in_place_witness :
    (1 ≤ 2 ∧ (2 : Nat) < 1073741824 ∧
      (helper_expand noFault .rv64 ⟨memOfBytes 256 [0x21, 0x43], []⟩ 256 256 2).status
        ≠ .fault) ∧
    readBytes .rv64
      (helper_expand noFault .rv64 ⟨memOfBytes 256 [0x21, 0x43], []⟩ 256 256 2).env.mem
      256 4 = [0x1, 0x2, 0x2, 0x0] ∧
    (readByte .rv64
      (helper_expand noFault .rv64 ⟨memOfBytes 256 [0x21, 0x43], []⟩ 256 256 2).env.mem
      (256 + 0) = readByte .rv64 (memOfBytes 256 [0x21, 0x43]) 256 &&& 0x0F ∧
    (∀ k : Nat, 1 ≤ k → k < 2 * 2 →
      ((∃ m, k = 2 ^ m) →
        readByte .rv64
          (helper_expand noFault .rv64 ⟨memOfBytes 256 [0x21, 0x43], []⟩ 256 256 2).env.mem
          (256 + k) = (readByte .rv64 (memOfBytes 256 [0x21, 0x43]) 256 >>> 4) &&& 0x0F) ∧
      ((¬ ∃ m, k = 2 ^ m) →
        readByte .rv64
          (helper_expand noFault .rv64 ⟨memOfBytes 256 [0x21, 0x43], []⟩ 256 256 2).env.mem
          (256 + k) = 0))) :=
  ⟨⟨by decide, by decide, by decide⟩, by decide,
    helper_expand_in_place noFault .rv64 ⟨memOfBytes 256 [0x21, 0x43], []⟩ 256 2
      (by decide) (by decide) (by decide)⟩

/-- C18. DMA frame: for every memory, `src`, `dst` and grain code with resolved
dimension `N`, a run of `helper_dma(dst, src, grain)` without a fault leaves
every memory byte outside the `4 * N * N`-byte range starting at `dst`
unchanged; in particular, when the source range `[src, src + 4 * N * N)` is
disjoint from the destination range, the source matrix is unchanged. -/
theorem helper_dma_frame (P : Port) (x : XLen) (env : Env) (dst src grain : Nat)
    (hok : (helper_dma P x env dst src grain).status ≠ .fault) :
    (∀ c : Nat,
      (∀ q : Nat, q < 4 * (grainSize grain).toNat * (grainSize grain).toNat →
        c ≠ (dst + q) % x.modulus) →
      (helper_dma P x env dst src grain).env.mem c = env.mem c) ∧
    ((∀ k : Nat, k < 4 * (grainSize grain).toNat * (grainSize grain).toNat →
      ∀ q : Nat, q < 4 * (grainSize grain).toNat * (grainSize grain).toNat →
        (src + k) % x.modulus ≠ (dst + q) % x.modulus) →
      ∀ k : Nat, k < (grainSize grain).toNat * (grainSize grain).toNat →
        readWord x (helper_dma P x env dst src grain).env.mem (src + 4 * k)
          = readWord x env.mem (src + 4 * k)) := by
  have hfr := (Res.post_of_not_fault _ _
    (helper_dma_sat P x env dst src grain _ (faultsInto_fault P)) hok).2.2
  have hN := grainSize_cases grain
  have frame : ∀ c : Nat,
      (∀ q : Nat, q < 4 * (grainSize grain).toNat * (grainSize grain).toNat →
        c ≠ (dst + q) % x.modulus) →
      (helper_dma P x env dst src grain).env.mem c = env.mem c := by
    intro c hc
    apply hfr c
    intro k hk p hp
    have := hc (4 * k + p) (by rcases hN with h | h | h <;> rw [h] at hk ⊢ <;> simp <;> omega)
    rw [← Nat.add_assoc] at this
    exact this
  refine ⟨frame, ?_⟩
  intro hdisj k hk
  apply readWord_eq_of_bytes
  intro p hp
  apply frame
  intro q hq
  have := hdisj (4 * k + p) (by rcases hN with h | h | h <;> rw [h] at hk ⊢ <;> simp at hk ⊢ <;> omega) q hq
  rw [← Nat.add_assoc] at this
  exact this

/-- Witness for C18: an 8 x 8 transpose from address 0 to address 4096; the
byte at 8192 and the source word 5 are unchanged. -/
theorem helper_dma_frame_witness :
    (helper_dma noFault .rv64 ⟨memOfWords 0 (List.range 64), []⟩ 4096 0 0).status ≠ .fault ∧
    ((∀ c : Nat,
      (∀ q : Nat, q < 4 * (grainSize 0).toNat * (grainSize 0).toNat →
        c ≠ (4096 + q) % XLen.modulus .rv64) →
      (helper_dma noFault .rv64 ⟨memOfWords 0 (List.range 64), []⟩ 4096 0 0).env.mem c
        = memOfWords 0 (List.range 64) c) ∧
    ((∀ k : Nat, k < 4 * (grainSize 0).toNat * (grainSize 0).toNat →
      ∀ q : Nat, q < 4 * (grainSize 0).toNat * (grainSize 0).toNat →
        (0 + k) % XLen.modulus .rv64 ≠ (4096 + q) % XLen.modulus .rv64) →
      ∀ k : Nat, k < (grainSize 0).toNat * (grainSize 0).toNat →
        readWord .rv64
          (helper_dma noFault .rv64 ⟨memOfWords 0 (List.range 64), []⟩ 4096 0 0).env.mem
          (0 + 4 * k) = readWord .rv64 (memOfWords 0 (List.range 64)) (0 + 4 * k))) :=
  ⟨by decide,
    helper_dma_frame noFault .rv64 ⟨memOfWords 0 (List.range 64), []⟩ 4096 0 0 (by decide)⟩

/-- C19, evaluated at the array `[7, 9]` (`L = 2`) with the sort length
`S = 0x80000000`: the claimed bound is `j + 1 < min(sort_size, L)` for every
sort length, but here `(int)S` is `INT_MIN`, which is not clamped, the loop
bound `sort_size - 1` wraps to `INT_MAX`, the inner loop reaches `j = 1`,
whose comparison reads the index `j + 1 = 2` of the two-element buffer, and
the helper ends in that buffer overrun. -/
theorem helper_sort_index_out_of_bounds :
    toInt32 2147483648 = -2147483648 ∧
    isub (toInt32 2147483648) 1 = 2147483647 ∧
    isub (isub (toInt32 2147483648) 0) 1 = 2147483647 ∧
    (sortStep 1 [7, 9] ⟨memOfWords 4096 [7, 9], []⟩).status = .abort ∧
    (helper_sort noFault .rv64 ⟨memOfWords 4096 [7, 9], []⟩ 4096 2 2147483648).status
      = .abort := by
  decide

end G233
